import Mathlib

/-!
# Gravitational lensing of a black hole: a verification development

Shallow embedding of `vec3.h`, `ode_solver.h`, `physics.h` and `main.cpp`.

Modelling conventions.

* A C++ `double` is an element of a linear ordered field `K` with exact
  arithmetic (`ℚ` for evaluation, `ℝ` for analysis).  Rounding, infinities
  and not-a-number values are outside the model.
* The functions of `<cmath>` that have no field counterpart (`sqrt`, `sin`,
  `cos`, `exp`) are taken as a parameter `M : MathFns K`; theorems state the
  facts about `M.sqrt` they rely on as hypotheses.
* The only division of the program whose divisor is not guarded is the one of
  `schwarzschild_equations`.  A zero divisor there yields `none`, the
  undefined state, which every later operation propagates.
* The compile-time constants `image_width` and `image_height` (500 and 300 in
  `main.cpp`) are the parameters `W` and `H`.
* A `std::vector` of fixed size is a function from the flat index.
-/

namespace Lensing

/-! ## vec3.h -/

/-- The class `Vec3`: three coordinates. -/
structure Vec3 (K : Type) where
  x : K
  y : K
  z : K
deriving DecidableEq, Repr

/-- The functions of the C mathematical library used by the program. -/
structure MathFns (K : Type) where
  sqrt : K → K
  sin : K → K
  cos : K → K
  exp : K → K

namespace Vec3

variable {K : Type} [LinearOrderedField K]

/-- The default constructor `Vec3()`. -/
def zero : Vec3 K := ⟨0, 0, 0⟩

instance : Zero (Vec3 K) := ⟨zero⟩

/-- The unary `operator-`. -/
def neg (v : Vec3 K) : Vec3 K := ⟨-v.x, -v.y, -v.z⟩

/-- The member `operator+`. -/
def add (u v : Vec3 K) : Vec3 K := ⟨u.x + v.x, u.y + v.y, u.z + v.z⟩

/-- The binary member `operator-`. -/
def sub (u v : Vec3 K) : Vec3 K := ⟨u.x - v.x, u.y - v.y, u.z - v.z⟩

/-- The member `operator*(double t)`. -/
def mul (v : Vec3 K) (t : K) : Vec3 K := ⟨v.x * t, v.y * t, v.z * t⟩

/-- The member `operator/(double t)`. -/
def div (v : Vec3 K) (t : K) : Vec3 K := ⟨v.x / t, v.y / t, v.z / t⟩

instance : Neg (Vec3 K) := ⟨neg⟩
instance : Add (Vec3 K) := ⟨add⟩
instance : Sub (Vec3 K) := ⟨sub⟩
instance : HMul (Vec3 K) K (Vec3 K) := ⟨mul⟩
instance : HDiv (Vec3 K) K (Vec3 K) := ⟨div⟩

/-- The member `length_squared`. -/
def length_squared (v : Vec3 K) : K := v.x * v.x + v.y * v.y + v.z * v.z

/-- The member `length`. -/
def length (M : MathFns K) (v : Vec3 K) : K := M.sqrt v.length_squared

/-- The member `normalized`, with its zero fallback. -/
def normalized (M : MathFns K) (v : Vec3 K) : Vec3 K :=
  let len := v.length M
  if len = 0 then ⟨0, 0, 0⟩ else v / len

/-- The static member `dot`. -/
def dot (u v : Vec3 K) : K := u.x * v.x + u.y * v.y + u.z * v.z

/-- The static member `cross`. -/
def cross (u v : Vec3 K) : Vec3 K :=
  ⟨u.y * v.z - u.z * v.y, u.z * v.x - u.x * v.z, u.x * v.y - u.y * v.x⟩

end Vec3

/-! ## physics.h -/

/-- The struct `PhotonState`: position and momentum. -/
structure PhotonState (K : Type) where
  pos : Vec3 K
  mom : Vec3 K
deriving DecidableEq, Repr

namespace PhotonState

variable {K : Type} [LinearOrderedField K]

/-- The member `operator+`. -/
def add (a b : PhotonState K) : PhotonState K := ⟨a.pos + b.pos, a.mom + b.mom⟩

/-- The member `operator*(double s)`. -/
def mul (a : PhotonState K) (s : K) : PhotonState K := ⟨a.pos * s, a.mom * s⟩

instance : Add (PhotonState K) := ⟨add⟩
instance : HMul (PhotonState K) K (PhotonState K) := ⟨mul⟩

end PhotonState

/-- A photon state that may be undefined: `none` once a division by zero has
occurred. -/
abbrev PState (K : Type) : Type := Option (PhotonState K)

namespace PState

variable {K : Type} [LinearOrderedField K]

/-- Addition of possibly undefined states. -/
def add : PState K → PState K → PState K
  | some a, some b => some (a + b)
  | _, _ => none

/-- Scaling of a possibly undefined state. -/
def mul : PState K → K → PState K
  | some a, s => some (a * s)
  | none, _ => none

instance : Add (PState K) := ⟨add⟩
instance : HMul (PState K) K (PState K) := ⟨mul⟩

end PState

section Physics

variable {K : Type} [LinearOrderedField K]

/-- The function `schwarzschild_equations`.  The second argument (`lambda`) is
unused, as in the source.  The result is `none` when the divisor
`r2 * r2 * r` is zero. -/
def schwarzschild_equations (M : MathFns K) (s : PhotonState K) (_lam : K) (rs : K) :
    Option (PhotonState K) :=
  let r2 := s.pos.length_squared
  let r := M.sqrt r2
  if r < 0.1 * rs then
    some ⟨⟨0, 0, 0⟩, ⟨0, 0, 0⟩⟩
  else
    let d_pos := s.mom
    let Lx := Vec3.cross s.pos s.mom
    let h2 := Lx.length_squared
    if r2 * r2 * r = 0 then
      none
    else
      let factor := -1.5 * rs * h2 / (r2 * r2 * r)
      let d_mom := s.pos * factor
      some ⟨d_pos, d_mom⟩

/-! ## ode_solver.h -/

/-- The template `rk4_step`, for any state type with addition and scaling. -/
def rk4_step {S : Type} [Add S] [HMul S K S] (x : S) (t dt : K) (func : S → K → S) : S :=
  let k1 := func x t
  let k2 := func (x + k1 * (dt * 0.5)) (t + dt * 0.5)
  let k3 := func (x + k2 * (dt * 0.5)) (t + dt * 0.5)
  let k4 := func (x + k3 * dt) (t + dt)
  x + (k1 + k2 * (2.0 : K) + k3 * (2.0 : K) + k4) * (dt / 6.0)

/-- The closure `equations` of `step_calculation`, extended to undefined
states. -/
def equations (M : MathFns K) (g_rs : K) : PState K → K → PState K
  | some s, t => schwarzschild_equations M s t g_rs
  | none, _ => none

end Physics

/-! ## main.cpp -/

section Main

variable {K : Type} [LinearOrderedField K] [FloorRing K]

/-- The struct `PrecomputedPixel`.  A field is `none` when it was computed
from an undefined state. -/
structure PrecomputedPixel (K : Type) where
  hit : Option Bool
  local_dir : Option (Vec3 K)

/-- The global variables of `main.cpp`.  A byte of `pixels` is `none` when it
was computed from an undefined map entry; the `static bool first` of
`main_loop` is the field `first`. -/
structure Globals (K : Type) where
  pixels : Nat → Option Nat
  distortion_map : Nat → PrecomputedPixel K
  distortion_map_ready : Bool
  calc_row : Nat
  is_calculating : Bool
  g_rs : K
  camera_yaw : K
  camera_pitch : K
  camera_dist : K
  bg_image_data : List Nat
  bg_width : Int
  bg_height : Int
  first : Bool

/-- The initial values of the global variables. -/
def initial : Globals K where
  pixels := fun _ => some 0
  distortion_map := fun _ => ⟨some false, some ⟨0, 0, 0⟩⟩
  distortion_map_ready := false
  calc_row := 0
  is_calculating := false
  g_rs := 4.0
  camera_yaw := 0.0
  camera_pitch := 0.0
  camera_dist := 150.0
  bg_image_data := []
  bg_width := 0
  bg_height := 0
  first := true

/-- The function `reset_calculation` (the page updates of `EM_ASM` are not
part of the state). -/
def reset_calculation (g : Globals K) : Globals K :=
  { g with calc_row := 0, is_calculating := true, distortion_map_ready := false }

/-- The function `set_mass`. -/
def set_mass (val : K) (g : Globals K) : Globals K :=
  if g.g_rs ≠ val then reset_calculation { g with g_rs := val } else g

/-- The function `set_dist`. -/
def set_dist (val : K) (g : Globals K) : Globals K :=
  if g.camera_dist ≠ val then reset_calculation { g with camera_dist := val } else g

/-- The function `set_background_image`; `src` is the memory at `data_ptr`. -/
def set_background_image (width height : Int) (src : Nat → Nat) (g : Globals K) : Globals K :=
  { g with
    bg_width := width
    bg_height := height
    bg_image_data := (List.range (width * height * 4).toNat).map src }

/-- The conversion `static_cast<int>` of a double: truncation toward zero. -/
def trunc (x : K) : Int := if 0 ≤ x then ⌊x⌋ else ⌈x⌉

/-- The call `std::fmod(x, 1.0)`. -/
def fmod_one (x : K) : K := x - (trunc x : K)

/-- The function `hash13`. -/
def hash13 (M : MathFns K) (x y z : K) : K :=
  let p := x * 12.9898 + y * 78.233 + z * 37.719
  fmod_one (M.sin p * 43758.5453)

/-- The function `get_background_color`.  The locals `theta`, `phi`, `u` and
`v` of the star field are computed and never read in the source; they are
left out. -/
def get_background_color (M : MathFns K) (g : Globals K) (dir : Vec3 K) : Vec3 K :=
  if ¬ g.bg_image_data.isEmpty ∧ g.bg_width > 0 ∧ g.bg_height > 0 then
    if dir.z ≤ 0.0 then ⟨0, 0, 0⟩
    else
      let dist := dir.z
      let scale : K := 0.15
      let aspect : K := (g.bg_height : K) / (g.bg_width : K)
      let v := 0.5 - (dir.y / dist) * scale
      let u := 0.5 + (dir.x / dist) * scale * aspect
      if u ≥ 0.0 ∧ u ≤ 1.0 ∧ v ≥ 0.0 ∧ v ≤ 1.0 then
        let tx := trunc (u * ((g.bg_width - 1 : Int) : K))
        let ty := trunc (v * ((g.bg_height - 1 : Int) : K))
        let tx := max 0 (min tx (g.bg_width - 1))
        let ty := max 0 (min ty (g.bg_height - 1))
        let idx := (ty * g.bg_width + tx) * 4
        ⟨(g.bg_image_data.getD idx.toNat 0 : K) / 255.0,
         (g.bg_image_data.getD (idx + 1).toNat 0 : K) / 255.0,
         (g.bg_image_data.getD (idx + 2).toNat 0 : K) / 255.0⟩
      else ⟨0, 0, 0⟩
  else
    let color : Vec3 K := ⟨0.02, 0.02, 0.05⟩
    let color :=
      let scale : K := 100.0
      let dx : K := (⌊dir.x * scale⌋ : Int)
      let dy : K := (⌊dir.y * scale⌋ : Int)
      let dz : K := (⌊dir.z * scale⌋ : Int)
      let h := |hash13 M dx dy dz|
      if h > 0.98 then
        let intensity := (h - 0.98) / 0.02
        color + (⟨1, 1, 1⟩ : Vec3 K) * intensity * (0.8 : K)
      else color
    let color :=
      let scale : K := 50.0
      let dx : K := (⌊dir.x * scale + 100.0⌋ : Int)
      let dy : K := (⌊dir.y * scale + 100.0⌋ : Int)
      let dz : K := (⌊dir.z * scale + 100.0⌋ : Int)
      let h := |hash13 M dx dy dz|
      if h > 0.99 then
        let intensity := (h - 0.99) / 0.01
        color + (⟨0.8, 0.9, 1.0⟩ : Vec3 K) * intensity * (1.5 : K)
      else color
    let band := M.exp (-dir.y * dir.y * 10.0)
    let noise := |M.sin (dir.x * 5.0) * M.cos (dir.z * 5.0)|
    color + (⟨0.1, 0.05, 0.2⟩ : Vec3 K) * band * (0.5 + 0.5 * noise)

/-- The function `rotate_vector`: pitch about the X axis, then yaw about the
Y axis. -/
def rotate_vector (M : MathFns K) (v : Vec3 K) (yaw pitch : K) : Vec3 K :=
  let cp := M.cos pitch
  let sp := M.sin pitch
  let y1 := v.y * cp - v.z * sp
  let z1 := v.y * sp + v.z * cp
  let x1 := v.x
  let cy := M.cos yaw
  let sy := M.sin yaw
  let x2 := x1 * cy + z1 * sy
  let z2 := -x1 * sy + z1 * cy
  let y2 := y1
  ⟨x2, y2, z2⟩

/-- The ray direction of pixel `(i, j)` in `step_calculation`: `ray_dir`. -/
def pixel_ray_dir (M : MathFns K) (camera_dist : K) (W H i j : Nat) : Vec3 K :=
  let calc_cam_pos : Vec3 K := ⟨0, 0, -camera_dist⟩
  let forward : Vec3 K := ⟨0, 0, 1⟩
  let right : Vec3 K := ⟨1, 0, 0⟩
  let up : Vec3 K := ⟨0, 1, 0⟩
  let screen_dist : K := 10.0
  let screen_width : K := 32.0
  let screen_height : K := screen_width * ((H : K) / (W : K))
  let screen_origin := calc_cam_pos + forward * screen_dist
                         - right * (screen_width * 0.5)
                         - up * (screen_height * 0.5)
  let screen_x := right * (screen_width / (W : K))
  let screen_y := up * (screen_height / (H : K))
  let pixel_pos := screen_origin + screen_x * (i : K)
                     + screen_y * (((H : Int) - 1 - (j : Int) : Int) : K)
  (pixel_pos - calc_cam_pos).normalized M

/-- The step size chosen at the head of the integration loop. -/
def step_size (g_rs r_curr : K) : K :=
  let dt : K := 0.5
  let dt := if r_curr < g_rs * 10.0 then 0.1 else dt
  let dt := if r_curr < g_rs * 3.0 then 0.02 else dt
  dt

/-- The integration loop `for (step = 0; step < max_steps; ++step)` with
`max_steps - step = n` iterations left: the final `hit_bh` and `state`, or
`none` once the state is undefined.  The local `t` stays 0. -/
def integrate (M : MathFns K) (g_rs : K) : Nat → PhotonState K → Option (Bool × PhotonState K)
  | 0, state => some (false, state)
  | n + 1, state =>
    let r_curr := M.sqrt state.pos.length_squared
    let dt := step_size g_rs r_curr
    match rk4_step (some state : PState K) (0 : K) dt (equations M g_rs) with
    | none => none
    | some state =>
      let r_sq := state.pos.length_squared
      let rh := g_rs
      if r_sq < rh * rh * 1.1 then some (true, state)
      else if r_sq > 1000.0 * 1000.0 then some (false, state)
      else integrate M g_rs n state

/-- The constant `max_steps`. -/
def max_steps : Nat := 2000

/-- The body of the pixel loop up to the map write: the final `hit_bh` and
`state` of pixel `(i, j)`. -/
def trace_pixel (M : MathFns K) (g_rs camera_dist : K) (W H i j : Nat) :
    Option (Bool × PhotonState K) :=
  let calc_cam_pos : Vec3 K := ⟨0, 0, -camera_dist⟩
  let ray_dir := pixel_ray_dir M camera_dist W H i j
  integrate M g_rs max_steps ⟨calc_cam_pos, ray_dir⟩

/-- The map write at the end of the pixel loop: `hit` is always stored,
`local_dir` only when the photon was not captured. -/
def write_pixel (M : MathFns K) (old : PrecomputedPixel K) :
    Option (Bool × PhotonState K) → PrecomputedPixel K
  | none => ⟨none, none⟩
  | some (true, _) => { old with hit := some true }
  | some (false, state) => ⟨some false, some (state.mom.normalized M)⟩

/-- The loop over `i` of `step_calculation` for row `j`. -/
def calc_row_pixels (M : MathFns K) (g_rs camera_dist : K) (W H j : Nat)
    (map : Nat → PrecomputedPixel K) : Nat → PrecomputedPixel K :=
  (List.range W).foldl
    (fun m (i : Nat) =>
      let idx := j * W + i
      Function.update m idx (write_pixel M (m idx) (trace_pixel M g_rs camera_dist W H i j)))
    map

/-- The function `step_calculation`. -/
def step_calculation (M : MathFns K) (W H : Nat) (g : Globals K) : Globals K :=
  if ¬ g.is_calculating then g
  else
    let rows_per_step := 5
    let end_row := min (g.calc_row + rows_per_step) H
    let map := (List.range' g.calc_row (end_row - g.calc_row)).foldl
      (fun m (j : Nat) => calc_row_pixels M g.g_rs g.camera_dist W H j m) g.distortion_map
    let g := { g with distortion_map := map, calc_row := end_row }
    if g.calc_row ≥ H then
      { g with is_calculating := false, distortion_map_ready := true }
    else g

/-- An event returned by `SDL_PollEvent`. -/
inductive Event where
  | mouse_motion (left_button : Bool) (xrel yrel : Int)
  | other
deriving DecidableEq, Repr

/-- The body of the event loop of `main_loop`. -/
def handle_event (g : Globals K) : Event → Globals K
  | Event.mouse_motion true xrel yrel =>
    let yaw := g.camera_yaw - (xrel : K) * 0.005
    let pitch := g.camera_pitch + (yrel : K) * 0.005
    let pitch := max (-1.5) (min 1.5 pitch)
    { g with camera_yaw := yaw, camera_pitch := pitch }
  | _ => g

/-- The assignment of a double to a `uint8_t` through `static_cast<int>`. -/
def to_byte (x : K) : Nat := (trunc x % 256).toNat

/-- The three colour bytes and the alpha byte written at `p_idx`. -/
def put_color (pixels : Nat → Option Nat) (p_idx : Nat) (c : Option (Vec3 K)) :
    Nat → Option Nat :=
  let pixels := Function.update pixels (p_idx + 0) (c.map fun c => to_byte (255.99 * min c.x 1.0))
  let pixels := Function.update pixels (p_idx + 1) (c.map fun c => to_byte (255.99 * min c.y 1.0))
  let pixels := Function.update pixels (p_idx + 2) (c.map fun c => to_byte (255.99 * min c.z 1.0))
  Function.update pixels (p_idx + 3) (some 255)

/-- The main drawing loop of `main_loop`. -/
def draw_main (M : MathFns K) (W H : Nat) (g : Globals K) : Nat → Option Nat :=
  (List.range H).foldl
    (fun px (j : Nat) =>
      (List.range W).foldl
        (fun px (i : Nat) =>
          let idx := j * W + i
          let p := g.distortion_map idx
          let pixel_color : Option (Vec3 K) :=
            match p.hit with
            | none => none
            | some true => some ⟨0, 0, 0⟩
            | some false =>
              p.local_dir.map fun local_dir =>
                let world_dir := rotate_vector M local_dir g.camera_yaw g.camera_pitch
                get_background_color M g world_dir
          put_color px (idx * 4) pixel_color)
        px)
    g.pixels

/-- The reference view of `main_loop`, drawn over the main view. -/
def draw_pip (M : MathFns K) (W H : Nat) (g : Globals K) (pixels : Nat → Option Nat) :
    Nat → Option Nat :=
  let pip_scale := 4
  let pip_w := W / pip_scale
  let pip_h := H / pip_scale
  let pip_offset_x : Int := (W : Int) - pip_w - 20
  let pip_offset_y : Int := 20
  let pip_screen_dist : K := 10.0
  let pip_screen_width : K := 32.0
  let pip_screen_height : K := pip_screen_width * ((H : K) / (W : K))
  let local_cam_pos : Vec3 K := ⟨0, 0, -g.camera_dist⟩
  let local_forward : Vec3 K := ⟨0, 0, 1⟩
  let local_right : Vec3 K := ⟨1, 0, 0⟩
  let local_up : Vec3 K := ⟨0, 1, 0⟩
  let screen_origin := local_cam_pos + local_forward * pip_screen_dist
                         - local_right * (pip_screen_width * 0.5)
                         - local_up * (pip_screen_height * 0.5)
  let screen_dx := local_right * (pip_screen_width / (pip_w : K))
  let screen_dy := local_up * (pip_screen_height / (pip_h : K))
  (List.range pip_h).foldl
    (fun px (y : Nat) =>
      (List.range pip_w).foldl
        (fun px (x : Nat) =>
          let pixel_pos := screen_origin + screen_dx * (x : K)
                             + screen_dy * (((pip_h : Int) - 1 - (y : Int) : Int) : K)
          let local_dir := (pixel_pos - local_cam_pos).normalized M
          let world_dir := rotate_vector M local_dir g.camera_yaw g.camera_pitch
          let color := get_background_color M g world_dir
          let dest_x : Int := pip_offset_x + x
          let dest_y : Int := pip_offset_y + y
          let idx : Nat := ((dest_y * W + dest_x) * 4).toNat
          let px :=
            if x = 0 ∨ x = pip_w - 1 ∨ y = 0 ∨ y = pip_h - 1 then
              Function.update (Function.update (Function.update px idx (some 255))
                (idx + 1) (some 255)) (idx + 2) (some 255)
            else
              Function.update (Function.update (Function.update px idx
                (some (to_byte (255.99 * min color.x 1.0))))
                (idx + 1) (some (to_byte (255.99 * min color.y 1.0))))
                (idx + 2) (some (to_byte (255.99 * min color.z 1.0)))
          Function.update px (idx + 3) (some 255))
        px)
    pixels

/-- The function `main_loop`; `events` are the events `SDL_PollEvent` returns
during this call. -/
def main_loop (M : MathFns K) (W H : Nat) (events : List Event) (g : Globals K) : Globals K :=
  let g := if g.first then { reset_calculation g with first := false } else g
  if g.is_calculating then step_calculation M W H g
  else
    let g := events.foldl handle_event g
    if ¬ g.distortion_map_ready then g
    else { g with pixels := draw_pip M W H g (draw_main M W H g) }

/-- The mirror image of a vector in the plane `x = 0`. -/
def Vec3.mirror_x (v : Vec3 K) : Vec3 K := ⟨-v.x, v.y, v.z⟩

/-- The mirror image of a photon state in the plane `x = 0`. -/
def PhotonState.mirror_x (s : PhotonState K) : PhotonState K := ⟨s.pos.mirror_x, s.mom.mirror_x⟩

/-- A call from the host: one of the exported setters, or one run of
`main_loop` with the events pending at that time. -/
inductive Action (K : Type) where
  | set_mass (val : K)
  | set_dist (val : K)
  | set_background_image (width height : Int) (src : Nat → Nat)
  | main_loop (events : List Event)

/-- The effect of a host call on the global variables. -/
def apply_action (M : MathFns K) (W H : Nat) : Action K → Globals K → Globals K
  | Action.set_mass val, g => set_mass val g
  | Action.set_dist val, g => set_dist val g
  | Action.set_background_image width height src, g => set_background_image width height src g
  | Action.main_loop events, g => main_loop M W H events g

/-- The state after a sequence of host calls from the initial state. -/
def run (M : MathFns K) (W H : Nat) (acts : List (Action K)) : Globals K :=
  acts.foldl (fun g a => apply_action M W H a g) initial

/-- Entry `(i, j)` of the map holds the outcome of the per-pixel integration
for the current `g_rs` and `camera_dist`: its hit flag and, when the photon
was not captured, its normalized final momentum. -/
def entry_current (M : MathFns K) (W H : Nat) (g : Globals K) (i j : Nat) : Prop :=
  (g.distortion_map (j * W + i)).hit =
      (trace_pixel M g.g_rs g.camera_dist W H i j).map Prod.fst ∧
  ∀ st, trace_pixel M g.g_rs g.camera_dist W H i j = some (false, st) →
    (g.distortion_map (j * W + i)).local_dir = some (st.mom.normalized M)

/-- The invariant of the scheduler: the flags exclude each other, the cursor
is `H` when Ready and 0 before the first reset, and every row above the cursor
holds the outcome of the integration for the current parameters. -/
def scheduler_inv (M : MathFns K) (W H : Nat) (g : Globals K) : Prop :=
  (g.is_calculating = true → g.distortion_map_ready = false) ∧
  (g.distortion_map_ready = true → g.calc_row = H) ∧
  (g.is_calculating = false → g.distortion_map_ready = false → g.calc_row = 0) ∧
  (∀ j i, j < g.calc_row → i < W → entry_current M W H g i j)

end Main

/-- What the program needs of `sqrt`: a non-negative square root of every
non-negative number. -/
structure SqrtSpec {K : Type} [LinearOrderedField K] (M : MathFns K) : Prop where
  nonneg : ∀ x, 0 ≤ M.sqrt x
  sq : ∀ x, 0 ≤ x → M.sqrt x * M.sqrt x = x

/-- The real-number reading of the C mathematical library. -/
noncomputable def real_fns : MathFns ℝ := ⟨Real.sqrt, Real.sin, Real.cos, Real.exp⟩

/-- The Euclidean length of a real vector, `Vec3.length` read over the reals. -/
noncomputable def Vec3.norm (v : Vec3 ℝ) : ℝ := Real.sqrt v.length_squared

/-- The `factor` of `schwarzschild_equations` for `rs = 4` over the reals. -/
noncomputable def force_coeff (p m : Vec3 ℝ) : ℝ :=
  -1.5 * 4 * (Vec3.cross p m).length_squared /
    (p.length_squared * p.length_squared * Real.sqrt p.length_squared)

/-- The invariant of the integration loop along a far fly-by with angular
momentum near `h0`, after `n` steps from distance 150 with unit momentum. -/
def far_inv (h0 : ℝ) (n : Nat) (s : PhotonState ℝ) : Prop :=
  |(Vec3.cross s.pos s.mom).norm - h0| ≤ 0.0008 * (n : ℝ) ∧
  s.pos.norm ≤ 150 + 0.6 * (n : ℝ) ∧
  |s.mom.norm - 1| ≤ 0.00045 * (n : ℝ) ∧
  s.mom.norm ≤ 1.1125 ∧
  (n ≤ 250 → -80 + 0.33 * (n : ℝ) ≤ Vec3.dot s.pos s.mom) ∧
  (250 ≤ n → 2 ≤ Vec3.dot s.pos s.mom)

/-- The ray direction of pixel `(x, y)` of the reference view in `main_loop`:
`local_dir`. -/
def pip_ray_dir {K : Type} [LinearOrderedField K] (M : MathFns K) (camera_dist : K)
    (W H x y : Nat) : Vec3 K :=
  let pip_scale := 4
  let pip_w := W / pip_scale
  let pip_h := H / pip_scale
  let pip_screen_dist : K := 10.0
  let pip_screen_width : K := 32.0
  let pip_screen_height : K := pip_screen_width * ((H : K) / (W : K))
  let local_cam_pos : Vec3 K := ⟨0, 0, -camera_dist⟩
  let local_forward : Vec3 K := ⟨0, 0, 1⟩
  let local_right : Vec3 K := ⟨1, 0, 0⟩
  let local_up : Vec3 K := ⟨0, 1, 0⟩
  let screen_origin := local_cam_pos + local_forward * pip_screen_dist
                         - local_right * (pip_screen_width * 0.5)
                         - local_up * (pip_screen_height * 0.5)
  let screen_dx := local_right * (pip_screen_width / (pip_w : K))
  let screen_dy := local_up * (pip_screen_height / (pip_h : K))
  let pixel_pos := screen_origin + screen_dx * (x : K)
                     + screen_dy * (((pip_h : Int) - 1 - (y : Int) : Int) : K)
  (pixel_pos - local_cam_pos).normalized M

end Lensing

namespace Lensing

section Scheduler

variable {K : Type} [LinearOrderedField K]

theorem step_calculation_idle (M : MathFns K) (W H : Nat) (g : Globals K)
    (h : g.is_calculating = false) : step_calculation M W H g = g := by
  simp [step_calculation, h]

theorem step_calculation_calc_row (M : MathFns K) (W H : Nat) (g : Globals K)
    (h : g.is_calculating = true) :
    (step_calculation M W H g).calc_row = min (g.calc_row + 5) H := by
  simp only [step_calculation, h]
  split_ifs <;> simp_all

theorem step_calculation_is_calculating (M : MathFns K) (W H : Nat) (g : Globals K)
    (h : g.is_calculating = true) :
    ((step_calculation M W H g).is_calculating = true ↔ g.calc_row + 5 < H) := by
  simp only [step_calculation, h]
  split_ifs <;> simp_all

theorem step_calculation_ready (M : MathFns K) (W H : Nat) (g : Globals K)
    (h : g.is_calculating = true) :
    ((step_calculation M W H g).distortion_map_ready = true ↔
      (H ≤ g.calc_row + 5 ∨ g.distortion_map_ready = true)) := by
  simp only [step_calculation, h]
  split_ifs <;> simp_all

/-- The scheduler state after `k` steps from a reset. -/
theorem iterate_step_from_reset (M : MathFns K) (W H : Nat) (hH : 0 < H) (g : Globals K) (k : Nat) :
    ((step_calculation M W H)^[k] (reset_calculation g)).calc_row = min (5 * k) H ∧
    (((step_calculation M W H)^[k] (reset_calculation g)).is_calculating = true ↔ 5 * k < H) ∧
    (((step_calculation M W H)^[k] (reset_calculation g)).distortion_map_ready = true ↔
      H ≤ 5 * k) := by
  induction k with
  | zero =>
    simp [reset_calculation]
    omega
  | succ k ih =>
    simp only [Function.iterate_succ_apply']
    obtain ⟨h1, h2, h3⟩ := ih
    by_cases hk : 5 * k < H
    · have hc := h2.mpr hk
      rw [step_calculation_calc_row M W H _ hc, step_calculation_is_calculating M W H _ hc,
        step_calculation_ready M W H _ hc, h1, h3]
      refine ⟨by omega, by omega, by omega⟩
    · have hc : ((step_calculation M W H)^[k] (reset_calculation g)).is_calculating = false := by
        simpa using mt h2.mp hk
      rw [step_calculation_idle M W H _ hc, h1, h2, h3]
      refine ⟨by omega, by omega, by omega⟩

/-- C1: after `reset_calculation` the scheduler is Computing at row 0; after
`k` calls of `step_calculation` the row cursor is `min (5 * k) H`; the state is
Ready with cursor `H` from `⌈H / 5⌉` calls on and Computing before. -/
theorem scheduler_lifecycle (M : MathFns K) (W H : Nat) (hH : 0 < H) (g : Globals K) :
    ((reset_calculation g).is_calculating = true ∧
      (reset_calculation g).distortion_map_ready = false ∧
      (reset_calculation g).calc_row = 0) ∧
    ∀ k : Nat,
      ((step_calculation M W H)^[k] (reset_calculation g)).calc_row = min (5 * k) H ∧
      ((H + 4) / 5 ≤ k →
        ((step_calculation M W H)^[k] (reset_calculation g)).distortion_map_ready = true ∧
        ((step_calculation M W H)^[k] (reset_calculation g)).is_calculating = false ∧
        ((step_calculation M W H)^[k] (reset_calculation g)).calc_row = H) ∧
      (k < (H + 4) / 5 →
        ((step_calculation M W H)^[k] (reset_calculation g)).is_calculating = true ∧
        ((step_calculation M W H)^[k] (reset_calculation g)).distortion_map_ready = false) := by
  refine ⟨⟨rfl, rfl, rfl⟩, fun k => ?_⟩
  obtain ⟨h1, h2, h3⟩ := iterate_step_from_reset M W H hH g k
  refine ⟨h1, fun hk => ?_, fun hk => ?_⟩
  · have h5 : H ≤ 5 * k := by omega
    refine ⟨h3.mpr h5, ?_, by rw [h1]; omega⟩
    have : ¬ 5 * k < H := by omega
    simpa using mt h2.mp this
  · have h5 : 5 * k < H := by omega
    refine ⟨h2.mpr h5, ?_⟩
    have : ¬ H ≤ 5 * k := by omega
    simpa using mt h3.mp this

/-- C1 at the source's constants: 60 calls for height 300. -/
theorem scheduler_lifecycle_witness :
    0 < 300 ∧ (300 + 4) / 5 = 60 ∧
    ((step_calculation real_fns 500 300)^[60]
        (reset_calculation (initial : Globals ℝ))).distortion_map_ready = true ∧
    ((step_calculation real_fns 500 300)^[59]
        (reset_calculation (initial : Globals ℝ))).is_calculating = true :=
  ⟨by decide, by decide,
    ((scheduler_lifecycle real_fns 500 300 (by decide) initial).2 60).2.1 (by decide) |>.1,
    ((scheduler_lifecycle real_fns 500 300 (by decide) initial).2 59).2.2 (by decide) |>.1⟩

end Scheduler
end Lensing

namespace Lensing

/-! ## Vector algebra -/

section VecLemmas

theorem Vec3.vec_ext {K : Type} {u v : Vec3 K} (hx : u.x = v.x) (hy : u.y = v.y) (hz : u.z = v.z) : u = v := by
  cases u; cases v; simp_all

theorem PhotonState.state_ext {K : Type} {a b : PhotonState K} (hp : a.pos = b.pos) (hm : a.mom = b.mom) :
    a = b := by
  cases a; cases b; simp_all

variable {K : Type} [LinearOrderedField K]

@[simp] theorem Vec3.zero_x : (0 : Vec3 K).x = 0 := rfl
@[simp] theorem Vec3.zero_y : (0 : Vec3 K).y = 0 := rfl
@[simp] theorem Vec3.zero_z : (0 : Vec3 K).z = 0 := rfl
@[simp] theorem Vec3.add_x (u v : Vec3 K) : (u + v).x = u.x + v.x := rfl
@[simp] theorem Vec3.add_y (u v : Vec3 K) : (u + v).y = u.y + v.y := rfl
@[simp] theorem Vec3.add_z (u v : Vec3 K) : (u + v).z = u.z + v.z := rfl
@[simp] theorem Vec3.sub_x (u v : Vec3 K) : (u - v).x = u.x - v.x := rfl
@[simp] theorem Vec3.sub_y (u v : Vec3 K) : (u - v).y = u.y - v.y := rfl
@[simp] theorem Vec3.sub_z (u v : Vec3 K) : (u - v).z = u.z - v.z := rfl
@[simp] theorem Vec3.neg_x (u : Vec3 K) : (-u).x = -u.x := rfl
@[simp] theorem Vec3.neg_y (u : Vec3 K) : (-u).y = -u.y := rfl
@[simp] theorem Vec3.neg_z (u : Vec3 K) : (-u).z = -u.z := rfl
@[simp] theorem Vec3.mul_x (u : Vec3 K) (t : K) : (u * t).x = u.x * t := rfl
@[simp] theorem Vec3.mul_y (u : Vec3 K) (t : K) : (u * t).y = u.y * t := rfl
@[simp] theorem Vec3.mul_z (u : Vec3 K) (t : K) : (u * t).z = u.z * t := rfl
@[simp] theorem Vec3.div_x (u : Vec3 K) (t : K) : (u / t).x = u.x / t := rfl
@[simp] theorem Vec3.div_y (u : Vec3 K) (t : K) : (u / t).y = u.y / t := rfl
@[simp] theorem Vec3.div_z (u : Vec3 K) (t : K) : (u / t).z = u.z / t := rfl
@[simp] theorem Vec3.cross_x (u v : Vec3 K) : (Vec3.cross u v).x = u.y * v.z - u.z * v.y := rfl
@[simp] theorem Vec3.cross_y (u v : Vec3 K) : (Vec3.cross u v).y = u.z * v.x - u.x * v.z := rfl
@[simp] theorem Vec3.cross_z (u v : Vec3 K) : (Vec3.cross u v).z = u.x * v.y - u.y * v.x := rfl
@[simp] theorem PhotonState.add_pos (a b : PhotonState K) : (a + b).pos = a.pos + b.pos := rfl
@[simp] theorem PhotonState.add_mom (a b : PhotonState K) : (a + b).mom = a.mom + b.mom := rfl
@[simp] theorem PhotonState.mul_pos (a : PhotonState K) (t : K) : (a * t).pos = a.pos * t := rfl
@[simp] theorem PhotonState.mul_mom (a : PhotonState K) (t : K) : (a * t).mom = a.mom * t := rfl
@[simp] theorem PState.some_add (a b : PhotonState K) :
    ((some a : PState K) + (some b : PState K)) = some (a + b) := rfl
@[simp] theorem PState.some_mul (a : PhotonState K) (t : K) :
    ((some a : PState K) * t) = some (a * t) := rfl
@[simp] theorem PState.none_add (b : PState K) : ((none : PState K) + b) = none := rfl
@[simp] theorem PState.add_none (a : PState K) : (a + (none : PState K)) = none := by
  cases a <;> rfl
@[simp] theorem PState.none_mul (t : K) : ((none : PState K) * t) = none := rfl
@[simp] theorem equations_some (M : MathFns K) (rs : K) (s : PhotonState K) (t : K) :
    equations M rs (some s) t = schwarzschild_equations M s t rs := rfl
@[simp] theorem equations_none (M : MathFns K) (rs : K) (t : K) :
    equations M rs none t = none := rfl

theorem Vec3.length_squared_nonneg (v : Vec3 K) : 0 ≤ v.length_squared := by
  unfold Vec3.length_squared
  exact add_nonneg (add_nonneg (mul_self_nonneg _) (mul_self_nonneg _)) (mul_self_nonneg _)

theorem SqrtSpec.sqrt_zero {M : MathFns K} (hM : SqrtSpec M) : M.sqrt 0 = 0 := by
  have := hM.sq 0 le_rfl
  exact mul_self_eq_zero.mp this

theorem SqrtSpec.sqrt_eq_zero {M : MathFns K} (hM : SqrtSpec M) {x : K} (hx : 0 ≤ x) :
    M.sqrt x = 0 ↔ x = 0 := by
  constructor
  · intro h
    have := hM.sq x hx
    rw [h] at this
    simpa using this.symm
  · rintro rfl
    exact hM.sqrt_zero

theorem SqrtSpec.sqrt_one {M : MathFns K} (hM : SqrtSpec M) : M.sqrt 1 = 1 := by
  have h := hM.sq 1 zero_le_one
  have h0 := hM.nonneg 1
  rcases mul_self_eq_one_iff.mp h with h1 | h1
  · exact h1
  · rw [h1] at h0
    exact absurd h0 (by norm_num)

end VecLemmas

theorem real_fns_spec : SqrtSpec real_fns where
  nonneg := Real.sqrt_nonneg
  sq := fun _ hx => Real.mul_self_sqrt hx


/-! ## The geodesic model -/

section Geodesic

variable {K : Type} [LinearOrderedField K]

theorem schwarzschild_guard (M : MathFns K) (s : PhotonState K) (t rs : K)
    (h : M.sqrt s.pos.length_squared < 0.1 * rs) :
    schwarzschild_equations M s t rs = some ⟨⟨0, 0, 0⟩, ⟨0, 0, 0⟩⟩ := by
  simp [schwarzschild_equations, h]

theorem schwarzschild_regular (M : MathFns K) (s : PhotonState K) (t rs : K)
    (h : ¬ M.sqrt s.pos.length_squared < 0.1 * rs)
    (hd : s.pos.length_squared * s.pos.length_squared * M.sqrt s.pos.length_squared ≠ 0) :
    schwarzschild_equations M s t rs =
      some ⟨s.mom, s.pos * (-1.5 * rs * (Vec3.cross s.pos s.mom).length_squared /
        (s.pos.length_squared * s.pos.length_squared * M.sqrt s.pos.length_squared))⟩ := by
  simp [schwarzschild_equations, h, hd]

theorem schwarzschild_undefined (M : MathFns K) (s : PhotonState K) (t rs : K)
    (h : ¬ M.sqrt s.pos.length_squared < 0.1 * rs)
    (hd : s.pos.length_squared * s.pos.length_squared * M.sqrt s.pos.length_squared = 0) :
    schwarzschild_equations M s t rs = none := by
  simp [schwarzschild_equations, h, hd]

theorem add_zero_mul (s : PhotonState K) (c : K) :
    s + (⟨⟨0, 0, 0⟩, ⟨0, 0, 0⟩⟩ : PhotonState K) * c = s := by
  apply PhotonState.state_ext <;> apply Vec3.vec_ext <;> simp

end Geodesic

end Lensing

namespace Lensing

section GeodesicClaims

variable {K : Type} [LinearOrderedField K]

/-- C4: outside the singularity guard and for `r > 0`, the derivative is
`(mom, (-1.5 * rs * h² / r⁵) * pos)` with `r = |pos|` and `h² = |pos × mom|²`,
whatever the parameter `t`. -/
theorem geodesic_derivative_formula (M : MathFns K) (hM : SqrtSpec M) (s : PhotonState K)
    (t rs : K) (hr : 0.1 * rs ≤ M.sqrt s.pos.length_squared)
    (hpos : 0 < M.sqrt s.pos.length_squared) :
    schwarzschild_equations M s t rs =
      some ⟨s.mom, s.pos * (-1.5 * rs * (Vec3.cross s.pos s.mom).length_squared /
        (M.sqrt s.pos.length_squared) ^ 5)⟩ ∧
    ∀ t2 : K, schwarzschild_equations M s t2 rs = schwarzschild_equations M s t rs := by
  have hsq := hM.sq _ (Vec3.length_squared_nonneg s.pos)
  have h5 : s.pos.length_squared * s.pos.length_squared * M.sqrt s.pos.length_squared =
      (M.sqrt s.pos.length_squared) ^ 5 := by
    have aux : ∀ r r2 : K, r * r = r2 → r2 * r2 * r = r ^ 5 := by
      intro r r2 h
      subst h
      ring
    exact aux _ _ hsq
  have hd : s.pos.length_squared * s.pos.length_squared * M.sqrt s.pos.length_squared ≠ 0 := by
    rw [h5]
    exact pow_ne_zero 5 hpos.ne'
  refine ⟨?_, fun t2 => rfl⟩
  rw [schwarzschild_regular M s t rs (not_lt.mpr hr) hd, h5]

/-- C4 at position `(3, 4, 0)`, momentum `(0, 0, 1)` and `rs = 1` over the
reals: `r = 5`. -/
theorem geodesic_derivative_formula_witness :
    (0.1 * (1 : ℝ) ≤ real_fns.sqrt (Vec3.length_squared (⟨3, 4, 0⟩ : Vec3 ℝ)) ∧
      0 < real_fns.sqrt (Vec3.length_squared (⟨3, 4, 0⟩ : Vec3 ℝ))) ∧
    schwarzschild_equations real_fns (⟨⟨3, 4, 0⟩, ⟨0, 0, 1⟩⟩ : PhotonState ℝ) 0 1 =
      some ⟨⟨0, 0, 1⟩, (⟨3, 4, 0⟩ : Vec3 ℝ) *
        (-1.5 * 1 * (Vec3.cross (⟨3, 4, 0⟩ : Vec3 ℝ) ⟨0, 0, 1⟩).length_squared /
          (real_fns.sqrt (Vec3.length_squared (⟨3, 4, 0⟩ : Vec3 ℝ))) ^ 5)⟩ := by
  have h5 : real_fns.sqrt (Vec3.length_squared (⟨3, 4, 0⟩ : Vec3 ℝ)) = 5 := by
    have : Vec3.length_squared (⟨3, 4, 0⟩ : Vec3 ℝ) = 5 ^ 2 := by
      norm_num [Vec3.length_squared]
    rw [this]
    exact Real.sqrt_sq (by norm_num)
  have h1 : 0.1 * (1 : ℝ) ≤ real_fns.sqrt (Vec3.length_squared (⟨3, 4, 0⟩ : Vec3 ℝ)) := by
    rw [h5]; norm_num
  have h2 : 0 < real_fns.sqrt (Vec3.length_squared (⟨3, 4, 0⟩ : Vec3 ℝ)) := by
    rw [h5]; norm_num
  exact ⟨⟨h1, h2⟩,
    (geodesic_derivative_formula real_fns real_fns_spec ⟨⟨3, 4, 0⟩, ⟨0, 0, 1⟩⟩ 0 1 h1 h2).1⟩

/-- C5: inside the singularity guard the derivative is exactly zero in both
components, and an RK4 step returns the state unchanged. -/
theorem singularity_guard_zero (M : MathFns K) (s : PhotonState K) (t rs dt : K)
    (h : M.sqrt s.pos.length_squared < 0.1 * rs) :
    schwarzschild_equations M s t rs = some ⟨⟨0, 0, 0⟩, ⟨0, 0, 0⟩⟩ ∧
    rk4_step (some s : PState K) t dt (equations M rs) = some s := by
  refine ⟨schwarzschild_guard M s t rs h, ?_⟩
  have hz : ∀ t2 : K, equations M rs (some s) t2 = some ⟨⟨0, 0, 0⟩, ⟨0, 0, 0⟩⟩ :=
    fun t2 => schwarzschild_guard M s t2 rs h
  simp only [rk4_step, hz, PState.some_mul, PState.some_add, add_zero_mul]
  congr 1
  apply PhotonState.state_ext <;> apply Vec3.vec_ext <;> simp

/-- C5 at the origin with `rs = 1` over the reals. -/
theorem singularity_guard_zero_witness :
    real_fns.sqrt (Vec3.length_squared (⟨0, 0, 0⟩ : Vec3 ℝ)) < 0.1 * 1 ∧
    schwarzschild_equations real_fns (⟨⟨0, 0, 0⟩, ⟨0, 0, 1⟩⟩ : PhotonState ℝ) 0 1 =
      some ⟨⟨0, 0, 0⟩, ⟨0, 0, 0⟩⟩ ∧
    rk4_step (some ⟨⟨0, 0, 0⟩, ⟨0, 0, 1⟩⟩ : PState ℝ) 0 0.5 (equations real_fns 1) =
      some ⟨⟨0, 0, 0⟩, ⟨0, 0, 1⟩⟩ := by
  have h : real_fns.sqrt (Vec3.length_squared (⟨0, 0, 0⟩ : Vec3 ℝ)) < 0.1 * 1 := by
    have : Vec3.length_squared (⟨0, 0, 0⟩ : Vec3 ℝ) = 0 := by norm_num [Vec3.length_squared]
    rw [this, real_fns_spec.sqrt_zero]
    norm_num
  exact ⟨h, singularity_guard_zero real_fns ⟨⟨0, 0, 0⟩, ⟨0, 0, 1⟩⟩ 0 1 0.5 h⟩

/-- C6 as stated fails where the derivative is undefined: at the origin with
`rs = 0` the guard does not fire and the divisor is zero, so no derivative
with a vanishing angular-momentum rate is returned. -/
theorem angular_momentum_rate_counterexample :
    ¬ ∃ d : PhotonState ℝ,
      schwarzschild_equations real_fns (⟨⟨0, 0, 0⟩, ⟨0, 0, 1⟩⟩ : PhotonState ℝ) 0 0 = some d ∧
      Vec3.cross d.pos (⟨0, 0, 1⟩ : Vec3 ℝ) + Vec3.cross (⟨0, 0, 0⟩ : Vec3 ℝ) d.mom = 0 := by
  rintro ⟨d, hd, -⟩
  have h0 : Vec3.length_squared (⟨0, 0, 0⟩ : Vec3 ℝ) = 0 := by norm_num [Vec3.length_squared]
  rw [schwarzschild_undefined real_fns _ 0 0 (by simp [h0, real_fns_spec.sqrt_zero])
    (by simp [h0])] at hd
  exact Option.noConfusion hd

/-- C6, amended: wherever the derivative is defined (the guard fires or the
divisor is not zero) it is returned, and the rate of change of the angular
momentum `pos × mom` along it is zero, hence so is that of `|pos × mom|²`. -/
theorem angular_momentum_rate_zero (M : MathFns K) (s : PhotonState K) (t rs : K)
    (hdef : M.sqrt s.pos.length_squared < 0.1 * rs ∨
      s.pos.length_squared * s.pos.length_squared * M.sqrt s.pos.length_squared ≠ 0) :
    ∃ d : PhotonState K, schwarzschild_equations M s t rs = some d ∧
      Vec3.cross d.pos s.mom + Vec3.cross s.pos d.mom = 0 ∧
      2 * Vec3.dot (Vec3.cross s.pos s.mom)
        (Vec3.cross d.pos s.mom + Vec3.cross s.pos d.mom) = 0 := by
  have key : ∀ d : PhotonState K, schwarzschild_equations M s t rs = some d →
      Vec3.cross d.pos s.mom + Vec3.cross s.pos d.mom = 0 := by
    intro d hd
    by_cases hg : M.sqrt s.pos.length_squared < 0.1 * rs
    · rw [schwarzschild_guard M s t rs hg] at hd
      cases hd
      apply Vec3.vec_ext <;> simp
    · by_cases hz : s.pos.length_squared * s.pos.length_squared *
          M.sqrt s.pos.length_squared = 0
      · rw [schwarzschild_undefined M s t rs hg hz] at hd
        exact Option.noConfusion hd
      · rw [schwarzschild_regular M s t rs hg hz] at hd
        cases hd
        apply Vec3.vec_ext <;> simp <;> ring
  have hex : ∃ d : PhotonState K, schwarzschild_equations M s t rs = some d := by
    by_cases hg : M.sqrt s.pos.length_squared < 0.1 * rs
    · exact ⟨_, schwarzschild_guard M s t rs hg⟩
    · exact ⟨_, schwarzschild_regular M s t rs hg (hdef.resolve_left hg)⟩
  obtain ⟨d, hd⟩ := hex
  refine ⟨d, hd, key d hd, ?_⟩
  rw [key d hd]
  simp [Vec3.dot]

/-- C6, amended, at position `(3, 4, 0)`, momentum `(0, 0, 1)`, `rs = 1`. -/
theorem angular_momentum_rate_zero_witness :
    ∃ d : PhotonState ℝ,
      schwarzschild_equations real_fns (⟨⟨3, 4, 0⟩, ⟨0, 0, 1⟩⟩ : PhotonState ℝ) 0 1 = some d ∧
      Vec3.cross d.pos (⟨0, 0, 1⟩ : Vec3 ℝ) + Vec3.cross (⟨3, 4, 0⟩ : Vec3 ℝ) d.mom = 0 ∧
      2 * Vec3.dot (Vec3.cross (⟨3, 4, 0⟩ : Vec3 ℝ) ⟨0, 0, 1⟩)
        (Vec3.cross d.pos (⟨0, 0, 1⟩ : Vec3 ℝ) + Vec3.cross (⟨3, 4, 0⟩ : Vec3 ℝ) d.mom) = 0 := by
  have h5 : real_fns.sqrt (Vec3.length_squared (⟨3, 4, 0⟩ : Vec3 ℝ)) = 5 := by
    have : Vec3.length_squared (⟨3, 4, 0⟩ : Vec3 ℝ) = 5 ^ 2 := by
      norm_num [Vec3.length_squared]
    rw [this]
    exact Real.sqrt_sq (by norm_num)
  refine angular_momentum_rate_zero real_fns ⟨⟨3, 4, 0⟩, ⟨0, 0, 1⟩⟩ 0 1 (Or.inr ?_)
  simp only [h5]
  norm_num [Vec3.length_squared]

end GeodesicClaims

end Lensing

namespace Lensing

/-! ## Force-free steps -/

section Free

variable {K : Type} [LinearOrderedField K]

/-- Where `rs * h²` vanishes the derivative has no momentum part. -/
theorem schwarzschild_free (M : MathFns K) (s : PhotonState K) (t rs : K)
    (hg : ¬ M.sqrt s.pos.length_squared < 0.1 * rs)
    (hd : s.pos.length_squared * s.pos.length_squared * M.sqrt s.pos.length_squared ≠ 0)
    (h0 : rs * (Vec3.cross s.pos s.mom).length_squared = 0) :
    schwarzschild_equations M s t rs = some ⟨s.mom, ⟨0, 0, 0⟩⟩ := by
  rw [schwarzschild_regular M s t rs hg hd]
  have : -1.5 * rs * (Vec3.cross s.pos s.mom).length_squared = 0 := by
    rw [mul_assoc, h0, mul_zero]
  rw [this, zero_div]
  congr 1
  apply PhotonState.state_ext
  · rfl
  · apply Vec3.vec_ext <;> simp

/-- An RK4 step whose three stage positions are force-free advances the
position by `mom * dt` and keeps the momentum. -/
theorem rk4_step_free (M : MathFns K) (s : PhotonState K) (t dt rs : K)
    (h1 : ∀ t2, schwarzschild_equations M s t2 rs = some ⟨s.mom, ⟨0, 0, 0⟩⟩)
    (h2 : ∀ t2, schwarzschild_equations M ⟨s.pos + s.mom * (dt * 0.5), s.mom⟩ t2 rs =
      some ⟨s.mom, ⟨0, 0, 0⟩⟩)
    (h3 : ∀ t2, schwarzschild_equations M ⟨s.pos + s.mom * dt, s.mom⟩ t2 rs =
      some ⟨s.mom, ⟨0, 0, 0⟩⟩) :
    rk4_step (some s : PState K) t dt (equations M rs) = some ⟨s.pos + s.mom * dt, s.mom⟩ := by
  have e2 : s + (⟨s.mom, ⟨0, 0, 0⟩⟩ : PhotonState K) * (dt * 0.5) =
      ⟨s.pos + s.mom * (dt * 0.5), s.mom⟩ := by
    apply PhotonState.state_ext <;> apply Vec3.vec_ext <;> simp
  have e3 : s + (⟨s.mom, ⟨0, 0, 0⟩⟩ : PhotonState K) * dt = ⟨s.pos + s.mom * dt, s.mom⟩ := by
    apply PhotonState.state_ext <;> apply Vec3.vec_ext <;> simp
  simp only [rk4_step, equations_some, h1, PState.some_mul, PState.some_add, e2, h2, e3, h3]
  congr 1
  apply PhotonState.state_ext <;> apply Vec3.vec_ext <;> simp <;> ring

end Free

end Lensing

namespace Lensing

section Horizon

variable {K : Type} [LinearOrderedField K]

theorem integrate_zero (M : MathFns K) (rs : K) (st : PhotonState K) :
    integrate M rs 0 st = some (false, st) := rfl

theorem integrate_succ_none (M : MathFns K) (rs : K) (n : Nat) (st : PhotonState K)
    (h : rk4_step (some st : PState K) 0 (step_size rs (M.sqrt st.pos.length_squared))
      (equations M rs) = none) :
    integrate M rs (n + 1) st = none := by
  simp only [integrate]
  split
  · rfl
  · rename_i heq
    rw [h] at heq
    exact Option.noConfusion heq

theorem integrate_succ_some (M : MathFns K) (rs : K) (n : Nat) (st st2 : PhotonState K)
    (h : rk4_step (some st : PState K) 0 (step_size rs (M.sqrt st.pos.length_squared))
      (equations M rs) = some st2) :
    integrate M rs (n + 1) st =
      if st2.pos.length_squared < rs * rs * 1.1 then some (true, st2)
      else if st2.pos.length_squared > 1000.0 * 1000.0 then some (false, st2)
      else integrate M rs n st2 := by
  simp only [integrate]
  split
  · rename_i heq
    rw [h] at heq
    exact Option.noConfusion heq
  · rename_i s heq
    rw [h] at heq
    cases heq
    rfl

/-- A photon reported as captured ends inside the capture threshold. -/
theorem integrate_hit_inside (M : MathFns K) (rs : K) (n : Nat) :
    ∀ st s : PhotonState K, integrate M rs n st = some (true, s) →
      s.pos.length_squared < rs * rs * 1.1 := by
  induction n with
  | zero =>
    intro st s h
    rw [integrate_zero] at h
    simp at h
  | succ n ih =>
    intro st s h
    cases hr : rk4_step (some st : PState K) 0 (step_size rs (M.sqrt st.pos.length_squared))
      (equations M rs) with
    | none =>
      rw [integrate_succ_none M rs n st hr] at h
      exact Option.noConfusion h
    | some st2 =>
      rw [integrate_succ_some M rs n st st2 hr] at h
      split_ifs at h with h1 h2
      · simp at h
        rw [← h]
        exact h1
      · simp at h
      · exact ih st2 s h

/-- With `rs = 1` the RK4 step of the radial photon at `z = -1.07` uses
`dt = 0.02` and ends at `z = -1.05`. -/
theorem radial_step_example :
    rk4_step (some ⟨⟨0, 0, -1.07⟩, ⟨0, 0, 1⟩⟩ : PState ℝ) 0
        (step_size 1 (real_fns.sqrt (Vec3.length_squared (⟨0, 0, -1.07⟩ : Vec3 ℝ))))
        (equations real_fns 1) = some ⟨⟨0, 0, -1.05⟩, ⟨0, 0, 1⟩⟩ := by
  have hs : ∀ z : ℝ, z < 0 → real_fns.sqrt (Vec3.length_squared (⟨0, 0, z⟩ : Vec3 ℝ)) = -z := by
    intro z hz
    have : Vec3.length_squared (⟨0, 0, z⟩ : Vec3 ℝ) = (-z) ^ 2 := by
      simp [Vec3.length_squared]; ring
    rw [this]
    exact Real.sqrt_sq (by linarith)
  have hfree : ∀ z : ℝ, z < -1 → ∀ t2 : ℝ,
      schwarzschild_equations real_fns (⟨⟨0, 0, z⟩, ⟨0, 0, 1⟩⟩ : PhotonState ℝ) t2 1 =
        some ⟨⟨0, 0, 1⟩, ⟨0, 0, 0⟩⟩ := by
    intro z hz t2
    apply schwarzschild_free
    · rw [hs z (by linarith)]; norm_num; linarith
    · rw [hs z (by linarith)]
      simp [Vec3.length_squared]
      intro h0
      linarith
    · simp [Vec3.length_squared]
  have hdt : step_size 1 (real_fns.sqrt (Vec3.length_squared (⟨0, 0, -1.07⟩ : Vec3 ℝ))) = 0.02 := by
    rw [hs _ (by norm_num)]
    norm_num [step_size]
  have hstep : rk4_step (some ⟨⟨0, 0, -1.07⟩, ⟨0, 0, 1⟩⟩ : PState ℝ) 0
        (step_size 1 (real_fns.sqrt (Vec3.length_squared (⟨0, 0, -1.07⟩ : Vec3 ℝ))))
        (equations real_fns 1) = some ⟨⟨0, 0, -1.05⟩, ⟨0, 0, 1⟩⟩ := by
    rw [hdt, rk4_step_free real_fns ⟨⟨0, 0, -1.07⟩, ⟨0, 0, 1⟩⟩ 0 0.02 1]
    · congr 1
      apply PhotonState.state_ext
      · apply Vec3.vec_ext <;> norm_num
      · rfl
    · exact hfree _ (by norm_num)
    · intro t2
      have e : (⟨0, 0, -1.07⟩ : Vec3 ℝ) + (⟨0, 0, 1⟩ : Vec3 ℝ) * ((0.02 : ℝ) * 0.5) =
          ⟨0, 0, -1.06⟩ := by
        apply Vec3.vec_ext <;> norm_num
      simp only [e]
      exact hfree _ (by norm_num) t2
    · intro t2
      have e : (⟨0, 0, -1.07⟩ : Vec3 ℝ) + (⟨0, 0, 1⟩ : Vec3 ℝ) * (0.02 : ℝ) =
          ⟨0, 0, -1.05⟩ := by
        apply Vec3.vec_ext <;> norm_num
      simp only [e]
      exact hfree _ (by norm_num) t2
  exact hstep

/-- C3 as stated fails: with `rs = 1` a radial photon stepping from
`z = -1.07` to `z = -1.05` has `r² = 1.1025 < (1.1 * rs)²`, yet it is not marked
hit. -/
theorem horizon_threshold_counterexample :
    rk4_step (some ⟨⟨0, 0, -1.07⟩, ⟨0, 0, 1⟩⟩ : PState ℝ) 0
        (step_size 1 (real_fns.sqrt (Vec3.length_squared (⟨0, 0, -1.07⟩ : Vec3 ℝ))))
        (equations real_fns 1) = some ⟨⟨0, 0, -1.05⟩, ⟨0, 0, 1⟩⟩ ∧
    Vec3.length_squared (⟨0, 0, -1.05⟩ : Vec3 ℝ) < (1.1 * 1) ^ 2 ∧
    integrate real_fns 1 1 (⟨⟨0, 0, -1.07⟩, ⟨0, 0, 1⟩⟩ : PhotonState ℝ) =
      some (false, ⟨⟨0, 0, -1.05⟩, ⟨0, 0, 1⟩⟩) := by
  refine ⟨radial_step_example, by norm_num [Vec3.length_squared], ?_⟩
  rw [integrate_succ_some real_fns 1 0 _ _ radial_step_example, integrate_zero]
  norm_num [Vec3.length_squared]

/-- C3, amended: after an RK4 step that yields a state of squared radius `r²`,
the photon is marked hit, and the loop stops, exactly when `r² < 1.1 * rs²`. -/
theorem horizon_capture_threshold (M : MathFns K) (rs : K) (n : Nat) (st st2 : PhotonState K)
    (h : rk4_step (some st : PState K) 0 (step_size rs (M.sqrt st.pos.length_squared))
      (equations M rs) = some st2) :
    (integrate M rs (n + 1) st = some (true, st2) ↔ st2.pos.length_squared < 1.1 * rs ^ 2) ∧
    (¬ st2.pos.length_squared < 1.1 * rs ^ 2 →
      integrate M rs (n + 1) st =
        if st2.pos.length_squared > 1000.0 * 1000.0 then some (false, st2)
        else integrate M rs n st2) := by
  have e : rs * rs * 1.1 = 1.1 * rs ^ 2 := by ring
  rw [integrate_succ_some M rs n st st2 h, e]
  refine ⟨⟨fun hi => ?_, fun hlt => by rw [if_pos hlt]⟩, fun hn => by rw [if_neg hn]⟩
  by_contra hn
  rw [if_neg hn] at hi
  split_ifs at hi
  · simp at hi
  · exact hn (e ▸ integrate_hit_inside M rs n st2 st2 hi)

/-- C3, amended, on the radial photon stepping from `z = -1.07` to
`z = -1.05` with `rs = 1`. -/
theorem horizon_capture_threshold_witness :
    rk4_step (some ⟨⟨0, 0, -1.07⟩, ⟨0, 0, 1⟩⟩ : PState ℝ) 0
        (step_size 1 (real_fns.sqrt (Vec3.length_squared (⟨0, 0, -1.07⟩ : Vec3 ℝ))))
        (equations real_fns 1) = some ⟨⟨0, 0, -1.05⟩, ⟨0, 0, 1⟩⟩ ∧
    (integrate real_fns 1 (0 + 1) (⟨⟨0, 0, -1.07⟩, ⟨0, 0, 1⟩⟩ : PhotonState ℝ) =
        some (true, ⟨⟨0, 0, -1.05⟩, ⟨0, 0, 1⟩⟩) ↔
      Vec3.length_squared (⟨0, 0, -1.05⟩ : Vec3 ℝ) < 1.1 * 1 ^ 2) :=
  ⟨radial_step_example,
    (horizon_capture_threshold real_fns 1 0 _ _ radial_step_example).1⟩

end Horizon

end Lensing

namespace Lensing

/-! ## Camera orientation and the cache -/

section Orientation

variable {K : Type} [LinearOrderedField K]

/-- The four scheduler outputs of `step_calculation` are functions of six
fields of the state. -/
theorem step_calculation_congr (M : MathFns K) (W H : Nat) (s1 s2 : Globals K)
    (h_rs : s1.g_rs = s2.g_rs) (h_dist : s1.camera_dist = s2.camera_dist)
    (h_row : s1.calc_row = s2.calc_row) (h_calc : s1.is_calculating = s2.is_calculating)
    (h_map : s1.distortion_map = s2.distortion_map)
    (h_ready : s1.distortion_map_ready = s2.distortion_map_ready) :
    (step_calculation M W H s1).distortion_map = (step_calculation M W H s2).distortion_map ∧
    (step_calculation M W H s1).calc_row = (step_calculation M W H s2).calc_row ∧
    (step_calculation M W H s1).is_calculating = (step_calculation M W H s2).is_calculating ∧
    (step_calculation M W H s1).distortion_map_ready =
      (step_calculation M W H s2).distortion_map_ready := by
  simp only [step_calculation, h_rs, h_dist, h_row, h_calc, h_map, h_ready]
  split_ifs <;> simp_all

theorem handle_event_frame (g : Globals K) (e : Event) :
    (handle_event g e).distortion_map = g.distortion_map ∧
    (handle_event g e).calc_row = g.calc_row ∧
    (handle_event g e).is_calculating = g.is_calculating ∧
    (handle_event g e).distortion_map_ready = g.distortion_map_ready ∧
    (handle_event g e).g_rs = g.g_rs ∧
    (handle_event g e).camera_dist = g.camera_dist ∧
    (handle_event g e).first = g.first := by
  cases e with
  | mouse_motion b x y => cases b <;> simp [handle_event]
  | other => simp [handle_event]

theorem handle_events_frame (es : List Event) (g : Globals K) :
    (es.foldl handle_event g).distortion_map = g.distortion_map ∧
    (es.foldl handle_event g).calc_row = g.calc_row ∧
    (es.foldl handle_event g).is_calculating = g.is_calculating ∧
    (es.foldl handle_event g).distortion_map_ready = g.distortion_map_ready ∧
    (es.foldl handle_event g).g_rs = g.g_rs ∧
    (es.foldl handle_event g).camera_dist = g.camera_dist ∧
    (es.foldl handle_event g).first = g.first := by
  induction es generalizing g with
  | nil => simp
  | cons e es ih =>
    simp only [List.foldl_cons]
    obtain ⟨a1, a2, a3, a4, a5, a6, a7⟩ := ih (handle_event g e)
    obtain ⟨b1, b2, b3, b4, b5, b6, b7⟩ := handle_event_frame g e
    exact ⟨a1.trans b1, a2.trans b2, a3.trans b3, a4.trans b4, a5.trans b5, a6.trans b6,
      a7.trans b7⟩

end Orientation

end Lensing

namespace Lensing

/-! ## The map writes of `step_calculation` -/

section MapWrites

variable {K : Type} [LinearOrderedField K]

theorem row_index_iff (W a j i : Nat) (hi : i < W) :
    (a * W ≤ j * W + i ∧ j * W + i < a * W + W) ↔ j = a := by
  constructor
  · rintro ⟨h1, h2⟩
    by_contra hne
    rcases Nat.lt_or_gt_of_ne hne with hlt | hgt
    · have : (j + 1) * W ≤ a * W := Nat.mul_le_mul_right W hlt
      rw [Nat.add_mul, Nat.one_mul] at this
      omega
    · have : (a + 1) * W ≤ j * W := Nat.mul_le_mul_right W hgt
      rw [Nat.add_mul, Nat.one_mul] at this
      omega
  · rintro rfl
    omega

/-- The loop over `i`, stopped after `n` columns. -/
theorem row_fold_apply (M : MathFns K) (rs cam : K) (W H j : Nat)
    (m : Nat → PrecomputedPixel K) (n k : Nat) :
    ((List.range n).foldl
      (fun m (i : Nat) =>
        Function.update m (j * W + i)
          (write_pixel M (m (j * W + i)) (trace_pixel M rs cam W H i j))) m) k =
      if j * W ≤ k ∧ k < j * W + n then
        write_pixel M (m k) (trace_pixel M rs cam W H (k - j * W) j)
      else m k := by
  induction n with
  | zero =>
    have h : ¬ (j * W ≤ k ∧ k < j * W + 0) := by omega
    rw [if_neg h]
    rfl
  | succ n ih =>
    rw [List.range_succ, List.foldl_append, List.foldl_cons, List.foldl_nil]
    by_cases hk : k = j * W + n
    · subst hk
      rw [Function.update_same, ih]
      have h1 : ¬ (j * W ≤ j * W + n ∧ j * W + n < j * W + n) := by omega
      have h2 : j * W ≤ j * W + n ∧ j * W + n < j * W + (n + 1) := by omega
      rw [if_neg h1, if_pos h2]
      congr 2
      omega
    · rw [Function.update_noteq hk, ih]
      by_cases h : j * W ≤ k ∧ k < j * W + n
      · have h2 : j * W ≤ k ∧ k < j * W + (n + 1) := by omega
        rw [if_pos h, if_pos h2]
      · have h2 : ¬ (j * W ≤ k ∧ k < j * W + (n + 1)) := by omega
        rw [if_neg h, if_neg h2]

theorem calc_row_pixels_apply (M : MathFns K) (rs cam : K) (W H j : Nat)
    (m : Nat → PrecomputedPixel K) (k : Nat) :
    calc_row_pixels M rs cam W H j m k =
      if j * W ≤ k ∧ k < j * W + W then
        write_pixel M (m k) (trace_pixel M rs cam W H (k - j * W) j)
      else m k :=
  row_fold_apply M rs cam W H j m W k

/-- The loop over `j` from `a` over `n` rows: every entry of these rows is
written once, from the entry it replaces and the pixel's integration; no other
entry changes. -/
theorem rows_fold_apply (M : MathFns K) (rs cam : K) (W H : Nat) (n : Nat) :
    ∀ (a : Nat) (m : Nat → PrecomputedPixel K) (j i : Nat), i < W →
      ((List.range' a n).foldl (fun m (j : Nat) => calc_row_pixels M rs cam W H j m) m)
          (j * W + i) =
        if a ≤ j ∧ j < a + n then
          write_pixel M (m (j * W + i)) (trace_pixel M rs cam W H i j)
        else m (j * W + i) := by
  induction n with
  | zero =>
    intro a m j i _
    have h : ¬ (a ≤ j ∧ j < a + 0) := by omega
    rw [if_neg h]
    rfl
  | succ n ih =>
    intro a m j i hi
    rw [List.range'_succ, List.foldl_cons, ih (a + 1) _ j i hi, calc_row_pixels_apply]
    by_cases hja : j = a
    · subst hja
      have h1 : ¬ (j + 1 ≤ j ∧ j < j + 1 + n) := by omega
      have h2 : j ≤ j ∧ j < j + (n + 1) := by omega
      have h3 : j * W ≤ j * W + i ∧ j * W + i < j * W + W := by omega
      rw [if_neg h1, if_pos h2, if_pos h3]
      congr 2
      omega
    · have h3 : ¬ (a * W ≤ j * W + i ∧ j * W + i < a * W + W) :=
        fun h => hja ((row_index_iff W a j i hi).mp h)
      rw [if_neg h3]
      by_cases h : a + 1 ≤ j ∧ j < a + 1 + n
      · have h2 : a ≤ j ∧ j < a + (n + 1) := by omega
        rw [if_pos h, if_pos h2]
      · have h2 : ¬ (a ≤ j ∧ j < a + (n + 1)) := by omega
        rw [if_neg h, if_neg h2]

/-- Whatever it replaces, a written entry holds the outcome of the
integration. -/
theorem write_pixel_spec (M : MathFns K) (old : PrecomputedPixel K)
    (t : Option (Bool × PhotonState K)) :
    (write_pixel M old t).hit = t.map Prod.fst ∧
    ∀ st, t = some (false, st) → (write_pixel M old t).local_dir = some (st.mom.normalized M) := by
  rcases t with _ | ⟨b, st⟩
  · simp [write_pixel]
  · cases b <;> simp [write_pixel]

end MapWrites

end Lensing

namespace Lensing

/-! ## Reachable states -/

section Reachable

variable {K : Type} [LinearOrderedField K]

theorem step_calculation_fields (M : MathFns K) (W H : Nat) (g : Globals K)
    (h : g.is_calculating = true) :
    (step_calculation M W H g).distortion_map =
      (List.range' g.calc_row (min (g.calc_row + 5) H - g.calc_row)).foldl
        (fun m (j : Nat) => calc_row_pixels M g.g_rs g.camera_dist W H j m) g.distortion_map ∧
    (step_calculation M W H g).g_rs = g.g_rs ∧
    (step_calculation M W H g).camera_dist = g.camera_dist := by
  simp only [step_calculation, h]
  split_ifs <;> simp_all

theorem scheduler_inv_reset (M : MathFns K) (W H : Nat) (g : Globals K) :
    scheduler_inv M W H (reset_calculation g) := by
  refine ⟨fun _ => rfl, fun h => ?_, fun h => ?_, fun j i hj _ => ?_⟩
  · simp [reset_calculation] at h
  · simp [reset_calculation] at h
  · simp [reset_calculation] at hj

theorem scheduler_inv_step (M : MathFns K) (W H : Nat) (g : Globals K)
    (hinv : scheduler_inv M W H g) : scheduler_inv M W H (step_calculation M W H g) := by
  by_cases hc : g.is_calculating = true
  · obtain ⟨i1, i2, i3, i4⟩ := hinv
    obtain ⟨hmap, hrs, hdist⟩ := step_calculation_fields M W H g hc
    have hrow := step_calculation_calc_row M W H g hc
    have hcalc := step_calculation_is_calculating M W H g hc
    have hready := step_calculation_ready M W H g hc
    have hnr : g.distortion_map_ready = false := i1 hc
    refine ⟨fun h => ?_, fun h => ?_, fun h1 h2 => ?_, fun j i hj hi => ?_⟩
    · have h5 := hcalc.mp h
      cases hr : (step_calculation M W H g).distortion_map_ready with
      | false => rfl
      | true =>
        rcases hready.mp hr with h6 | h6
        · omega
        · rw [hnr] at h6; exact Bool.noConfusion h6
    · rcases hready.mp h with h6 | h6
      · rw [hrow]; omega
      · rw [hnr] at h6; exact Bool.noConfusion h6
    · exfalso
      have h5 : ¬ g.calc_row + 5 < H := fun h => by
        rw [hcalc.mpr h] at h1; exact Bool.noConfusion h1
      have h6 : (step_calculation M W H g).distortion_map_ready = true :=
        hready.mpr (Or.inl (by omega))
      rw [h6] at h2
      exact Bool.noConfusion h2
    · rw [hrow] at hj
      unfold entry_current
      rw [hmap, hrs, hdist, rows_fold_apply M g.g_rs g.camera_dist W H _ _ _ j i hi]
      by_cases hw : g.calc_row ≤ j ∧ j < g.calc_row + (min (g.calc_row + 5) H - g.calc_row)
      · rw [if_pos hw]
        exact write_pixel_spec M _ _
      · rw [if_neg hw]
        exact i4 j i (by omega) hi
  · have hc2 : g.is_calculating = false := by simpa using hc
    rw [step_calculation_idle M W H g hc2]
    exact hinv

theorem scheduler_inv_congr (M : MathFns K) (W H : Nat) (g g2 : Globals K)
    (h1 : g2.distortion_map = g.distortion_map) (h2 : g2.calc_row = g.calc_row)
    (h3 : g2.is_calculating = g.is_calculating)
    (h4 : g2.distortion_map_ready = g.distortion_map_ready)
    (h5 : g2.g_rs = g.g_rs) (h6 : g2.camera_dist = g.camera_dist)
    (hinv : scheduler_inv M W H g) : scheduler_inv M W H g2 := by
  unfold scheduler_inv entry_current at *
  rw [h1, h2, h3, h4, h5, h6]
  exact hinv

theorem scheduler_inv_initial (M : MathFns K) (W H : Nat) :
    scheduler_inv M W H (initial : Globals K) := by
  refine ⟨fun h => rfl, fun h => ?_, fun _ _ => rfl, fun j i hj _ => ?_⟩
  · simp [initial] at h
  · simp [initial] at hj

theorem scheduler_inv_set_mass (M : MathFns K) (W H : Nat) (val : K) (g : Globals K)
    (hinv : scheduler_inv M W H g) : scheduler_inv M W H (set_mass val g) := by
  unfold set_mass
  split_ifs
  · exact scheduler_inv_reset M W H _
  · exact hinv

theorem scheduler_inv_set_dist (M : MathFns K) (W H : Nat) (val : K) (g : Globals K)
    (hinv : scheduler_inv M W H g) : scheduler_inv M W H (set_dist val g) := by
  unfold set_dist
  split_ifs
  · exact scheduler_inv_reset M W H _
  · exact hinv

end Reachable

section ReachableLoop

variable {K : Type} [LinearOrderedField K] [FloorRing K]

theorem scheduler_inv_main_loop (M : MathFns K) (W H : Nat) (events : List Event)
    (g : Globals K) (hinv : scheduler_inv M W H g) :
    scheduler_inv M W H (main_loop M W H events g) := by
  have h1 : scheduler_inv M W H
      (if g.first then { reset_calculation g with first := false } else g) := by
    split_ifs
    · exact scheduler_inv_congr M W H (reset_calculation g) _ rfl rfl rfl rfl rfl rfl
        (scheduler_inv_reset M W H g)
    · exact hinv
  unfold main_loop
  generalize (if g.first then { reset_calculation g with first := false } else g) = g1 at h1 ⊢
  simp only []
  split_ifs with hc hr
  · exact scheduler_inv_step M W H g1 h1
  · obtain ⟨a1, a2, a3, a4, a5, a6, -⟩ := handle_events_frame events g1
    exact scheduler_inv_congr M W H g1 _ a1 a2 a3 a4 a5 a6 h1
  · obtain ⟨a1, a2, a3, a4, a5, a6, -⟩ := handle_events_frame events g1
    exact scheduler_inv_congr M W H g1 _ a1 a2 a3 a4 a5 a6 h1

theorem scheduler_inv_apply (M : MathFns K) (W H : Nat) (a : Action K) (g : Globals K)
    (hinv : scheduler_inv M W H g) : scheduler_inv M W H (apply_action M W H a g) := by
  cases a with
  | set_mass val => exact scheduler_inv_set_mass M W H val g hinv
  | set_dist val => exact scheduler_inv_set_dist M W H val g hinv
  | set_background_image w h src =>
    exact scheduler_inv_congr M W H g _ rfl rfl rfl rfl rfl rfl hinv
  | main_loop events => exact scheduler_inv_main_loop M W H events g hinv

theorem scheduler_inv_foldl (M : MathFns K) (W H : Nat) (acts : List (Action K)) :
    ∀ g : Globals K, scheduler_inv M W H g →
      scheduler_inv M W H (acts.foldl (fun g a => apply_action M W H a g) g) := by
  induction acts with
  | nil => exact fun g h => h
  | cons a acts ih => exact fun g h => ih _ (scheduler_inv_apply M W H a g h)

theorem scheduler_inv_run (M : MathFns K) (W H : Nat) (acts : List (Action K)) :
    scheduler_inv M W H (run M W H acts) :=
  scheduler_inv_foldl M W H acts initial (scheduler_inv_initial M W H)

/-- C2: in every state reached from the initial state by calls of `set_mass`,
`set_dist`, `set_background_image` and `main_loop` (with any pointer events),
if `distortion_map_ready` holds then every entry `(i, j)` of the map holds the
hit flag, and when not hit the escape direction, of the per-pixel integration
for the current `g_rs` and `camera_dist`. -/
theorem ready_map_consistent (M : MathFns K) (W H : Nat) (acts : List (Action K))
    (hready : (run M W H acts).distortion_map_ready = true) (i j : Nat)
    (hi : i < W) (hj : j < H) :
    (((run M W H acts).distortion_map (j * W + i)).hit =
      (trace_pixel M (run M W H acts).g_rs (run M W H acts).camera_dist W H i j).map Prod.fst) ∧
    ∀ st, trace_pixel M (run M W H acts).g_rs (run M W H acts).camera_dist W H i j =
        some (false, st) →
      ((run M W H acts).distortion_map (j * W + i)).local_dir = some (st.mom.normalized M) := by
  obtain ⟨-, i2, -, i4⟩ := scheduler_inv_run M W H acts
  exact i4 j i (by rw [i2 hready]; exact hj) hi

end ReachableLoop

end Lensing

namespace Lensing

/-- C2 on a 4×4 grid after the first run of `main_loop`, which completes the
pass: entry `(0, 0)`. -/
theorem ready_map_consistent_witness :
    (run real_fns 4 4 [Action.main_loop []]).distortion_map_ready = true ∧
    ((run real_fns 4 4 [Action.main_loop []]).distortion_map (0 * 4 + 0)).hit =
      (trace_pixel real_fns (run real_fns 4 4 [Action.main_loop []]).g_rs
        (run real_fns 4 4 [Action.main_loop []]).camera_dist 4 4 0 0).map Prod.fst := by
  have h : (run real_fns 4 4 [Action.main_loop []]).distortion_map_ready = true := by
    simp [run, apply_action, main_loop, initial, reset_calculation, step_calculation]
  exact ⟨h, (ready_map_consistent real_fns 4 4 [Action.main_loop []] h 0 0 (by decide)
    (by decide)).1⟩

end Lensing

namespace Lensing

section OrientationClaims

variable {K : Type} [LinearOrderedField K] [FloorRing K]

/-- On reachable states the readiness flag is a function of the cursor and of
`is_calculating`. -/
theorem ready_iff_of_run (M : MathFns K) (W H : Nat) (hH : 0 < H) (acts : List (Action K)) :
    (run M W H acts).distortion_map_ready = true ↔
      ((run M W H acts).is_calculating = false ∧ (run M W H acts).calc_row = H) := by
  obtain ⟨i1, i2, i3, -⟩ := scheduler_inv_run M W H acts
  constructor
  · intro h
    refine ⟨?_, i2 h⟩
    cases hc : (run M W H acts).is_calculating with
    | false => rfl
    | true => rw [i1 hc] at h; exact Bool.noConfusion h
  · rintro ⟨h1, h2⟩
    cases hr : (run M W H acts).distortion_map_ready with
    | true => rfl
    | false => have := i3 h1 hr; omega

end OrientationClaims

end Lensing

namespace Lensing

/-! ## The straight-line limit -/

section Straight

variable {K : Type} [LinearOrderedField K]

theorem Vec3.length_squared_eq_zero (v : Vec3 K) :
    v.length_squared = 0 ↔ v = ⟨0, 0, 0⟩ := by
  constructor
  · intro h
    unfold Vec3.length_squared at h
    have hx : v.x * v.x = 0 := by nlinarith [mul_self_nonneg v.x, mul_self_nonneg v.y, mul_self_nonneg v.z]
    have hy : v.y * v.y = 0 := by nlinarith [mul_self_nonneg v.x, mul_self_nonneg v.y, mul_self_nonneg v.z]
    have hz : v.z * v.z = 0 := by nlinarith [mul_self_nonneg v.x, mul_self_nonneg v.y, mul_self_nonneg v.z]
    exact Vec3.vec_ext (mul_self_eq_zero.mp hx) (mul_self_eq_zero.mp hy) (mul_self_eq_zero.mp hz)
  · rintro rfl
    simp [Vec3.length_squared]

/-- With `rs = 0` the derivative away from the origin is `(mom, 0)`. -/
theorem schwarzschild_zero_rs (M : MathFns K) (hM : SqrtSpec M) (s : PhotonState K) (t : K)
    (hp : s.pos ≠ ⟨0, 0, 0⟩) :
    schwarzschild_equations M s t 0 = some ⟨s.mom, ⟨0, 0, 0⟩⟩ := by
  have h2 : s.pos.length_squared ≠ 0 := fun h => hp ((Vec3.length_squared_eq_zero _).mp h)
  have hr : M.sqrt s.pos.length_squared ≠ 0 := fun h =>
    h2 ((hM.sqrt_eq_zero (Vec3.length_squared_nonneg _)).mp h)
  apply schwarzschild_free
  · rw [mul_zero]
    exact not_lt.mpr (hM.nonneg _)
  · exact mul_ne_zero (mul_ne_zero h2 h2) hr
  · rw [zero_mul]

theorem step_size_zero_rs (M : MathFns K) (hM : SqrtSpec M) (x : K) :
    step_size 0 (M.sqrt x) = 0.5 := by
  have h := hM.nonneg x
  simp [step_size, not_lt.mpr h]

/-- With `rs = 0` an RK4 step on a ray that avoids the origin keeps the
momentum and advances the position by `mom * dt`. -/
theorem rk4_step_zero_rs (M : MathFns K) (hM : SqrtSpec M) (p d : Vec3 K)
    (hray : ∀ τ : K, 0 ≤ τ → p + d * τ ≠ ⟨0, 0, 0⟩) (τ dt : K) (hτ : 0 ≤ τ) (hdt : 0 ≤ dt) :
    rk4_step (some ⟨p + d * τ, d⟩ : PState K) 0 dt (equations M 0) =
      some ⟨p + d * τ + d * dt, d⟩ := by
  have e2 : p + d * τ + d * (dt * 0.5) = p + d * (τ + dt * 0.5) := by
    apply Vec3.vec_ext <;> simp <;> ring
  have e3 : p + d * τ + d * dt = p + d * (τ + dt) := by
    apply Vec3.vec_ext <;> simp <;> ring
  have h05 : (0 : K) ≤ dt * 0.5 := mul_nonneg hdt (by norm_num)
  apply rk4_step_free
  · exact fun t2 => schwarzschild_zero_rs M hM _ t2 (hray τ hτ)
  · intro t2
    apply schwarzschild_zero_rs M hM
    show p + d * τ + d * (dt * 0.5) ≠ _
    rw [e2]
    exact hray _ (add_nonneg hτ h05)
  · intro t2
    apply schwarzschild_zero_rs M hM
    show p + d * τ + d * dt ≠ _
    rw [e3]
    exact hray _ (add_nonneg hτ hdt)

/-- With `rs = 0` the integration loop on a ray that avoids the origin ends
unmarked, on the ray, with the momentum it started with. -/
theorem integrate_zero_rs (M : MathFns K) (hM : SqrtSpec M) (p d : Vec3 K)
    (hray : ∀ τ : K, 0 ≤ τ → p + d * τ ≠ ⟨0, 0, 0⟩) (n : Nat) :
    ∀ τ : K, 0 ≤ τ → ∃ τ2 : K, τ ≤ τ2 ∧
      integrate M 0 n ⟨p + d * τ, d⟩ = some (false, ⟨p + d * τ2, d⟩) := by
  induction n with
  | zero => exact fun τ _ => ⟨τ, le_rfl, rfl⟩
  | succ n ih =>
    intro τ hτ
    have hstep : rk4_step (some ⟨p + d * τ, d⟩ : PState K) 0
        (step_size 0 (M.sqrt (Vec3.length_squared (p + d * τ)))) (equations M 0) =
        some ⟨p + d * (τ + 0.5), d⟩ := by
      rw [step_size_zero_rs M hM, rk4_step_zero_rs M hM p d hray τ 0.5 hτ (by norm_num)]
      congr 2
      apply Vec3.vec_ext <;> simp <;> ring
    rw [integrate_succ_some M 0 n _ _ hstep]
    have hnh : ¬ Vec3.length_squared (p + d * (τ + 0.5)) < 0 * 0 * 1.1 := by
      rw [zero_mul, zero_mul]
      exact not_lt.mpr (Vec3.length_squared_nonneg _)
    simp only [hnh, if_false]
    split_ifs
    · exact ⟨τ + 0.5, by linarith [show (0 : K) ≤ 0.5 by norm_num], rfl⟩
    · obtain ⟨τ2, h1, h2⟩ := ih (τ + 0.5) (by linarith [show (0 : K) ≤ 0.5 by norm_num])
      exact ⟨τ2, by linarith [show (0 : K) ≤ 0.5 by norm_num], h2⟩

/-- Normalizing twice is normalizing once. -/
theorem Vec3.normalized_idem (M : MathFns K) (hM : SqrtSpec M) (v : Vec3 K) :
    (v.normalized M).normalized M = v.normalized M := by
  by_cases h : M.sqrt v.length_squared = 0
  · have e : v.normalized M = ⟨0, 0, 0⟩ := by simp [Vec3.normalized, Vec3.length, h]
    rw [e]
    have z : Vec3.length_squared (⟨0, 0, 0⟩ : Vec3 K) = 0 := by simp [Vec3.length_squared]
    simp [Vec3.normalized, Vec3.length, z, hM.sqrt_zero]
  · have e : v.normalized M = v / M.sqrt v.length_squared := by
      simp [Vec3.normalized, Vec3.length, h]
    have hsq := hM.sq _ (Vec3.length_squared_nonneg v)
    have one : (v / M.sqrt v.length_squared).length_squared = 1 := by
      have : (v / M.sqrt v.length_squared).length_squared =
          v.length_squared / (M.sqrt v.length_squared * M.sqrt v.length_squared) := by
        simp only [Vec3.length_squared, Vec3.div_x, Vec3.div_y, Vec3.div_z]
        field_simp
      rw [this, hsq]
      have h2 : v.length_squared ≠ 0 := by
        intro h0
        exact h ((hM.sqrt_eq_zero (Vec3.length_squared_nonneg _)).mpr h0)
      exact div_self h2
    rw [e]
    simp only [Vec3.normalized, Vec3.length, one, hM.sqrt_one, one_ne_zero, if_false]
    apply Vec3.vec_ext <;> simp

end Straight

end Lensing

namespace Lensing

section StraightClaims

variable {K : Type} [LinearOrderedField K]

theorem rk4_step_undefined (M : MathFns K) (s : PhotonState K) (t dt rs : K)
    (h : schwarzschild_equations M s t rs = none) :
    rk4_step (some s : PState K) t dt (equations M rs) = none := by
  simp [rk4_step, h]

/-- The vector from the camera to pixel `(i, j)` of the screen. -/
theorem pixel_ray_dir_eq (M : MathFns K) (camera_dist : K) (W H i j : Nat) :
    pixel_ray_dir M camera_dist W H i j =
      Vec3.normalized M ⟨-16 + 32 / (W : K) * (i : K),
        -(32 * ((H : K) / (W : K)) * 0.5) +
          32 * ((H : K) / (W : K)) / (H : K) * (((H : Int) - 1 - (j : Int) : Int) : K),
        10⟩ := by
  simp only [pixel_ray_dir]
  congr 1
  apply Vec3.vec_ext <;> simp <;> ring

/-- The length of a vector with a non-zero `z` is not zero. -/
theorem Vec3.length_ne_zero (M : MathFns K) (hM : SqrtSpec M) (v : Vec3 K) (hz : v.z ≠ 0) :
    M.sqrt v.length_squared ≠ 0 := by
  intro h
  have h0 := (hM.sqrt_eq_zero (Vec3.length_squared_nonneg v)).mp h
  have := (Vec3.length_squared_eq_zero v).mp h0
  rw [this] at hz
  exact hz rfl

/-- A ray from a camera off the origin through a pixel off the optical axis
avoids the origin. -/
theorem ray_avoids_origin (camera_dist : K) (d : Vec3 K) (hc : camera_dist ≠ 0)
    (hd : d.x ≠ 0 ∨ d.y ≠ 0) (τ : K) :
    (⟨0, 0, -camera_dist⟩ : Vec3 K) + d * τ ≠ ⟨0, 0, 0⟩ := by
  intro h
  have hx : (0 : K) + d.x * τ = 0 := congrArg Vec3.x h
  have hy : (0 : K) + d.y * τ = 0 := congrArg Vec3.y h
  have hz : -camera_dist + d.z * τ = 0 := congrArg Vec3.z h
  have hτ : τ = 0 := by
    rcases hd with h1 | h1
    · rw [zero_add] at hx
      exact (mul_eq_zero.mp hx).resolve_left h1
    · rw [zero_add] at hy
      exact (mul_eq_zero.mp hy).resolve_left h1
  rw [hτ, mul_zero, add_zero] at hz
  exact hc (neg_eq_zero.mp hz)

/-- C7 as stated fails for `camera_dist = 0`: the photon starts at the origin,
the first derivative divides zero by zero, and no unmarked final state with the
initial direction is produced. -/
theorem straight_line_counterexample :
    ¬ ∃ st : PhotonState ℝ, trace_pixel real_fns 0 0 500 300 0 0 = some (false, st) ∧
      st.mom = pixel_ray_dir real_fns 0 500 300 0 0 := by
  rintro ⟨st, h, -⟩
  have hz : Vec3.length_squared (⟨0, 0, -0⟩ : Vec3 ℝ) = 0 := by simp [Vec3.length_squared]
  have hu : schwarzschild_equations real_fns
      (⟨⟨0, 0, -0⟩, pixel_ray_dir real_fns 0 500 300 0 0⟩ : PhotonState ℝ) 0 0 = none := by
    apply schwarzschild_undefined
    · simp only [hz, real_fns_spec.sqrt_zero]; norm_num
    · simp only [hz]; norm_num
  have hn := integrate_succ_none real_fns 0 1999
    (⟨⟨0, 0, -0⟩, pixel_ray_dir real_fns 0 500 300 0 0⟩ : PhotonState ℝ)
    (rk4_step_undefined real_fns _ 0 _ 0 hu)
  have ht : trace_pixel real_fns 0 0 500 300 0 0 = none := hn
  rw [ht] at h
  exact Option.noConfusion h

/-- C7, amended: for `g_rs = 0`, every `camera_dist` and every pixel whose ray
from the camera does not meet the origin, every RK4 step on the ray leaves the
momentum unchanged and advances the position by exactly `mom * dt`; the pixel
is never marked hit; and the recorded escape direction is the pixel's initial
normalized ray direction. -/
theorem straight_line_limit (M : MathFns K) (hM : SqrtSpec M) (camera_dist : K)
    (W H i j : Nat)
    (hray : ∀ τ : K, 0 ≤ τ →
      (⟨0, 0, -camera_dist⟩ : Vec3 K) + pixel_ray_dir M camera_dist W H i j * τ ≠ ⟨0, 0, 0⟩) :
    (∀ τ dt : K, 0 ≤ τ → 0 ≤ dt →
      rk4_step (some ⟨(⟨0, 0, -camera_dist⟩ : Vec3 K) + pixel_ray_dir M camera_dist W H i j * τ,
          pixel_ray_dir M camera_dist W H i j⟩ : PState K) 0 dt (equations M 0) =
        some ⟨(⟨0, 0, -camera_dist⟩ : Vec3 K) + pixel_ray_dir M camera_dist W H i j * τ +
          pixel_ray_dir M camera_dist W H i j * dt, pixel_ray_dir M camera_dist W H i j⟩) ∧
    (∃ τ : K, 0 ≤ τ ∧ trace_pixel M 0 camera_dist W H i j =
      some (false, ⟨(⟨0, 0, -camera_dist⟩ : Vec3 K) + pixel_ray_dir M camera_dist W H i j * τ,
        pixel_ray_dir M camera_dist W H i j⟩)) ∧
    ∀ old : PrecomputedPixel K,
      write_pixel M old (trace_pixel M 0 camera_dist W H i j) =
        ⟨some false, some (pixel_ray_dir M camera_dist W H i j)⟩ := by
  have e0 : (⟨0, 0, -camera_dist⟩ : Vec3 K) =
      ⟨0, 0, -camera_dist⟩ + pixel_ray_dir M camera_dist W H i j * (0 : K) := by
    apply Vec3.vec_ext <;> simp
  have htr : ∃ τ : K, 0 ≤ τ ∧ trace_pixel M 0 camera_dist W H i j =
      some (false, ⟨(⟨0, 0, -camera_dist⟩ : Vec3 K) + pixel_ray_dir M camera_dist W H i j * τ,
        pixel_ray_dir M camera_dist W H i j⟩) := by
    obtain ⟨τ2, h1, h2⟩ := integrate_zero_rs M hM _ _ hray max_steps 0 le_rfl
    refine ⟨τ2, h1, ?_⟩
    rw [← h2, ← e0]
    rfl
  refine ⟨fun τ dt hτ hdt => rk4_step_zero_rs M hM _ _ hray τ dt hτ hdt, htr, fun old => ?_⟩
  obtain ⟨τ, -, h⟩ := htr
  rw [h]
  simp only [write_pixel]
  have hn : Vec3.normalized M (pixel_ray_dir M camera_dist W H i j) =
      pixel_ray_dir M camera_dist W H i j := by
    rw [pixel_ray_dir_eq]
    exact Vec3.normalized_idem M hM _
  rw [hn]

/-- C7, amended, for the top-left pixel of the 500×300 image seen from
distance 150 over the reals. -/
theorem straight_line_limit_witness :
    (∀ τ : ℝ, 0 ≤ τ →
      (⟨0, 0, -150⟩ : Vec3 ℝ) + pixel_ray_dir real_fns 150 500 300 0 0 * τ ≠ ⟨0, 0, 0⟩) ∧
    ∀ old : PrecomputedPixel ℝ,
      write_pixel real_fns old (trace_pixel real_fns 0 150 500 300 0 0) =
        ⟨some false, some (pixel_ray_dir real_fns 150 500 300 0 0)⟩ := by
  have hx : (pixel_ray_dir real_fns 150 500 300 0 0).x ≠ 0 := by
    rw [pixel_ray_dir_eq]
    have hl := Vec3.length_ne_zero real_fns real_fns_spec
      (⟨-16 + 32 / ((500 : ℕ) : ℝ) * ((0 : ℕ) : ℝ),
        -(32 * (((300 : ℕ) : ℝ) / ((500 : ℕ) : ℝ)) * 0.5) +
          32 * (((300 : ℕ) : ℝ) / ((500 : ℕ) : ℝ)) / ((300 : ℕ) : ℝ) *
            ((((300 : ℕ) : Int) - 1 - ((0 : ℕ) : Int) : Int) : ℝ),
        10⟩ : Vec3 ℝ) (by norm_num)
    simp only [Vec3.normalized, Vec3.length, hl, if_false, Vec3.div_x]
    exact div_ne_zero (by norm_num) hl
  have hray : ∀ τ : ℝ, 0 ≤ τ →
      (⟨0, 0, -150⟩ : Vec3 ℝ) + pixel_ray_dir real_fns 150 500 300 0 0 * τ ≠ ⟨0, 0, 0⟩ :=
    fun τ _ => ray_avoids_origin 150 _ (by norm_num) (Or.inl hx) τ
  exact ⟨hray, (straight_line_limit real_fns real_fns_spec 150 500 300 0 0 hray).2.2⟩

end StraightClaims

end Lensing

namespace Lensing

/-! ## RK4 on the linear test equation -/

section Linear

open Filter Topology

/-- One RK4 step on `x' = lam * x` multiplies by the degree-4 Taylor
polynomial of the exponential. -/
theorem rk4_step_linear {K : Type} [LinearOrderedField K] (lam x0 t dt : K) :
    rk4_step x0 t dt (fun x _ => lam * x) =
      x0 * (1 + lam * dt + (lam * dt) ^ 2 / 2 + (lam * dt) ^ 3 / 6 + (lam * dt) ^ 4 / 24) := by
  simp only [rk4_step]
  norm_num
  ring

/-- The Taylor remainder of the exponential after the degree-4 polynomial. -/
theorem exp_taylor4_bound (z : ℝ) (hz : |z| ≤ 1) :
    |Real.exp z - (1 + z + z ^ 2 / 2 + z ^ 3 / 6 + z ^ 4 / 24) - z ^ 5 / 120| ≤
      |z| ^ 6 * (7 / 4320) := by
  have h := Real.exp_bound hz (n := 6) (by norm_num)
  have e : (∑ m ∈ Finset.range 6, z ^ m / (m.factorial : ℝ)) =
      1 + z + z ^ 2 / 2 + z ^ 3 / 6 + z ^ 4 / 24 + z ^ 5 / 120 := by
    simp [Finset.sum_range_succ, Nat.factorial]
  rw [e] at h
  have e2 : Real.exp z - (1 + z + z ^ 2 / 2 + z ^ 3 / 6 + z ^ 4 / 24) - z ^ 5 / 120 =
      Real.exp z - (1 + z + z ^ 2 / 2 + z ^ 3 / 6 + z ^ 4 / 24 + z ^ 5 / 120) := by ring
  rw [e2]
  refine h.trans (le_of_eq ?_)
  norm_num [Nat.factorial]

/-- The remainder divided by `z ^ 5` tends to `1 / 120`. -/
theorem exp_taylor4_quotient_tendsto :
    Tendsto (fun z : ℝ => (Real.exp z - (1 + z + z ^ 2 / 2 + z ^ 3 / 6 + z ^ 4 / 24)) / z ^ 5)
      (𝓝[≠] 0) (𝓝 (1 / 120)) := by
  rw [Metric.tendsto_nhdsWithin_nhds]
  intro ε hε
  refine ⟨min 1 ε, lt_min one_pos hε, ?_⟩
  intro z hz hd
  have hz0 : z ≠ 0 := hz
  rw [Real.dist_eq, sub_zero] at hd
  have h1 : |z| ≤ 1 := (lt_of_lt_of_le hd (min_le_left _ _)).le
  have h2 : |z| < ε := lt_of_lt_of_le hd (min_le_right _ _)
  have hb := exp_taylor4_bound z h1
  have hz5 : z ^ 5 ≠ 0 := pow_ne_zero 5 hz0
  have e : (Real.exp z - (1 + z + z ^ 2 / 2 + z ^ 3 / 6 + z ^ 4 / 24)) / z ^ 5 - 1 / 120 =
      (Real.exp z - (1 + z + z ^ 2 / 2 + z ^ 3 / 6 + z ^ 4 / 24) - z ^ 5 / 120) / z ^ 5 := by
    generalize Real.exp z - (1 + z + z ^ 2 / 2 + z ^ 3 / 6 + z ^ 4 / 24) = X
    field_simp
    left
    ring
  rw [Real.dist_eq, e, abs_div, abs_pow]
  have hpos : 0 < |z| := abs_pos.mpr hz0
  have h5 : 0 < |z| ^ 5 := pow_pos hpos 5
  rw [div_lt_iff₀ h5]
  calc |Real.exp z - (1 + z + z ^ 2 / 2 + z ^ 3 / 6 + z ^ 4 / 24) - z ^ 5 / 120|
      ≤ |z| ^ 6 * (7 / 4320) := hb
    _ = (|z| * (7 / 4320)) * |z| ^ 5 := by ring
    _ < ε * |z| ^ 5 := by
        apply mul_lt_mul_of_pos_right _ h5
        nlinarith

/-- Scaling by a non-zero factor keeps a punctured neighbourhood of 0. -/
theorem tendsto_mul_punctured (c : ℝ) (hc : c ≠ 0) :
    Tendsto (fun dt : ℝ => c * dt) (𝓝[≠] 0) (𝓝[≠] 0) := by
  apply tendsto_nhdsWithin_of_tendsto_nhds_of_eventually_within
  · have : Tendsto (fun dt : ℝ => c * dt) (𝓝 0) (𝓝 (c * 0)) :=
      (continuous_const.mul continuous_id).tendsto 0
    rw [mul_zero] at this
    exact this.mono_left nhdsWithin_le_nhds
  · filter_upwards [self_mem_nhdsWithin] with dt hdt
    exact mul_ne_zero hc hdt

/-- The ratio of the per-step errors at `dt` and `dt / 2` tends to 32. -/
theorem rk4_error_quotient_tendsto (lam x0 t : ℝ) (hlam : lam ≠ 0) (hx0 : x0 ≠ 0) :
    Tendsto
      (fun dt : ℝ =>
        |rk4_step x0 t dt (fun x _ => lam * x) - x0 * Real.exp (lam * dt)| /
          |rk4_step x0 t (dt / 2) (fun x _ => lam * x) - x0 * Real.exp (lam * (dt / 2))|)
      (𝓝[≠] 0) (𝓝 32) := by
  have hq := exp_taylor4_quotient_tendsto
  have q1 := hq.comp (tendsto_mul_punctured lam hlam)
  have q2 := hq.comp (tendsto_mul_punctured (lam / 2) (div_ne_zero hlam two_ne_zero))
  have hlim := (q1.abs.div q2.abs (by norm_num)).const_mul (32 : ℝ)
  have e32 : (32 : ℝ) * (|(1 / 120 : ℝ)| / |(1 / 120 : ℝ)|) = 32 := by norm_num
  rw [e32] at hlim
  refine hlim.congr' ?_
  filter_upwards [self_mem_nhdsWithin] with dt hdt
  have hdt0 : dt ≠ 0 := hdt
  simp only [Function.comp_apply, Pi.div_apply, rk4_step_linear]
  have hz : lam * dt ≠ 0 := mul_ne_zero hlam hdt0
  have hz2 : lam / 2 * dt ≠ 0 := mul_ne_zero (div_ne_zero hlam two_ne_zero) hdt0
  have n1 : ∀ z : ℝ, x0 * (1 + z + z ^ 2 / 2 + z ^ 3 / 6 + z ^ 4 / 24) - x0 * Real.exp z =
      -(x0 * (Real.exp z - (1 + z + z ^ 2 / 2 + z ^ 3 / 6 + z ^ 4 / 24))) := fun z => by ring
  have e2 : lam * (dt / 2) = lam / 2 * dt := by ring
  rw [e2, n1, n1, abs_neg, abs_neg, abs_mul, abs_mul]
  simp only [abs_div, abs_pow]
  have hx : |x0| ≠ 0 := (abs_pos.mpr hx0).ne'
  have hz2p : |lam / 2 * dt| ≠ 0 := (abs_pos.mpr hz2).ne'
  have ez : |lam * dt| = 2 * |lam / 2 * dt| := by
    rw [show lam * dt = 2 * (lam / 2 * dt) by ring, abs_mul, abs_two]
  rw [ez]
  generalize |Real.exp (lam * dt) - (1 + lam * dt + (lam * dt) ^ 2 / 2 +
      (lam * dt) ^ 3 / 6 + (lam * dt) ^ 4 / 24)| = A
  generalize |Real.exp (lam / 2 * dt) - (1 + lam / 2 * dt + (lam / 2 * dt) ^ 2 / 2 +
      (lam / 2 * dt) ^ 3 / 6 + (lam / 2 * dt) ^ 4 / 24)| = B
  generalize |lam / 2 * dt| = u at hz2p
  generalize |x0| = c at hx
  by_cases hb : B = 0
  · rw [hb]
    simp
  · field_simp
    ring

end Linear

end Lensing

namespace Lensing

section LinearClaims

open Filter Topology

/-- C9 as stated fails: for `x' = x` from `x0 = 1` the ratio of the per-step
errors at `dt` and `dt / 2` does not tend to 16. -/
theorem rk4_convergence_counterexample :
    ¬ Tendsto
      (fun dt : ℝ =>
        |rk4_step (1 : ℝ) 0 dt (fun x _ => 1 * x) - 1 * Real.exp (1 * dt)| /
          |rk4_step (1 : ℝ) 0 (dt / 2) (fun x _ => 1 * x) - 1 * Real.exp (1 * (dt / 2))|)
      (𝓝[≠] 0) (𝓝 16) := by
  intro h
  have h32 := rk4_error_quotient_tendsto 1 1 0 one_ne_zero one_ne_zero
  have := tendsto_nhds_unique h h32
  norm_num at this

/-- C9, amended: for `x' = lam * x` with `lam ≠ 0` and `x0 ≠ 0`, one RK4 step
returns `x0 * (1 + z + z²/2 + z³/6 + z⁴/24)` with `z = lam * dt`, and halving
`dt` reduces the per-step error against `x0 * exp (lam * dt)` by a factor that
tends to 32 as `dt → 0`. -/
theorem rk4_linear_convergence (lam x0 t : ℝ) (hlam : lam ≠ 0) (hx0 : x0 ≠ 0) :
    (∀ dt : ℝ, rk4_step x0 t dt (fun x _ => lam * x) =
      x0 * (1 + lam * dt + (lam * dt) ^ 2 / 2 + (lam * dt) ^ 3 / 6 + (lam * dt) ^ 4 / 24)) ∧
    Tendsto
      (fun dt : ℝ =>
        |rk4_step x0 t dt (fun x _ => lam * x) - x0 * Real.exp (lam * dt)| /
          |rk4_step x0 t (dt / 2) (fun x _ => lam * x) - x0 * Real.exp (lam * (dt / 2))|)
      (𝓝[≠] 0) (𝓝 32) :=
  ⟨fun dt => rk4_step_linear lam x0 t dt, rk4_error_quotient_tendsto lam x0 t hlam hx0⟩

/-- C9, amended, for `x' = -2 * x` from `x0 = 3`. -/
theorem rk4_linear_convergence_witness :
    ((-2 : ℝ) ≠ 0 ∧ (3 : ℝ) ≠ 0) ∧
    Tendsto
      (fun dt : ℝ =>
        |rk4_step (3 : ℝ) 0 dt (fun x _ => -2 * x) - 3 * Real.exp (-2 * dt)| /
          |rk4_step (3 : ℝ) 0 (dt / 2) (fun x _ => -2 * x) - 3 * Real.exp (-2 * (dt / 2))|)
      (𝓝[≠] 0) (𝓝 32) :=
  ⟨⟨by norm_num, by norm_num⟩,
    (rk4_linear_convergence (-2) 3 0 (by norm_num) (by norm_num)).2⟩

end LinearClaims

end Lensing

namespace Lensing

/-! ## Mirror symmetry -/

section Mirror

variable {K : Type} [LinearOrderedField K]

@[simp] theorem Vec3.mirror_x_x (v : Vec3 K) : v.mirror_x.x = -v.x := rfl
@[simp] theorem Vec3.mirror_x_y (v : Vec3 K) : v.mirror_x.y = v.y := rfl
@[simp] theorem Vec3.mirror_x_z (v : Vec3 K) : v.mirror_x.z = v.z := rfl
@[simp] theorem PhotonState.mirror_x_pos (s : PhotonState K) :
    s.mirror_x.pos = s.pos.mirror_x := rfl
@[simp] theorem PhotonState.mirror_x_mom (s : PhotonState K) :
    s.mirror_x.mom = s.mom.mirror_x := rfl

@[simp] theorem Vec3.length_squared_mirror_x (v : Vec3 K) :
    v.mirror_x.length_squared = v.length_squared := by
  simp [Vec3.length_squared]

theorem Vec3.cross_mirror_x_length_squared (u v : Vec3 K) :
    (Vec3.cross u.mirror_x v.mirror_x).length_squared = (Vec3.cross u v).length_squared := by
  simp only [Vec3.length_squared, Vec3.cross_x, Vec3.cross_y, Vec3.cross_z, Vec3.mirror_x_x,
    Vec3.mirror_x_y, Vec3.mirror_x_z]
  ring

theorem Vec3.mirror_x_add (u v : Vec3 K) : (u + v).mirror_x = u.mirror_x + v.mirror_x := by
  apply Vec3.vec_ext <;> simp
  ring

theorem Vec3.mirror_x_mul (u : Vec3 K) (c : K) : (u * c).mirror_x = u.mirror_x * c := by
  apply Vec3.vec_ext <;> simp

theorem Vec3.mirror_x_div (u : Vec3 K) (c : K) : (u / c).mirror_x = u.mirror_x / c := by
  apply Vec3.vec_ext <;> simp
  ring

theorem PhotonState.state_mirror_x_add (a b : PhotonState K) :
    (a + b).mirror_x = a.mirror_x + b.mirror_x := by
  apply PhotonState.state_ext <;> simp [Vec3.mirror_x_add]

theorem PhotonState.state_mirror_x_mul (a : PhotonState K) (c : K) :
    (a * c).mirror_x = a.mirror_x * c := by
  apply PhotonState.state_ext <;> simp [Vec3.mirror_x_mul]

theorem Vec3.normalized_mirror_x (M : MathFns K) (v : Vec3 K) :
    v.mirror_x.normalized M = (v.normalized M).mirror_x := by
  simp only [Vec3.normalized, Vec3.length, Vec3.length_squared_mirror_x]
  split_ifs
  · apply Vec3.vec_ext <;> simp
  · exact (Vec3.mirror_x_div v _).symm

/-- The derivative of the mirrored state is the mirrored derivative. -/
theorem schwarzschild_mirror_x (M : MathFns K) (s : PhotonState K) (t rs : K) :
    schwarzschild_equations M s.mirror_x t rs =
      (schwarzschild_equations M s t rs).map PhotonState.mirror_x := by
  by_cases hg : M.sqrt s.pos.length_squared < 0.1 * rs
  · rw [schwarzschild_guard M s t rs hg,
      schwarzschild_guard M s.mirror_x t rs (by simpa using hg)]
    simp only [Option.map_some']
    congr 1
    apply PhotonState.state_ext <;> apply Vec3.vec_ext <;> simp
  · by_cases hz : s.pos.length_squared * s.pos.length_squared *
        M.sqrt s.pos.length_squared = 0
    · rw [schwarzschild_undefined M s t rs hg hz,
        schwarzschild_undefined M s.mirror_x t rs (by simpa using hg) (by simpa using hz)]
      rfl
    · rw [schwarzschild_regular M s t rs hg hz,
        schwarzschild_regular M s.mirror_x t rs (by simpa using hg) (by simpa using hz)]
      simp only [Option.map_some', PhotonState.mirror_x_pos, PhotonState.mirror_x_mom,
        Vec3.length_squared_mirror_x, Vec3.cross_mirror_x_length_squared]
      congr 1
      apply PhotonState.state_ext
      · rfl
      · exact (Vec3.mirror_x_mul _ _).symm

theorem equations_mirror_x (M : MathFns K) (rs : K) (x : PState K) (t : K) :
    equations M rs (x.map PhotonState.mirror_x) t =
      (equations M rs x t).map PhotonState.mirror_x := by
  cases x with
  | none => rfl
  | some s => exact schwarzschild_mirror_x M s t rs

theorem PState.map_mirror_x_add (a b : PState K) :
    ((a + b : PState K)).map PhotonState.mirror_x =
      (a.map PhotonState.mirror_x : PState K) + (b.map PhotonState.mirror_x : PState K) := by
  cases a with
  | none => rfl
  | some a =>
    cases b with
    | none => rfl
    | some b =>
      show some (a + b).mirror_x = some (a.mirror_x + b.mirror_x)
      rw [PhotonState.state_mirror_x_add]

theorem PState.map_mirror_x_mul (a : PState K) (c : K) :
    ((a * c : PState K)).map PhotonState.mirror_x =
      ((a.map PhotonState.mirror_x : PState K) * c : PState K) := by
  cases a with
  | none => rfl
  | some a =>
    show some (a * c).mirror_x = some (a.mirror_x * c)
    rw [PhotonState.state_mirror_x_mul]

/-- An RK4 step from the mirrored state gives the mirrored state. -/
theorem rk4_step_mirror_x (M : MathFns K) (rs : K) (x : PState K) (t dt : K) :
    rk4_step (x.map PhotonState.mirror_x : PState K) t dt (equations M rs) =
      (rk4_step x t dt (equations M rs)).map PhotonState.mirror_x := by
  simp only [rk4_step, equations_mirror_x, ← PState.map_mirror_x_mul, ← PState.map_mirror_x_add]

/-- The integration loop from the mirrored state ends with the same flag in
the mirrored state. -/
theorem integrate_mirror_x (M : MathFns K) (rs : K) (n : Nat) :
    ∀ st : PhotonState K, integrate M rs n st.mirror_x =
      (integrate M rs n st).map (fun r => (r.1, r.2.mirror_x)) := by
  induction n with
  | zero => exact fun st => rfl
  | succ n ih =>
    intro st
    have hm := rk4_step_mirror_x M rs (some st) 0
      (step_size rs (M.sqrt st.pos.length_squared))
    cases hr : rk4_step (some st : PState K) 0 (step_size rs (M.sqrt st.pos.length_squared))
      (equations M rs) with
    | none =>
      rw [hr] at hm
      rw [integrate_succ_none M rs n st hr,
        integrate_succ_none M rs n st.mirror_x (by simpa using hm)]
      rfl
    | some st2 =>
      rw [hr] at hm
      rw [integrate_succ_some M rs n st st2 hr,
        integrate_succ_some M rs n st.mirror_x st2.mirror_x (by simpa using hm)]
      simp only [PhotonState.mirror_x_pos, Vec3.length_squared_mirror_x]
      split_ifs
      · rfl
      · rfl
      · exact ih st2

end Mirror

end Lensing

namespace Lensing

section MirrorPixels

variable {K : Type} [LinearOrderedField K]

/-- Column `W - i` looks along the mirror image of the direction of column
`i`. -/
theorem pixel_ray_dir_mirror_x (M : MathFns K) (camera_dist : K) (W H i j : Nat)
    (hW : 0 < W) (hi : i ≤ W) :
    pixel_ray_dir M camera_dist W H (W - i) j =
      (pixel_ray_dir M camera_dist W H i j).mirror_x := by
  rw [pixel_ray_dir_eq, pixel_ray_dir_eq, ← Vec3.normalized_mirror_x]
  congr 1
  have hW0 : (W : K) ≠ 0 := Nat.cast_ne_zero.mpr hW.ne'
  apply Vec3.vec_ext
  · simp only [Vec3.mirror_x_x, Nat.cast_sub hi]
    field_simp
    ring
  · rfl
  · rfl

/-- The integration of column `W - i` ends with the flag of column `i` in the
mirrored state. -/
theorem trace_pixel_mirror_x (M : MathFns K) (g_rs camera_dist : K) (W H i j : Nat)
    (hW : 0 < W) (hi : i ≤ W) :
    trace_pixel M g_rs camera_dist W H (W - i) j =
      (trace_pixel M g_rs camera_dist W H i j).map (fun r => (r.1, r.2.mirror_x)) := by
  have e : (⟨⟨0, 0, -camera_dist⟩, pixel_ray_dir M camera_dist W H (W - i) j⟩ : PhotonState K) =
      (⟨⟨0, 0, -camera_dist⟩, pixel_ray_dir M camera_dist W H i j⟩ : PhotonState K).mirror_x := by
    rw [pixel_ray_dir_mirror_x M camera_dist W H i j hW hi]
    apply PhotonState.state_ext
    · apply Vec3.vec_ext <;> simp
    · rfl
  simp only [trace_pixel]
  rw [e]
  exact integrate_mirror_x M g_rs max_steps _

/-- With `rs = 0` a pixel whose ray avoids the origin ends unmarked, with its
initial direction. -/
theorem trace_pixel_zero_rs (M : MathFns K) (hM : SqrtSpec M) (camera_dist : K)
    (W H i j : Nat)
    (hray : ∀ τ : K, 0 ≤ τ →
      (⟨0, 0, -camera_dist⟩ : Vec3 K) + pixel_ray_dir M camera_dist W H i j * τ ≠ ⟨0, 0, 0⟩) :
    ∃ p : Vec3 K, trace_pixel M 0 camera_dist W H i j =
      some (false, ⟨p, pixel_ray_dir M camera_dist W H i j⟩) := by
  have e0 : (⟨0, 0, -camera_dist⟩ : Vec3 K) =
      ⟨0, 0, -camera_dist⟩ + pixel_ray_dir M camera_dist W H i j * (0 : K) := by
    apply Vec3.vec_ext <;> simp
  obtain ⟨τ2, -, h2⟩ := integrate_zero_rs M hM _ _ hray max_steps 0 le_rfl
  refine ⟨⟨0, 0, -camera_dist⟩ + pixel_ray_dir M camera_dist W H i j * τ2, ?_⟩
  rw [← h2, ← e0]
  rfl

theorem set_mass_fields (val : K) (g : Globals K) :
    (set_mass val g).g_rs = val ∧ (set_mass val g).camera_dist = g.camera_dist ∧
      (set_mass val g).first = g.first := by
  unfold set_mass
  split_ifs with h
  · exact ⟨rfl, rfl, rfl⟩
  · exact ⟨(not_not.mp h), rfl, rfl⟩

theorem step_calculation_params (M : MathFns K) (W H : Nat) (g : Globals K) :
    (step_calculation M W H g).g_rs = g.g_rs ∧
      (step_calculation M W H g).camera_dist = g.camera_dist := by
  simp only [step_calculation]
  split_ifs <;> exact ⟨rfl, rfl⟩

end MirrorPixels

section FirstTick

variable {K : Type} [LinearOrderedField K] [FloorRing K]

theorem main_loop_params (M : MathFns K) (W H : Nat) (events : List Event) (g : Globals K) :
    (main_loop M W H events g).g_rs = g.g_rs ∧
      (main_loop M W H events g).camera_dist = g.camera_dist := by
  have h1 : (if g.first then { reset_calculation g with first := false } else g).g_rs = g.g_rs ∧
      (if g.first then { reset_calculation g with first := false } else g).camera_dist =
        g.camera_dist := by
    split_ifs <;> exact ⟨rfl, rfl⟩
  unfold main_loop
  generalize (if g.first then { reset_calculation g with first := false } else g) = g1 at h1 ⊢
  simp only []
  obtain ⟨-, -, -, -, a5, a6, -⟩ := handle_events_frame events g1
  split_ifs
  · obtain ⟨b1, b2⟩ := step_calculation_params M W H g1
    exact ⟨b1.trans h1.1, b2.trans h1.2⟩
  · exact ⟨a5.trans h1.1, a6.trans h1.2⟩
  · exact ⟨a5.trans h1.1, a6.trans h1.2⟩

/-- On an image of at most five rows the first run of `main_loop` completes
the pass. -/
theorem main_loop_first_ready (M : MathFns K) (W H : Nat) (hH : H ≤ 5) (events : List Event)
    (g : Globals K) (hf : g.first = true) :
    (main_loop M W H events g).distortion_map_ready = true := by
  unfold main_loop
  rw [hf]
  simp only [if_true]
  have hc : ({ reset_calculation g with first := false } : Globals K).is_calculating = true := rfl
  rw [if_pos hc]
  exact (step_calculation_ready M W H _ hc).mpr (Or.inl (by
    show H ≤ 0 + 5
    omega))

end FirstTick

section MirrorClaims

variable {K : Type} [LinearOrderedField K] [FloorRing K]

/-- C8, amended: after a full pass, the entries of row `j` at columns `i` and
`W - i` (mirror images about the centre column, `0 < i < W`) have the same hit
flag, and when escaped their escape directions are mirror images in `x`: the
`x` components are opposite numbers, so their product is never positive; at the
centre column itself the `x` component is zero. -/
theorem mirror_symmetry (M : MathFns K) (W H : Nat) (acts : List (Action K))
    (hready : (run M W H acts).distortion_map_ready = true) (i j : Nat)
    (hi0 : 0 < i) (hi : i < W) (hj : j < H) :
    ((run M W H acts).distortion_map (j * W + (W - i))).hit =
      ((run M W H acts).distortion_map (j * W + i)).hit ∧
    (((run M W H acts).distortion_map (j * W + i)).hit = some false →
      ∃ d : Vec3 K, ((run M W H acts).distortion_map (j * W + i)).local_dir = some d ∧
        ((run M W H acts).distortion_map (j * W + (W - i))).local_dir = some d.mirror_x ∧
        d.mirror_x.x = -d.x ∧ d.x * d.mirror_x.x ≤ 0 ∧ (2 * i = W → d.x = 0)) := by
  obtain ⟨-, i2, -, i4⟩ := scheduler_inv_run M W H acts
  have hrow : j < (run M W H acts).calc_row := by rw [i2 hready]; exact hj
  obtain ⟨a1, a2⟩ := i4 j i hrow hi
  obtain ⟨b1, b2⟩ := i4 j (W - i) hrow (by omega)
  have hm := trace_pixel_mirror_x M (run M W H acts).g_rs (run M W H acts).camera_dist W H i j
    (by omega) hi.le
  rw [hm] at b1 b2
  refine ⟨?_, fun hf => ?_⟩
  · rw [a1, b1, Option.map_map]
    rfl
  · rw [a1] at hf
    cases ht : trace_pixel M (run M W H acts).g_rs (run M W H acts).camera_dist W H i j with
    | none => rw [ht] at hf; exact Option.noConfusion hf
    | some r =>
      obtain ⟨b, st⟩ := r
      rw [ht] at hf
      have hb : b = false := by simpa using hf
      subst hb
      have c1 := a2 st ht
      have c2 := b2 st.mirror_x (by rw [ht]; rfl)
      rw [PhotonState.mirror_x_mom, Vec3.normalized_mirror_x] at c2
      refine ⟨_, c1, c2, rfl, ?_, fun h2 => ?_⟩
      · rw [Vec3.mirror_x_x]
        nlinarith [mul_self_nonneg (Vec3.normalized M st.mom).x]
      · have hWi : W - i = i := by omega
        rw [hWi, c1] at c2
        have hx := congrArg Vec3.x (Option.some.inj c2)
        rw [Vec3.mirror_x_x] at hx
        linarith

end MirrorClaims

end Lensing

namespace Lensing

/-! ## Lengths of real vectors -/

section RealNorm

theorem Vec3.norm_nonneg (v : Vec3 ℝ) : 0 ≤ v.norm := Real.sqrt_nonneg _

theorem Vec3.norm_mul_self (v : Vec3 ℝ) : v.norm * v.norm = v.length_squared :=
  Real.mul_self_sqrt (Vec3.length_squared_nonneg v)

theorem Vec3.norm_sq (v : Vec3 ℝ) : v.norm ^ 2 = v.length_squared := by
  rw [sq, Vec3.norm_mul_self]

theorem Vec3.lagrange (u v : Vec3 ℝ) :
    (Vec3.dot u v) ^ 2 + (Vec3.cross u v).length_squared = u.length_squared * v.length_squared := by
  simp only [Vec3.dot, Vec3.length_squared, Vec3.cross_x, Vec3.cross_y, Vec3.cross_z]
  ring

theorem Vec3.abs_dot_le (u v : Vec3 ℝ) : |Vec3.dot u v| ≤ u.norm * v.norm := by
  have h : (Vec3.dot u v) ^ 2 ≤ u.length_squared * v.length_squared := by
    have := Vec3.lagrange u v
    have := Vec3.length_squared_nonneg (Vec3.cross u v)
    linarith
  have h2 := Real.abs_le_sqrt h
  rwa [Real.sqrt_mul (Vec3.length_squared_nonneg u)] at h2

theorem Vec3.dot_le (u v : Vec3 ℝ) : Vec3.dot u v ≤ u.norm * v.norm :=
  (le_abs_self _).trans (Vec3.abs_dot_le u v)

theorem Vec3.neg_le_dot (u v : Vec3 ℝ) : -(u.norm * v.norm) ≤ Vec3.dot u v :=
  (abs_le.mp (Vec3.abs_dot_le u v)).1

theorem Vec3.norm_cross_le (u v : Vec3 ℝ) : (Vec3.cross u v).norm ≤ u.norm * v.norm := by
  have h : (Vec3.cross u v).length_squared ≤ u.length_squared * v.length_squared := by
    have := Vec3.lagrange u v
    have := sq_nonneg (Vec3.dot u v)
    linarith
  have h2 := Real.sqrt_le_sqrt h
  rwa [Real.sqrt_mul (Vec3.length_squared_nonneg u)] at h2

theorem Vec3.length_squared_add (u v : Vec3 ℝ) :
    (u + v).length_squared = u.length_squared + 2 * Vec3.dot u v + v.length_squared := by
  simp only [Vec3.dot, Vec3.length_squared, Vec3.add_x, Vec3.add_y, Vec3.add_z]
  ring

theorem Vec3.norm_add_le (u v : Vec3 ℝ) : (u + v).norm ≤ u.norm + v.norm := by
  have h0 : 0 ≤ u.norm + v.norm := add_nonneg (Vec3.norm_nonneg u) (Vec3.norm_nonneg v)
  unfold Vec3.norm at *
  rw [Real.sqrt_le_iff]
  refine ⟨h0, ?_⟩
  have hd := Vec3.dot_le u v
  have hu := Vec3.norm_mul_self u
  have hv := Vec3.norm_mul_self v
  unfold Vec3.norm at hd hu hv
  rw [Vec3.length_squared_add]
  nlinarith

theorem Vec3.norm_mul (v : Vec3 ℝ) (c : ℝ) : (v * c).norm = v.norm * |c| := by
  have h : (v * c).length_squared = v.length_squared * c ^ 2 := by
    simp only [Vec3.length_squared, Vec3.mul_x, Vec3.mul_y, Vec3.mul_z]
    ring
  unfold Vec3.norm
  rw [h, Real.sqrt_mul (Vec3.length_squared_nonneg v), Real.sqrt_sq_eq_abs]

theorem Vec3.norm_mul_le (v : Vec3 ℝ) (c a b : ℝ) (hv : v.norm ≤ a) (hc : |c| ≤ b) :
    (v * c).norm ≤ a * b := by
  rw [Vec3.norm_mul]
  exact mul_le_mul hv hc (abs_nonneg c) ((Vec3.norm_nonneg v).trans hv)

/-- The reverse triangle inequality. -/
theorem Vec3.norm_sub_le_norm_add (u v : Vec3 ℝ) : u.norm - v.norm ≤ (u + v).norm := by
  have e : u = (u + v) + v * (-1 : ℝ) := by
    apply Vec3.vec_ext <;> simp
  have h := Vec3.norm_add_le (u + v) (v * (-1 : ℝ))
  rw [← e, Vec3.norm_mul] at h
  simp at h
  linarith

theorem Vec3.norm_le_of_dot_self (v : Vec3 ℝ) : Vec3.dot v v = v.norm ^ 2 := by
  rw [Vec3.norm_sq]
  rfl

theorem Vec3.cross_add_add (p d m g : Vec3 ℝ) :
    Vec3.cross (p + d) (m + g) =
      Vec3.cross p m + (Vec3.cross p g + Vec3.cross d m + Vec3.cross d g) := by
  apply Vec3.vec_ext <;> simp <;> ring

theorem Vec3.dot_add_add (p d m g : Vec3 ℝ) :
    Vec3.dot (p + d) (m + g) =
      Vec3.dot p m + (Vec3.dot p g + Vec3.dot d m + Vec3.dot d g) := by
  simp only [Vec3.dot, Vec3.add_x, Vec3.add_y, Vec3.add_z]
  ring

end RealNorm

end Lensing

namespace Lensing

/-! ## The field far from the hole, for `rs = 4` -/

section FarField

/-- Away from the hole the derivative is `(mom, pos * force_coeff)`, with a
non-positive coefficient of size `6 h² / r⁵`. -/
theorem schwarzschild_far (p m : Vec3 ℝ) (hr : 106 ≤ p.norm) :
    (∀ t : ℝ, schwarzschild_equations real_fns ⟨p, m⟩ t 4 = some ⟨m, p * force_coeff p m⟩) ∧
    force_coeff p m ≤ 0 ∧
    -force_coeff p m * p.norm ^ 5 = 6 * (Vec3.cross p m).norm ^ 2 := by
  have hpos : 0 < p.norm := by linarith
  have hls : p.length_squared = p.norm ^ 2 := (Vec3.norm_sq p).symm
  have hd : p.length_squared * p.length_squared * Real.sqrt p.length_squared = p.norm ^ 5 := by
    show p.length_squared * p.length_squared * p.norm = p.norm ^ 5
    rw [hls]
    ring
  have hd0 : p.norm ^ 5 ≠ 0 := pow_ne_zero 5 hpos.ne'
  refine ⟨fun t => ?_, ?_, ?_⟩
  · have hg : ¬ real_fns.sqrt (PhotonState.pos ⟨p, m⟩).length_squared < 0.1 * 4 := by
      show ¬ p.norm < 0.1 * 4
      norm_num
      linarith
    have hz : (PhotonState.pos ⟨p, m⟩).length_squared * (PhotonState.pos ⟨p, m⟩).length_squared *
        real_fns.sqrt (PhotonState.pos ⟨p, m⟩).length_squared ≠ 0 := by
      show p.length_squared * p.length_squared * Real.sqrt p.length_squared ≠ 0
      rw [hd]
      exact hd0
    rw [schwarzschild_regular real_fns ⟨p, m⟩ t 4 hg hz]
    rfl
  · unfold force_coeff
    rw [hd]
    apply div_nonpos_of_nonpos_of_nonneg
    · have := Vec3.length_squared_nonneg (Vec3.cross p m)
      nlinarith
    · positivity
  · unfold force_coeff
    rw [hd, Vec3.norm_sq, neg_mul, div_mul_cancel₀ _ hd0]
    ring

/-- The arithmetic behind `stage_bounds`. -/
theorem coeff_arith (a r rj h hj μ : ℝ) (ha0 : 0 ≤ a) (hrj : 106 ≤ rj)
    (hr1 : r ≤ rj + 0.59) (hr0 : 107 ≤ r) (hhj0 : 0 ≤ hj) (hh0 : 0 ≤ h)
    (hhj : hj ≤ h + 1.3177) (hh : h ≤ 133) (e5 : a * rj ^ 5 = 6 * hj ^ 2) (hμr : h ≤ r * μ) :
    a * rj ≤ 0.00086 ∧ a * r ≤ 0.0009 ∧ (125 ≤ h → a * (r * rj) ≤ 0.06 * μ ^ 2) := by
  have hrj4 : (106 : ℝ) ^ 4 ≤ rj ^ 4 := pow_le_pow_left₀ (by norm_num) hrj 4
  have hhj2 : hj ^ 2 ≤ (134.3177 : ℝ) ^ 2 := pow_le_pow_left₀ hhj0 (by linarith) 2
  have e5b : a * rj * rj ^ 4 = 6 * hj ^ 2 := by rw [← e5]; ring
  have harj0 : 0 ≤ a * rj := mul_nonneg ha0 (by linarith)
  have b1 : a * rj ≤ 0.00086 := by
    have h1 : a * rj * 106 ^ 4 ≤ a * rj * rj ^ 4 := mul_le_mul_of_nonneg_left hrj4 harj0
    have h2 : a * rj * 106 ^ 4 ≤ 6 * 134.3177 ^ 2 := by linarith
    norm_num at h2 ⊢
    linarith
  have ha1 : a * 106 ≤ 0.00086 := (mul_le_mul_of_nonneg_left hrj ha0).trans b1
  refine ⟨b1, ?_, fun h125 => ?_⟩
  · have h1 : a * r ≤ a * (rj + 0.59) := mul_le_mul_of_nonneg_left hr1 ha0
    have h2 : a * (rj + 0.59) = a * rj + 0.59 * a := by ring
    linarith
  · have hA : hj ≤ 1.011 * h := by linarith
    have hB : r ≤ 1.0056 * rj := by linarith
    have hr0' : 0 ≤ r := by linarith
    have hrj0 : 0 < rj := by linarith
    have hμr2 : h ^ 2 ≤ (r * μ) ^ 2 := pow_le_pow_left₀ hh0 hμr 2
    have hA2 : hj ^ 2 ≤ (1.011 * h) ^ 2 := pow_le_pow_left₀ hhj0 hA 2
    have hB3 : r ^ 3 ≤ (1.0056 * rj) ^ 3 := pow_le_pow_left₀ hr0' hB 3
    have hX : 0 ≤ h ^ 2 * rj ^ 3 := by positivity
    have s1 : hj ^ 2 * r ^ 3 ≤ (1.011 * h) ^ 2 * (1.0056 * rj) ^ 3 :=
      mul_le_mul hA2 hB3 (by positivity) (by positivity)
    have s2 : (1.011 * h) ^ 2 * (1.0056 * rj) ^ 3 = (1.011 ^ 2 * 1.0056 ^ 3) * (h ^ 2 * rj ^ 3) := by
      ring
    have s3 : (1.011 ^ 2 * 1.0056 ^ 3 : ℝ) ≤ 1.0394 := by norm_num
    have s4 : hj ^ 2 * r ^ 3 ≤ 1.0394 * (h ^ 2 * rj ^ 3) := by
      rw [s2] at s1
      exact s1.trans (mul_le_mul_of_nonneg_right s3 hX)
    have s5 : 6.2364 * (h ^ 2 * rj ^ 3) ≤ 0.06 * (h ^ 2 * rj ^ 3) * rj := by
      have : 0 ≤ (h ^ 2 * rj ^ 3) * (0.06 * rj - 6.2364) := mul_nonneg hX (by linarith)
      linarith
    have key : 6 * (hj ^ 2 * r ^ 3) ≤ 0.06 * (h ^ 2 * rj ^ 3) * rj := by linarith
    have s6 : 0.06 * (h ^ 2 * rj ^ 3) * rj ≤ 0.06 * ((r * μ) ^ 2 * rj ^ 3) * rj := by
      have : h ^ 2 * rj ^ 3 ≤ (r * μ) ^ 2 * rj ^ 3 :=
        mul_le_mul_of_nonneg_right hμr2 (by positivity)
      have hrj' : 0 ≤ rj := hrj0.le
      nlinarith
    have e6 : a * (r * rj) * (rj ^ 4 * r ^ 2) = 6 * (hj ^ 2 * r ^ 3) := by
      have : a * (r * rj) * (rj ^ 4 * r ^ 2) = (a * rj * rj ^ 4) * r ^ 3 := by ring
      rw [this, e5b]
      ring
    have e7 : 0.06 * ((r * μ) ^ 2 * rj ^ 3) * rj = 0.06 * μ ^ 2 * (rj ^ 4 * r ^ 2) := by ring
    have hpos : 0 < rj ^ 4 * r ^ 2 := by positivity
    have fin : a * (r * rj) * (rj ^ 4 * r ^ 2) ≤ 0.06 * μ ^ 2 * (rj ^ 4 * r ^ 2) := by
      rw [e6, ← e7]
      exact key.trans s6
    exact le_of_mul_le_mul_right fin hpos

/-- The numerical bounds on the coefficient at a stage state `(p + δ, m + γ)`
of an RK4 step from `(p, m)`. -/
theorem stage_bounds (p m δ γ : Vec3 ℝ) (hr : 107 ≤ p.norm) (hr2 : p.norm ≤ 1400)
    (hμ : m.norm ≤ 1.165) (hh : (Vec3.cross p m).norm ≤ 133)
    (hδ : δ.norm ≤ 0.59) (hγ : γ.norm ≤ 0.00045) :
    106 ≤ (p + δ).norm ∧ (p + δ).norm ≤ 1401 ∧
    force_coeff (p + δ) (m + γ) ≤ 0 ∧
    -force_coeff (p + δ) (m + γ) * (p + δ).norm ≤ 0.00086 ∧
    -force_coeff (p + δ) (m + γ) * p.norm ≤ 0.0009 ∧
    (125 ≤ (Vec3.cross p m).norm →
      -force_coeff (p + δ) (m + γ) * (p.norm * (p + δ).norm) ≤ 0.06 * m.norm ^ 2) := by
  have hδ0 := Vec3.norm_nonneg δ
  have hγ0 := Vec3.norm_nonneg γ
  have hm0 := Vec3.norm_nonneg m
  have hrj1 : p.norm - δ.norm ≤ (p + δ).norm := Vec3.norm_sub_le_norm_add p δ
  have hrj2 : (p + δ).norm ≤ p.norm + δ.norm := Vec3.norm_add_le p δ
  have hrj : 106 ≤ (p + δ).norm := by linarith
  obtain ⟨-, hφ, hid⟩ := schwarzschild_far (p + δ) (m + γ) hrj
  have hc1 : (Vec3.cross p γ).norm ≤ 1400 * 0.00045 :=
    (Vec3.norm_cross_le p γ).trans (mul_le_mul hr2 hγ hγ0 (by norm_num))
  have hc2 : (Vec3.cross δ m).norm ≤ 0.59 * 1.165 :=
    (Vec3.norm_cross_le δ m).trans (mul_le_mul hδ hμ hm0 (by norm_num))
  have hc3 : (Vec3.cross δ γ).norm ≤ 0.59 * 0.00045 :=
    (Vec3.norm_cross_le δ γ).trans (mul_le_mul hδ hγ hγ0 (by norm_num))
  have hhj : (Vec3.cross (p + δ) (m + γ)).norm ≤ (Vec3.cross p m).norm + 1.3177 := by
    rw [Vec3.cross_add_add]
    have t1 := Vec3.norm_add_le (Vec3.cross p m)
      (Vec3.cross p γ + Vec3.cross δ m + Vec3.cross δ γ)
    have t2 := Vec3.norm_add_le (Vec3.cross p γ + Vec3.cross δ m) (Vec3.cross δ γ)
    have t3 := Vec3.norm_add_le (Vec3.cross p γ) (Vec3.cross δ m)
    norm_num at hc1 hc2 hc3
    linarith
  obtain ⟨c1, c2, c3⟩ := coeff_arith (-force_coeff (p + δ) (m + γ)) p.norm (p + δ).norm
    (Vec3.cross p m).norm (Vec3.cross (p + δ) (m + γ)).norm m.norm (by linarith) hrj
    (by linarith) hr (Vec3.norm_nonneg _) (Vec3.norm_nonneg _) hhj hh hid
    (Vec3.norm_cross_le p m)
  exact ⟨hrj, by linarith, hφ, c1, c2, c3⟩

end FarField

end Lensing

namespace Lensing

/-! ## One RK4 step far from the hole -/

section FarStep

theorem Vec3.dot_mul_right (u v : Vec3 ℝ) (c : ℝ) : Vec3.dot u (v * c) = Vec3.dot u v * c := by
  simp only [Vec3.dot, Vec3.mul_x, Vec3.mul_y, Vec3.mul_z]
  ring

theorem Vec3.norm_cross_shift (p δ : Vec3 ℝ) (φ : ℝ) :
    (Vec3.cross p ((p + δ) * φ)).norm ≤ p.norm * δ.norm * |φ| := by
  have e : Vec3.cross p ((p + δ) * φ) = Vec3.cross p δ * φ := by
    apply Vec3.vec_ext <;> simp <;> ring
  rw [e, Vec3.norm_mul]
  exact mul_le_mul_of_nonneg_right (Vec3.norm_cross_le p δ) (abs_nonneg φ)

theorem Vec3.norm_comb4 (A B C D : Vec3 ℝ) (a b c d : ℝ) (hA : A.norm ≤ a) (hB : B.norm ≤ b)
    (hC : C.norm ≤ c) (hD : D.norm ≤ d) :
    ((A + B * (2 : ℝ) + C * (2 : ℝ) + D) * (1 / 12 : ℝ)).norm ≤ (a + 2 * b + 2 * c + d) / 12 := by
  rw [Vec3.norm_mul]
  have t1 := Vec3.norm_add_le (A + B * (2 : ℝ) + C * (2 : ℝ)) D
  have t2 := Vec3.norm_add_le (A + B * (2 : ℝ)) (C * (2 : ℝ))
  have t3 := Vec3.norm_add_le A (B * (2 : ℝ))
  have t4 : (B * (2 : ℝ)).norm = B.norm * 2 := by rw [Vec3.norm_mul]; norm_num
  have t5 : (C * (2 : ℝ)).norm = C.norm * 2 := by rw [Vec3.norm_mul]; norm_num
  have t6 : |(1 / 12 : ℝ)| = 1 / 12 := abs_of_pos (by norm_num)
  rw [t6]
  linarith

theorem Vec3.norm_comb3 (A B C : Vec3 ℝ) (a b c : ℝ) (hA : A.norm ≤ a) (hB : B.norm ≤ b)
    (hC : C.norm ≤ c) :
    ((A + B + C) * (1 / 24 : ℝ)).norm ≤ (a + b + c) / 24 := by
  rw [Vec3.norm_mul]
  have t1 := Vec3.norm_add_le (A + B) C
  have t2 := Vec3.norm_add_le A B
  have t6 : |(1 / 24 : ℝ)| = 1 / 24 := abs_of_pos (by norm_num)
  rw [t6]
  linarith

/-- The size of a force `(p + δ) * φ` with `φ ≤ 0`. -/
theorem Vec3.norm_force (q : Vec3 ℝ) (φ : ℝ) (hφ : φ ≤ 0) : (q * φ).norm = -φ * q.norm := by
  rw [Vec3.norm_mul, abs_of_nonpos hφ]
  ring

set_option maxHeartbeats 1600000 in
/-- The estimates of one RK4 step in terms of the four stage forces
`F1 = p * φ1`, `Fj = (p + δj) * φj`. -/
theorem step_estimates (p m δ2 δ3 δ4 : Vec3 ℝ) (φ1 φ2 φ3 φ4 : ℝ)
    (hr2 : p.norm ≤ 1400) (hμ : m.norm ≤ 1.165)
    (hδ2 : δ2.norm ≤ 0.59) (hδ3 : δ3.norm ≤ 0.59) (hδ4 : δ4.norm ≤ 0.59)
    (n1 : φ1 ≤ 0) (n2 : φ2 ≤ 0) (n3 : φ3 ≤ 0) (n4 : φ4 ≤ 0)
    (a1 : -φ1 * p.norm ≤ 0.00086) (a2 : -φ2 * (p + δ2).norm ≤ 0.00086)
    (a3 : -φ3 * (p + δ3).norm ≤ 0.00086) (a4 : -φ4 * (p + δ4).norm ≤ 0.00086)
    (b2 : -φ2 * p.norm ≤ 0.0009) (b3 : -φ3 * p.norm ≤ 0.0009) (b4 : -φ4 * p.norm ≤ 0.0009)
    (u2 : (p + δ2).norm ≤ 1401) (u3 : (p + δ3).norm ≤ 1401) (u4 : (p + δ4).norm ≤ 1401)
    (c1 : 125 ≤ (Vec3.cross p m).norm → -φ1 * (p.norm * p.norm) ≤ 0.06 * m.norm ^ 2)
    (c2 : 125 ≤ (Vec3.cross p m).norm →
      -φ2 * (p.norm * (p + δ2).norm) ≤ 0.06 * m.norm ^ 2)
    (c3 : 125 ≤ (Vec3.cross p m).norm →
      -φ3 * (p.norm * (p + δ3).norm) ≤ 0.06 * m.norm ^ 2)
    (c4 : 125 ≤ (Vec3.cross p m).norm →
      -φ4 * (p.norm * (p + δ4).norm) ≤ 0.06 * m.norm ^ 2)
    (pn mn : Vec3 ℝ)
    (hpn : pn = p + (m * (0.5 : ℝ) +
      (p * φ1 + (p + δ2) * φ2 + (p + δ3) * φ3) * (1 / 24 : ℝ)))
    (hmn : mn = m + (p * φ1 + (p + δ2) * φ2 * (2 : ℝ) + (p + δ3) * φ3 * (2 : ℝ) +
      (p + δ4) * φ4) * (1 / 12 : ℝ)) :
    pn.norm ≤ p.norm + 0.6 ∧
    |mn.norm - m.norm| ≤ 0.00045 ∧
    |(Vec3.cross pn mn).norm - (Vec3.cross p m).norm| ≤ 0.0008 ∧
    (125 ≤ (Vec3.cross p m).norm →
      Vec3.dot p m + 0.47 * m.norm ^ 2 - 0.0004 ≤ Vec3.dot pn mn) ∧
    (2 ≤ Vec3.dot p m → mn.norm ≤ m.norm) := by
  have hp0 := Vec3.norm_nonneg p
  have hm0 := Vec3.norm_nonneg m
  -- the four forces
  have f1 : (p * φ1).norm ≤ 0.00086 := by rw [Vec3.norm_force p φ1 n1]; exact a1
  have f2 : ((p + δ2) * φ2).norm ≤ 0.00086 := by rw [Vec3.norm_force _ φ2 n2]; exact a2
  have f3 : ((p + δ3) * φ3).norm ≤ 0.00086 := by rw [Vec3.norm_force _ φ3 n3]; exact a3
  have f4 : ((p + δ4) * φ4).norm ≤ 0.00086 := by rw [Vec3.norm_force _ φ4 n4]; exact a4
  -- the increments
  have hΔ' := Vec3.norm_comb3 _ _ _ _ _ _ f1 f2 f3
  have hΓ := Vec3.norm_comb4 _ _ _ _ _ _ _ _ f1 f2 f3 f4
  norm_num at hΔ' hΓ
  set D' := (p * φ1 + (p + δ2) * φ2 + (p + δ3) * φ3) * (1 / 24 : ℝ) with hD'
  set G := (p * φ1 + (p + δ2) * φ2 * (2 : ℝ) + (p + δ3) * φ3 * (2 : ℝ) +
      (p + δ4) * φ4) * (1 / 12 : ℝ) with hG
  have hD'0 := Vec3.norm_nonneg D'
  have hG0 := Vec3.norm_nonneg G
  have hΔ : (m * (0.5 : ℝ) + D').norm ≤ 0.5827 := by
    have t := Vec3.norm_add_le (m * (0.5 : ℝ)) D'
    have t2 : (m * (0.5 : ℝ)).norm = m.norm * 0.5 := by
      rw [Vec3.norm_mul]; norm_num
    linarith
  have hΔ0 := Vec3.norm_nonneg (m * (0.5 : ℝ) + D')
  refine ⟨?_, ?_, ?_, ?_, ?_⟩
  · rw [hpn]
    have t := Vec3.norm_add_le p (m * (0.5 : ℝ) + D')
    linarith
  · rw [hmn, abs_le]
    have t1 := Vec3.norm_add_le m G
    have t2 := Vec3.norm_sub_le_norm_add m G
    constructor <;> linarith
  · -- the angular momentum
    have e : Vec3.cross pn mn = Vec3.cross p m +
        (Vec3.cross p G + Vec3.cross (m * (0.5 : ℝ) + D') m +
          Vec3.cross (m * (0.5 : ℝ) + D') G) := by
      rw [hpn, hmn, Vec3.cross_add_add]
    have g1 : (Vec3.cross p (p * φ1)).norm ≤ 0 := by
      have z : Vec3.cross p (p * φ1) = ⟨0, 0, 0⟩ := by
        apply Vec3.vec_ext <;> simp <;> ring
      rw [z]
      simp [Vec3.norm, Vec3.length_squared]
    have gj : ∀ (δ : Vec3 ℝ) (φ : ℝ), δ.norm ≤ 0.59 → φ ≤ 0 → -φ * p.norm ≤ 0.0009 →
        (Vec3.cross p ((p + δ) * φ)).norm ≤ 0.000531 := by
      intro δ φ hδ hφ hb
      have t := Vec3.norm_cross_shift p δ φ
      rw [abs_of_nonpos hφ] at t
      have t2 : p.norm * δ.norm * -φ = δ.norm * (-φ * p.norm) := by ring
      have t3 : δ.norm * (-φ * p.norm) ≤ 0.59 * 0.0009 :=
        mul_le_mul hδ hb (mul_nonneg (by linarith) hp0) (by norm_num)
      norm_num at t3
      linarith
    have eG : Vec3.cross p G = (Vec3.cross p (p * φ1) +
        Vec3.cross p ((p + δ2) * φ2) * (2 : ℝ) + Vec3.cross p ((p + δ3) * φ3) * (2 : ℝ) +
        Vec3.cross p ((p + δ4) * φ4)) * (1 / 12 : ℝ) := by
      rw [hG]
      apply Vec3.vec_ext <;> simp <;> ring
    have hpG : (Vec3.cross p G).norm ≤ 0.00022125 := by
      rw [eG]
      have t := Vec3.norm_comb4 _ _ _ _ _ _ _ _ g1 (gj δ2 φ2 hδ2 n2 b2) (gj δ3 φ3 hδ3 n3 b3)
        (gj δ4 φ4 hδ4 n4 b4)
      norm_num at t
      linarith
    have eΔm : Vec3.cross (m * (0.5 : ℝ) + D') m = Vec3.cross D' m := by
      apply Vec3.vec_ext <;> simp <;> ring
    have hΔm : (Vec3.cross (m * (0.5 : ℝ) + D') m).norm ≤ 0.00012524 := by
      rw [eΔm]
      have t := Vec3.norm_cross_le D' m
      have t2 : D'.norm * m.norm ≤ (43 / 400000) * 1.165 :=
        mul_le_mul hΔ' hμ hm0 (by norm_num)
      norm_num at t2
      linarith
    have hΔG : (Vec3.cross (m * (0.5 : ℝ) + D') G).norm ≤ 0.00025057 := by
      have t := Vec3.norm_cross_le (m * (0.5 : ℝ) + D') G
      have t2 : (m * (0.5 : ℝ) + D').norm * G.norm ≤ 0.5827 * (43 / 100000) :=
        mul_le_mul hΔ hΓ hG0 (by norm_num)
      norm_num at t2
      linarith
    have hE : (Vec3.cross p G + Vec3.cross (m * (0.5 : ℝ) + D') m +
          Vec3.cross (m * (0.5 : ℝ) + D') G).norm ≤ 0.0008 := by
      have t1 := Vec3.norm_add_le (Vec3.cross p G + Vec3.cross (m * (0.5 : ℝ) + D') m)
        (Vec3.cross (m * (0.5 : ℝ) + D') G)
      have t2 := Vec3.norm_add_le (Vec3.cross p G) (Vec3.cross (m * (0.5 : ℝ) + D') m)
      linarith
    rw [e, abs_le]
    have t1 := Vec3.norm_add_le (Vec3.cross p m)
      (Vec3.cross p G + Vec3.cross (m * (0.5 : ℝ) + D') m +
          Vec3.cross (m * (0.5 : ℝ) + D') G)
    have t2 := Vec3.norm_sub_le_norm_add (Vec3.cross p m)
      (Vec3.cross p G + Vec3.cross (m * (0.5 : ℝ) + D') m +
          Vec3.cross (m * (0.5 : ℝ) + D') G)
    constructor <;> linarith
  · -- the radial momentum
    intro h125
    have e : Vec3.dot pn mn = Vec3.dot p m +
        (Vec3.dot p G + Vec3.dot (m * (0.5 : ℝ) + D') m +
          Vec3.dot (m * (0.5 : ℝ) + D') G) := by
      rw [hpn, hmn, Vec3.dot_add_add]
    have dj : ∀ (q : Vec3 ℝ) (φ : ℝ), φ ≤ 0 → -φ * (p.norm * q.norm) ≤ 0.06 * m.norm ^ 2 →
        -(0.06 * m.norm ^ 2) ≤ Vec3.dot p (q * φ) := by
      intro q φ hφ hc
      rw [Vec3.dot_mul_right]
      have t := Vec3.dot_le p q
      have t2 : p.norm * q.norm * φ ≤ Vec3.dot p q * φ :=
        mul_le_mul_of_nonpos_right t hφ
      have t3 : p.norm * q.norm * φ = -(-φ * (p.norm * q.norm)) := by ring
      linarith
    have eG : Vec3.dot p G = (Vec3.dot p (p * φ1) + 2 * Vec3.dot p ((p + δ2) * φ2) +
        2 * Vec3.dot p ((p + δ3) * φ3) + Vec3.dot p ((p + δ4) * φ4)) * (1 / 12) := by
      rw [hG]
      simp only [Vec3.dot, Vec3.mul_x, Vec3.mul_y, Vec3.mul_z, Vec3.add_x, Vec3.add_y,
        Vec3.add_z]
      ring
    have hpG : -(0.03 * m.norm ^ 2) ≤ Vec3.dot p G := by
      rw [eG]
      have t1 := dj p φ1 n1 (c1 h125)
      have t2 := dj (p + δ2) φ2 n2 (c2 h125)
      have t3 := dj (p + δ3) φ3 n3 (c3 h125)
      have t4 := dj (p + δ4) φ4 n4 (c4 h125)
      linarith
    have eΔm : Vec3.dot (m * (0.5 : ℝ) + D') m = 0.5 * m.norm ^ 2 + Vec3.dot D' m := by
      rw [Vec3.norm_sq]
      simp only [Vec3.dot, Vec3.length_squared, Vec3.mul_x, Vec3.mul_y, Vec3.mul_z, Vec3.add_x,
        Vec3.add_y, Vec3.add_z]
      ring
    have hD'm : -0.00012524 ≤ Vec3.dot D' m := by
      have t := Vec3.neg_le_dot D' m
      have t2 : D'.norm * m.norm ≤ (43 / 400000) * 1.165 :=
        mul_le_mul hΔ' hμ hm0 (by norm_num)
      norm_num at t2
      linarith
    have hΔG : -0.00025057 ≤ Vec3.dot (m * (0.5 : ℝ) + D') G := by
      have t := Vec3.neg_le_dot (m * (0.5 : ℝ) + D') G
      have t2 : (m * (0.5 : ℝ) + D').norm * G.norm ≤ 0.5827 * (43 / 100000) :=
        mul_le_mul hΔ hΓ hG0 (by norm_num)
      norm_num at t2
      linarith
    rw [e, eΔm]
    linarith only [hpG, hD'm, hΔG]
  · -- the momentum does not grow once the photon recedes
    intro hQ
    have hls : mn.length_squared ≤ m.length_squared := by
      rw [hmn, Vec3.length_squared_add]
      have dj : ∀ (δ : Vec3 ℝ) (φ : ℝ), δ.norm ≤ 0.59 → φ ≤ 0 →
          Vec3.dot m ((p + δ) * φ) ≤ 1.3 * φ := by
        intro δ φ hδ hφ
        rw [Vec3.dot_mul_right]
        have e1 : Vec3.dot m (p + δ) = Vec3.dot p m + Vec3.dot m δ := by
          simp only [Vec3.dot, Vec3.add_x, Vec3.add_y, Vec3.add_z]
          ring
        have t := Vec3.neg_le_dot m δ
        have t2 : m.norm * δ.norm ≤ 1.165 * 0.59 :=
          mul_le_mul hμ hδ (Vec3.norm_nonneg δ) (by norm_num)
        norm_num at t2
        have t3 : 1.3 ≤ Vec3.dot m (p + δ) := by rw [e1]; linarith
        exact mul_le_mul_of_nonpos_right t3 hφ
      have d1 : Vec3.dot m (p * φ1) ≤ 1.3 * φ1 := by
        rw [Vec3.dot_mul_right]
        have e1 : Vec3.dot m p = Vec3.dot p m := by
          simp only [Vec3.dot]
          ring
        rw [e1]
        exact mul_le_mul_of_nonpos_right (by linarith) n1
      have eG : Vec3.dot m G = (Vec3.dot m (p * φ1) + 2 * Vec3.dot m ((p + δ2) * φ2) +
          2 * Vec3.dot m ((p + δ3) * φ3) + Vec3.dot m ((p + δ4) * φ4)) * (1 / 12) := by
        rw [hG]
        simp only [Vec3.dot, Vec3.mul_x, Vec3.mul_y, Vec3.mul_z, Vec3.add_x, Vec3.add_y,
          Vec3.add_z]
        ring
      have hmG : Vec3.dot m G ≤ (1.3 / 12) * (φ1 + 2 * φ2 + 2 * φ3 + φ4) := by
        rw [eG]
        have t2 := dj δ2 φ2 hδ2 n2
        have t3 := dj δ3 φ3 hδ3 n3
        have t4 := dj δ4 φ4 hδ4 n4
        linarith
      -- the size of the momentum increment against the same sum
      have k1 : (p * φ1).norm ≤ -φ1 * 1401 := by
        rw [Vec3.norm_force p φ1 n1]
        exact mul_le_mul_of_nonneg_left (by linarith) (by linarith)
      have k2 : ((p + δ2) * φ2).norm ≤ -φ2 * 1401 := by
        rw [Vec3.norm_force _ φ2 n2]
        exact mul_le_mul_of_nonneg_left u2 (by linarith)
      have k3 : ((p + δ3) * φ3).norm ≤ -φ3 * 1401 := by
        rw [Vec3.norm_force _ φ3 n3]
        exact mul_le_mul_of_nonneg_left u3 (by linarith)
      have k4 : ((p + δ4) * φ4).norm ≤ -φ4 * 1401 := by
        rw [Vec3.norm_force _ φ4 n4]
        exact mul_le_mul_of_nonneg_left u4 (by linarith)
      have hGS : G.norm ≤ (1401 / 12) * -(φ1 + 2 * φ2 + 2 * φ3 + φ4) := by
        have t := Vec3.norm_comb4 _ _ _ _ _ _ _ _ k1 k2 k3 k4
        rw [← hG] at t
        linarith
      have hGG : G.length_squared ≤ 0.00043 * ((1401 / 12) * -(φ1 + 2 * φ2 + 2 * φ3 + φ4)) := by
        rw [← Vec3.norm_mul_self]
        exact mul_le_mul (by linarith only [hΓ]) hGS hG0 (by norm_num)
      linarith only [hmG, hGG, n1, n2, n3, n4]
    unfold Vec3.norm
    exact Real.sqrt_le_sqrt hls

end FarStep

end Lensing

namespace Lensing

/-! ## The RK4 step of the program far from the hole -/

section FarRK4

/-- The step in terms of its four stage derivatives, when all are defined. -/
theorem rk4_step_stages {K : Type} [LinearOrderedField K] (M : MathFns K) (rs t dt : K)
    (s k1 k2 k3 k4 : PhotonState K)
    (h1 : schwarzschild_equations M s t rs = some k1)
    (h2 : schwarzschild_equations M (s + k1 * (dt * 0.5)) (t + dt * 0.5) rs = some k2)
    (h3 : schwarzschild_equations M (s + k2 * (dt * 0.5)) (t + dt * 0.5) rs = some k3)
    (h4 : schwarzschild_equations M (s + k3 * dt) (t + dt) rs = some k4) :
    rk4_step (some s : PState K) t dt (equations M rs) =
      some (s + (k1 + k2 * (2.0 : K) + k3 * (2.0 : K) + k4) * (dt / 6.0)) := by
  simp only [rk4_step, equations_some, h1, PState.some_mul, PState.some_add, h2, h3, h4]

theorem Vec3.add_origin (p : Vec3 ℝ) : p + (⟨0, 0, 0⟩ : Vec3 ℝ) = p := by
  apply Vec3.vec_ext <;> simp

theorem Vec3.norm_origin : (⟨0, 0, 0⟩ : Vec3 ℝ).norm = 0 := by
  simp [Vec3.norm, Vec3.length_squared]

set_option maxHeartbeats 1600000 in
/-- One step of size 0.5 from a state far from the hole: the new state and
the change of radius, momentum, angular momentum and radial momentum. -/
theorem rk4_far_step (p m : Vec3 ℝ) (hr : 107 ≤ p.norm) (hr2 : p.norm ≤ 1400)
    (hμ : m.norm ≤ 1.165) (hh : (Vec3.cross p m).norm ≤ 133) :
    ∃ pn mn : Vec3 ℝ,
      rk4_step (some ⟨p, m⟩ : PState ℝ) (0 : ℝ) (0.5 : ℝ) (equations real_fns 4) =
        some ⟨pn, mn⟩ ∧
      pn.norm ≤ p.norm + 0.6 ∧
      |mn.norm - m.norm| ≤ 0.00045 ∧
      |(Vec3.cross pn mn).norm - (Vec3.cross p m).norm| ≤ 0.0008 ∧
      (125 ≤ (Vec3.cross p m).norm →
        Vec3.dot p m + 0.47 * m.norm ^ 2 - 0.0004 ≤ Vec3.dot pn mn) ∧
      (2 ≤ Vec3.dot p m → mn.norm ≤ m.norm) := by
  have hm0 := Vec3.norm_nonneg m
  -- stage 1
  have s1 := stage_bounds p m ⟨0, 0, 0⟩ ⟨0, 0, 0⟩ hr hr2 hμ hh
    (by rw [Vec3.norm_origin]; norm_num) (by rw [Vec3.norm_origin]; norm_num)
  rw [Vec3.add_origin, Vec3.add_origin] at s1
  obtain ⟨-, -, n1, a1, -, c1⟩ := s1
  have E1 := (schwarzschild_far p m (by linarith)).1
  have f1 : (p * force_coeff p m).norm ≤ 0.00086 := by
    rw [Vec3.norm_force p _ n1]; exact a1
  -- stage 2
  have hδ2 : (m * ((0.5 : ℝ) * 0.5)).norm ≤ 0.59 := by
    have t := Vec3.norm_mul_le m ((0.5 : ℝ) * 0.5) 1.165 0.25 hμ
      (by rw [abs_of_nonneg] <;> norm_num)
    norm_num at t ⊢
    linarith
  have hγ2 : (p * force_coeff p m * ((0.5 : ℝ) * 0.5)).norm ≤ 0.00045 := by
    have t := Vec3.norm_mul_le (p * force_coeff p m) ((0.5 : ℝ) * 0.5) 0.00086 0.25 f1
      (by rw [abs_of_nonneg] <;> norm_num)
    norm_num at t ⊢
    linarith
  have hγ2' : (p * force_coeff p m * ((0.5 : ℝ) * 0.5)).norm ≤ 0.000215 := by
    have t := Vec3.norm_mul_le (p * force_coeff p m) ((0.5 : ℝ) * 0.5) 0.00086 0.25 f1
      (by rw [abs_of_nonneg] <;> norm_num)
    norm_num at t ⊢
    linarith
  obtain ⟨l2, u2, n2, a2, b2, c2⟩ := stage_bounds p m _ _ hr hr2 hμ hh hδ2 hγ2
  have E2 := (schwarzschild_far _ (m + p * force_coeff p m * ((0.5 : ℝ) * 0.5)) l2).1
  generalize hφ1 : force_coeff p m = φ1 at *
  generalize hφ2 : force_coeff (p + m * ((0.5 : ℝ) * 0.5))
    (m + p * φ1 * ((0.5 : ℝ) * 0.5)) = φ2 at *
  have f2 : ((p + m * ((0.5 : ℝ) * 0.5)) * φ2).norm ≤ 0.00086 := by
    rw [Vec3.norm_force _ _ n2]; exact a2
  -- stage 3
  have hm2 : (m + p * φ1 * ((0.5 : ℝ) * 0.5)).norm ≤ 1.166 := by
    have t := Vec3.norm_add_le m (p * φ1 * ((0.5 : ℝ) * 0.5))
    linarith
  have hδ3 : ((m + p * φ1 * ((0.5 : ℝ) * 0.5)) * ((0.5 : ℝ) * 0.5)).norm ≤ 0.59 := by
    have t := Vec3.norm_mul_le _ ((0.5 : ℝ) * 0.5) 1.166 0.25 hm2
      (by rw [abs_of_nonneg] <;> norm_num)
    norm_num at t ⊢
    linarith
  have hγ3 : ((p + m * ((0.5 : ℝ) * 0.5)) * φ2 * ((0.5 : ℝ) * 0.5)).norm ≤ 0.00045 := by
    have t := Vec3.norm_mul_le _ ((0.5 : ℝ) * 0.5) 0.00086 0.25 f2
      (by rw [abs_of_nonneg] <;> norm_num)
    norm_num at t ⊢
    linarith
  obtain ⟨l3, u3, n3, a3, b3, c3⟩ := stage_bounds p m _ _ hr hr2 hμ hh hδ3 hγ3
  have E3 := (schwarzschild_far _
    (m + (p + m * ((0.5 : ℝ) * 0.5)) * φ2 * ((0.5 : ℝ) * 0.5)) l3).1
  generalize hφ3 : force_coeff (p + (m + p * φ1 * ((0.5 : ℝ) * 0.5)) * ((0.5 : ℝ) * 0.5))
    (m + (p + m * ((0.5 : ℝ) * 0.5)) * φ2 * ((0.5 : ℝ) * 0.5)) = φ3 at *
  have f3 : ((p + (m + p * φ1 * ((0.5 : ℝ) * 0.5)) * ((0.5 : ℝ) * 0.5)) * φ3).norm
      ≤ 0.00086 := by
    rw [Vec3.norm_force _ _ n3]; exact a3
  -- stage 4
  have hm3 : (m + (p + m * ((0.5 : ℝ) * 0.5)) * φ2 * ((0.5 : ℝ) * 0.5)).norm ≤ 1.166 := by
    have t := Vec3.norm_add_le m ((p + m * ((0.5 : ℝ) * 0.5)) * φ2 * ((0.5 : ℝ) * 0.5))
    linarith
  have hδ4 : ((m + (p + m * ((0.5 : ℝ) * 0.5)) * φ2 * ((0.5 : ℝ) * 0.5)) * (0.5 : ℝ)).norm
      ≤ 0.59 := by
    have t := Vec3.norm_mul_le _ (0.5 : ℝ) 1.166 0.5 hm3
      (by rw [abs_of_nonneg]; norm_num)
    norm_num at t ⊢
    linarith
  have hγ4 : ((p + (m + p * φ1 * ((0.5 : ℝ) * 0.5)) * ((0.5 : ℝ) * 0.5)) * φ3 *
      (0.5 : ℝ)).norm ≤ 0.00045 := by
    have t := Vec3.norm_mul_le _ (0.5 : ℝ) 0.00086 0.5 f3
      (by rw [abs_of_nonneg]; norm_num)
    norm_num at t ⊢
    linarith
  obtain ⟨l4, u4, n4, a4, b4, c4⟩ := stage_bounds p m _ _ hr hr2 hμ hh hδ4 hγ4
  have E4 := (schwarzschild_far _
    (m + (p + (m + p * φ1 * ((0.5 : ℝ) * 0.5)) * ((0.5 : ℝ) * 0.5)) * φ3 * (0.5 : ℝ)) l4).1
  generalize hφ4 : force_coeff
    (p + (m + (p + m * ((0.5 : ℝ) * 0.5)) * φ2 * ((0.5 : ℝ) * 0.5)) * (0.5 : ℝ))
    (m + (p + (m + p * φ1 * ((0.5 : ℝ) * 0.5)) * ((0.5 : ℝ) * 0.5)) * φ3 * (0.5 : ℝ)) = φ4 at *
  -- the step
  have hstep := rk4_step_stages real_fns 4 0 0.5 ⟨p, m⟩ _ _ _ _ (E1 0)
    (E2 ((0 : ℝ) + 0.5 * 0.5)) (E3 ((0 : ℝ) + 0.5 * 0.5)) (E4 ((0 : ℝ) + 0.5))
  refine ⟨_, _, hstep, ?_⟩
  have c1' : 125 ≤ (Vec3.cross p m).norm → -φ1 * (p.norm * p.norm) ≤ 0.06 * m.norm ^ 2 := c1
  exact step_estimates p m _ _ _ φ1 φ2 φ3 φ4 hr2 hμ hδ2 hδ3 hδ4 n1 n2 n3 n4 a1 a2 a3 a4
    b2 b3 b4 u2 u3 u4 c1' c2 c3 c4 _ _
    (by apply Vec3.vec_ext <;> simp <;> ring)
    (by apply Vec3.vec_ext <;> simp <;> ring)

end FarRK4

end Lensing

namespace Lensing

/-! ## The integration loop along a far fly-by -/

section FarLoop

theorem far_inv_bounds (h0 : ℝ) (hl : 127 ≤ h0) (hu : h0 ≤ 131) (n : Nat) (hn : n ≤ 2000)
    (s : PhotonState ℝ) (hs : far_inv h0 n s) :
    107 ≤ s.pos.norm ∧ s.pos.norm ≤ 1400 ∧ 125 ≤ (Vec3.cross s.pos s.mom).norm ∧
      (Vec3.cross s.pos s.mom).norm ≤ 133 ∧ 0.1 ≤ s.mom.norm := by
  obtain ⟨i1, i2, i3, i4, -, -⟩ := hs
  have hn' : (n : ℝ) ≤ 2000 := by exact_mod_cast hn
  have hn0 : (0 : ℝ) ≤ (n : ℝ) := Nat.cast_nonneg n
  rw [abs_le] at i1 i3
  have hc := Vec3.norm_cross_le s.pos s.mom
  have hm0 := Vec3.norm_nonneg s.mom
  have hp0 := Vec3.norm_nonneg s.pos
  refine ⟨?_, by linarith, by linarith, by linarith, by linarith⟩
  by_contra hlt
  push_neg at hlt
  have t : s.pos.norm * s.mom.norm ≤ 107 * 1.1125 := mul_le_mul hlt.le i4 hm0 (by norm_num)
  norm_num at t
  linarith

theorem step_size_far (r : ℝ) (hr : 40 ≤ r) : step_size (4 : ℝ) r = 0.5 := by
  simp only [step_size]
  rw [if_neg (by norm_num; linarith), if_neg (by norm_num; linarith)]

set_option maxHeartbeats 800000 in
/-- One iteration of the loop keeps the invariant. -/
theorem far_inv_step (h0 : ℝ) (hl : 127 ≤ h0) (hu : h0 ≤ 131) (n : Nat) (hn : n < 2000)
    (s : PhotonState ℝ) (hs : far_inv h0 n s) :
    ∃ s2 : PhotonState ℝ,
      rk4_step (some s : PState ℝ) (0 : ℝ) (0.5 : ℝ) (equations real_fns 4) = some s2 ∧
      far_inv h0 (n + 1) s2 := by
  obtain ⟨b1, b2, b3, b4, b5⟩ := far_inv_bounds h0 hl hu n hn.le s hs
  obtain ⟨p, m⟩ := s
  obtain ⟨i1, i2, i3, i4, i5, i6⟩ := hs
  simp only at b1 b2 b3 b4 b5 i1 i2 i3 i4 i5 i6
  obtain ⟨pn, mn, hstep, e1, e2, e3, e4, e5⟩ := rk4_far_step p m b1 b2 (by linarith) b4
  have e4' := e4 b3
  refine ⟨⟨pn, mn⟩, hstep, ?_⟩
  have hn' : (n : ℝ) ≤ 2000 := by exact_mod_cast hn.le
  have hn0 : (0 : ℝ) ≤ (n : ℝ) := Nat.cast_nonneg n
  have hμ2 : 0.01 ≤ m.norm ^ 2 := by nlinarith
  rw [abs_le] at i1 i3 e2 e3
  have hQ : (249 : ℝ) ≤ (n : ℝ) → 2 ≤ Vec3.dot p m := by
    intro h249
    rcases Nat.lt_or_ge 250 n with h | h
    · exact i6 h.le
    · have := i5 h
      linarith
  refine ⟨?_, ?_, ?_, ?_, ?_, ?_⟩
  · show |(Vec3.cross pn mn).norm - h0| ≤ 0.0008 * ((n + 1 : ℕ) : ℝ)
    push_cast
    rw [abs_le]
    constructor <;> linarith
  · show pn.norm ≤ 150 + 0.6 * ((n + 1 : ℕ) : ℝ)
    push_cast
    linarith
  · show |mn.norm - 1| ≤ 0.00045 * ((n + 1 : ℕ) : ℝ)
    push_cast
    rw [abs_le]
    constructor <;> linarith
  · show mn.norm ≤ 1.1125
    rcases Nat.lt_or_ge n 250 with h | h
    · have h' : (n : ℝ) + 1 ≤ 250 := by exact_mod_cast h
      linarith
    · have h' : (250 : ℝ) ≤ (n : ℝ) := by exact_mod_cast h
      have := e5 (hQ (by linarith))
      linarith
  · intro h
    show -80 + 0.33 * ((n + 1 : ℕ) : ℝ) ≤ Vec3.dot pn mn
    push_cast
    have h' : (n : ℝ) + 1 ≤ 250 := by exact_mod_cast h
    have hq := i5 (by omega)
    have hμ : 0.8875 ≤ m.norm := by linarith
    have hμ3 : 0.78 ≤ m.norm ^ 2 := by nlinarith
    linarith
  · intro h
    show 2 ≤ Vec3.dot pn mn
    have h' : (250 : ℝ) ≤ (n : ℝ) + 1 := by exact_mod_cast h
    have := hQ (by linarith)
    linarith

/-- Along a far fly-by the loop ends without marking the pixel as a hit. -/
theorem integrate_far (h0 : ℝ) (hl : 127 ≤ h0) (hu : h0 ≤ 131) :
    ∀ (k n : Nat) (s : PhotonState ℝ), n + k ≤ 2000 → far_inv h0 n s →
      ∃ s2 : PhotonState ℝ, integrate real_fns 4 k s = some (false, s2) := by
  intro k
  induction k with
  | zero =>
    intro n s _ _
    exact ⟨s, rfl⟩
  | succ k ih =>
    intro n s hnk hs
    obtain ⟨b1, -⟩ := far_inv_bounds h0 hl hu n (by omega) s hs
    obtain ⟨s2, hstep, hs2⟩ := far_inv_step h0 hl hu n (by omega) s hs
    obtain ⟨c1, -⟩ := far_inv_bounds h0 hl hu (n + 1) (by omega) s2 hs2
    have hdt : step_size (4 : ℝ) (real_fns.sqrt s.pos.length_squared) = 0.5 :=
      step_size_far _ (by
        show 40 ≤ s.pos.norm
        linarith)
    rw [integrate_succ_some real_fns 4 k s s2 (by rw [hdt]; exact hstep)]
    have hls : ¬ s2.pos.length_squared < 4 * 4 * 1.1 := by
      rw [← Vec3.norm_sq]
      have : (107 : ℝ) ^ 2 ≤ s2.pos.norm ^ 2 := pow_le_pow_left₀ (by norm_num) c1 2
      norm_num at this ⊢
      linarith
    rw [if_neg hls]
    split_ifs
    · exact ⟨s2, rfl⟩
    · exact ih (n + 1) s2 (by omega) hs2

end FarLoop

end Lensing

namespace Lensing

/-! ## Row 3 of the 4×4 grid at `rs = 4`, camera distance 150 -/

section DefaultGrid

/-- The invariant holds at the camera for a pixel direction `v` with `z = 10`
whose impact parameter lies between 127 and 131. -/
theorem far_inv_start (v : Vec3 ℝ) (hz : v.z = 10) (hL : 352 ≤ v.length_squared)
    (h1 : 127 ^ 2 * v.length_squared ≤ 22500 * (v.x * v.x + v.y * v.y))
    (h2 : 22500 * (v.x * v.x + v.y * v.y) ≤ 131 ^ 2 * v.length_squared) :
    ∃ h0 : ℝ, 127 ≤ h0 ∧ h0 ≤ 131 ∧
      far_inv h0 0 ⟨⟨0, 0, -150⟩, v.normalized real_fns⟩ := by
  have hσ2 : Real.sqrt v.length_squared * Real.sqrt v.length_squared = v.length_squared :=
    Real.mul_self_sqrt (by linarith)
  have hσ0 : 0 < Real.sqrt v.length_squared := Real.sqrt_pos.mpr (by linarith)
  have hn : v.normalized real_fns = v / Real.sqrt v.length_squared := by
    show (if Real.sqrt v.length_squared = 0 then (⟨0, 0, 0⟩ : Vec3 ℝ)
      else v / Real.sqrt v.length_squared) = _
    rw [if_neg hσ0.ne']
  rw [hn]
  generalize hσ : Real.sqrt v.length_squared = σ at *
  have hσ18 : 18.75 ≤ σ := by
    by_contra hlt
    push_neg at hlt
    have : σ * σ < 18.75 * 18.75 := mul_self_lt_mul_self hσ0.le hlt
    norm_num at this
    linarith
  have hm : (v / σ).length_squared = 1 := by
    simp only [Vec3.length_squared, Vec3.div_x, Vec3.div_y, Vec3.div_z]
    have : v.x * v.x + v.y * v.y + v.z * v.z = σ * σ := hσ2.symm
    field_simp
    linarith
  have hμ : (v / σ).norm = 1 := by
    unfold Vec3.norm
    rw [hm, Real.sqrt_one]
  have hc : (Vec3.cross (⟨0, 0, -150⟩ : Vec3 ℝ) (v / σ)).length_squared =
      22500 * (v.x * v.x + v.y * v.y) / (σ * σ) := by
    simp only [Vec3.length_squared, Vec3.cross_x, Vec3.cross_y, Vec3.cross_z, Vec3.div_x,
      Vec3.div_y, Vec3.div_z]
    field_simp
    ring
  have hr : (⟨0, 0, -150⟩ : Vec3 ℝ).norm = 150 := by
    unfold Vec3.norm
    have : (⟨0, 0, -150⟩ : Vec3 ℝ).length_squared = 150 ^ 2 := by
      simp only [Vec3.length_squared]
      norm_num
    rw [this, Real.sqrt_sq (by norm_num)]
  have hQ : Vec3.dot (⟨0, 0, -150⟩ : Vec3 ℝ) (v / σ) = -1500 / σ := by
    simp only [Vec3.dot, Vec3.div_x, Vec3.div_y, Vec3.div_z, hz]
    ring
  have hσσ : 0 < σ * σ := mul_pos hσ0 hσ0
  refine ⟨(Vec3.cross (⟨0, 0, -150⟩ : Vec3 ℝ) (v / σ)).norm, ?_, ?_, ?_, ?_, ?_, ?_, ?_, ?_⟩
  · unfold Vec3.norm
    apply Real.le_sqrt_of_sq_le
    rw [hc, le_div_iff₀ hσσ, hσ2]
    exact h1
  · unfold Vec3.norm
    apply Real.sqrt_le_iff.mpr
    refine ⟨by norm_num, ?_⟩
    rw [hc, div_le_iff₀ hσσ, hσ2]
    exact h2
  · simp
  · show (⟨0, 0, -150⟩ : Vec3 ℝ).norm ≤ 150 + 0.6 * ((0 : ℕ) : ℝ)
    rw [hr]
    simp
  · show |(v / σ).norm - 1| ≤ 0.00045 * ((0 : ℕ) : ℝ)
    rw [hμ]
    simp
  · show (v / σ).norm ≤ 1.1125
    rw [hμ]
    norm_num
  · intro _
    show -80 + 0.33 * ((0 : ℕ) : ℝ) ≤ Vec3.dot (⟨0, 0, -150⟩ : Vec3 ℝ) (v / σ)
    rw [hQ, le_div_iff₀ hσ0]
    push_cast
    linarith
  · intro h
    exact absurd h (by decide)

/-- The pixels of columns 1 and 2 of row 3 are not marked as hits. -/
theorem trace_pixel_row3 (i : Nat) (hi : i = 1 ∨ i = 2) :
    ∃ s2 : PhotonState ℝ, trace_pixel real_fns 4 150 4 4 i 3 = some (false, s2) := by
  have hv : ∃ v : Vec3 ℝ, pixel_ray_dir real_fns 150 4 4 i 3 = v.normalized real_fns ∧
      v.z = 10 ∧ 352 ≤ v.length_squared ∧
      127 ^ 2 * v.length_squared ≤ 22500 * (v.x * v.x + v.y * v.y) ∧
      22500 * (v.x * v.x + v.y * v.y) ≤ 131 ^ 2 * v.length_squared := by
    refine ⟨_, pixel_ray_dir_eq real_fns 150 4 4 i 3, rfl, ?_, ?_, ?_⟩ <;>
      rcases hi with h | h <;> subst h <;> simp only [Vec3.length_squared] <;> norm_num
  obtain ⟨v, hd, hz, hL, h1, h2⟩ := hv
  obtain ⟨h0, hl, hu, hinv⟩ := far_inv_start v hz hL h1 h2
  simp only [trace_pixel]
  rw [hd]
  exact integrate_far h0 hl hu max_steps 0 _ (by decide) hinv

/-- The state of the 4×4 grid after the first run of `main_loop`. -/
theorem run_default_4x4 :
    (run real_fns 4 4 [Action.main_loop []]).distortion_map_ready = true ∧
    (run real_fns 4 4 [Action.main_loop []]).g_rs = 4 ∧
    (run real_fns 4 4 [Action.main_loop []]).camera_dist = 150 := by
  have e : run real_fns 4 4 [Action.main_loop []] =
      main_loop real_fns 4 4 [] (initial : Globals ℝ) := rfl
  obtain ⟨m1, m2⟩ := main_loop_params real_fns 4 4 [] (initial : Globals ℝ)
  rw [e]
  refine ⟨main_loop_first_ready real_fns 4 4 (by decide) [] _ rfl, ?_, ?_⟩
  · rw [m1]
    norm_num [initial]
  · rw [m2]
    norm_num [initial]

/-- The entries of columns 1 and 2 of row 3 after the pass: both escaped, and
the direction stored for the centre column 2 has no `x` component. -/
theorem default_row3_entries :
    ∃ d1 d2 : Vec3 ℝ,
      ((run real_fns 4 4 [Action.main_loop []]).distortion_map (3 * 4 + 1)).hit = some false ∧
      ((run real_fns 4 4 [Action.main_loop []]).distortion_map (3 * 4 + 2)).hit = some false ∧
      ((run real_fns 4 4 [Action.main_loop []]).distortion_map (3 * 4 + 1)).local_dir =
        some d1 ∧
      ((run real_fns 4 4 [Action.main_loop []]).distortion_map (3 * 4 + 2)).local_dir =
        some d2 ∧
      d2.x = 0 := by
  obtain ⟨hready, hrs, hcd⟩ := run_default_4x4
  obtain ⟨-, i2, -, i4⟩ := scheduler_inv_run real_fns 4 4 [Action.main_loop ([] : List Event)]
  have hrow : 3 < (run real_fns 4 4 [Action.main_loop []]).calc_row := by
    rw [i2 hready]; decide
  obtain ⟨a1, a2⟩ := i4 3 1 hrow (by decide)
  obtain ⟨b1, b2⟩ := i4 3 2 hrow (by decide)
  rw [hrs, hcd] at a1 a2 b1 b2
  obtain ⟨s1, hs1⟩ := trace_pixel_row3 1 (Or.inl rfl)
  obtain ⟨s2, hs2⟩ := trace_pixel_row3 2 (Or.inr rfl)
  refine ⟨_, _, by rw [a1, hs1]; rfl, by rw [b1, hs2]; rfl, a2 s1 hs1, b2 s2 hs2, ?_⟩
  -- the centre column is its own mirror image
  have hm := trace_pixel_mirror_x real_fns 4 150 4 4 2 3 (by decide) (by decide)
  have h42 : 4 - 2 = 2 := rfl
  rw [h42, hs2] at hm
  have hst : s2 = s2.mirror_x := by
    have := Option.some.inj hm
    exact congrArg Prod.snd this
  have hx : s2.mom.x = 0 := by
    have := congrArg (fun s : PhotonState ℝ => s.mom.x) hst
    simp only [PhotonState.mirror_x_mom, Vec3.mirror_x_x] at this
    linarith
  simp only [Vec3.normalized]
  split_ifs
  · rfl
  · simp only [Vec3.div_x, hx, zero_div]

end DefaultGrid

/-- C8 as stated fails on its own instance, the 4×4 grid with `rs = 4` seen
from distance 150: the pairing `i`, `W - 1 - i` matches columns 1 and 2,
although column 2 looks straight along `x = 0`.  After the full pass both
entries of row 3 are escaped and the product of their `x` components is 0,
not negative. -/
theorem mirror_symmetry_counterexample :
    (run real_fns 4 4 [Action.main_loop []]).distortion_map_ready = true ∧
    (run real_fns 4 4 [Action.main_loop []]).g_rs = 4 ∧
    (run real_fns 4 4 [Action.main_loop []]).camera_dist = 150 ∧
    ¬ ∀ i j : Nat, i < 4 → j < 4 → ∀ d1 d2 : Vec3 ℝ,
      ((run real_fns 4 4 [Action.main_loop []]).distortion_map (j * 4 + i)).hit = some false →
      ((run real_fns 4 4 [Action.main_loop []]).distortion_map
        (j * 4 + (4 - 1 - i))).hit = some false →
      ((run real_fns 4 4 [Action.main_loop []]).distortion_map (j * 4 + i)).local_dir =
        some d1 →
      ((run real_fns 4 4 [Action.main_loop []]).distortion_map
        (j * 4 + (4 - 1 - i))).local_dir = some d2 →
      d1.x * d2.x < 0 := by
  obtain ⟨hready, hrs, hcd⟩ := run_default_4x4
  refine ⟨hready, hrs, hcd, fun h => ?_⟩
  obtain ⟨d1, d2, h1, h2, h3, h4, hx⟩ := default_row3_entries
  have := h 1 3 (by decide) (by decide) d1 d2 h1 h2 h3 h4
  rw [hx, mul_zero] at this
  exact lt_irrefl _ this

/-- C8, amended, on the 4×4 grid with `rs = 4` seen from distance 150 after
the full pass: columns 1 and 3 of row 3. -/
theorem mirror_symmetry_witness :
    (run real_fns 4 4 [Action.main_loop []]).distortion_map_ready = true ∧
    ((run real_fns 4 4 [Action.main_loop []]).distortion_map (3 * 4 + (4 - 1))).hit =
      ((run real_fns 4 4 [Action.main_loop []]).distortion_map (3 * 4 + 1)).hit :=
  ⟨run_default_4x4.1, (mirror_symmetry real_fns 4 4 [Action.main_loop []] run_default_4x4.1
    1 3 (by decide) (by decide) (by decide)).1⟩

end Lensing

namespace Lensing

/-! ## The parameter setters -/

section Setters

variable {K : Type} [LinearOrderedField K]

/-- C11: `set_mass(val)` and `set_dist(val)` reset the scheduler exactly when
the value changes.  If `val` differs from the current parameter, afterwards
the parameter is `val`, `calc_row = 0`, `is_calculating = true` and
`distortion_map_ready = false`, whatever the state before; if `val` is the
current value the whole state, and so the parameter, the cursor and both
flags, is unchanged. -/
theorem setters_reset_iff_changed (val : K) (g : Globals K) :
    (g.g_rs ≠ val →
      (set_mass val g).g_rs = val ∧ (set_mass val g).calc_row = 0 ∧
      (set_mass val g).is_calculating = true ∧
      (set_mass val g).distortion_map_ready = false) ∧
    (g.g_rs = val →
      set_mass val g = g ∧ (set_mass val g).g_rs = g.g_rs ∧
      (set_mass val g).calc_row = g.calc_row ∧
      (set_mass val g).is_calculating = g.is_calculating ∧
      (set_mass val g).distortion_map_ready = g.distortion_map_ready) ∧
    (g.camera_dist ≠ val →
      (set_dist val g).camera_dist = val ∧ (set_dist val g).calc_row = 0 ∧
      (set_dist val g).is_calculating = true ∧
      (set_dist val g).distortion_map_ready = false) ∧
    (g.camera_dist = val →
      set_dist val g = g ∧ (set_dist val g).camera_dist = g.camera_dist ∧
      (set_dist val g).calc_row = g.calc_row ∧
      (set_dist val g).is_calculating = g.is_calculating ∧
      (set_dist val g).distortion_map_ready = g.distortion_map_ready) := by
  refine ⟨fun h => ?_, fun h => ?_, fun h => ?_, fun h => ?_⟩
  · simp only [set_mass, if_pos h]
    exact ⟨rfl, rfl, rfl, rfl⟩
  · have e : set_mass val g = g := by
      simp only [set_mass, if_neg (not_not.mpr h)]
    rw [e]
    exact ⟨rfl, rfl, rfl, rfl, rfl⟩
  · simp only [set_dist, if_pos h]
    exact ⟨rfl, rfl, rfl, rfl⟩
  · have e : set_dist val g = g := by
      simp only [set_dist, if_neg (not_not.mpr h)]
    rw [e]
    exact ⟨rfl, rfl, rfl, rfl, rfl⟩

end Setters

/-! ## Normalisation -/

section Normalized

variable {K : Type} [LinearOrderedField K]

theorem Vec3.normalized_of_length_zero (M : MathFns K) (v : Vec3 K) (h : v.length M = 0) :
    v.normalized M = ⟨0, 0, 0⟩ := by
  simp [Vec3.normalized, h]

theorem Vec3.normalized_of_length_ne_zero (M : MathFns K) (v : Vec3 K) (h : v.length M ≠ 0) :
    v.normalized M = v / v.length M := by
  simp [Vec3.normalized, h]

theorem Vec3.length_div_length (M : MathFns K) (hM : SqrtSpec M) (v : Vec3 K)
    (h : v.length M ≠ 0) : (v / v.length M).length M = 1 := by
  have hsq := hM.sq _ (Vec3.length_squared_nonneg v)
  have h2 : v.length_squared ≠ 0 := by
    intro h0
    exact h ((hM.sqrt_eq_zero (Vec3.length_squared_nonneg _)).mpr h0)
  have one : (v / v.length M).length_squared = 1 := by
    have : (v / v.length M).length_squared =
        v.length_squared / (M.sqrt v.length_squared * M.sqrt v.length_squared) := by
      simp only [Vec3.length_squared, Vec3.div_x, Vec3.div_y, Vec3.div_z, Vec3.length]
      have h' : M.sqrt (v.x * v.x + v.y * v.y + v.z * v.z) ≠ 0 := h
      field_simp
    rw [this, hsq]
    exact div_self h2
  show M.sqrt (v / v.length M).length_squared = 1
  rw [one, hM.sqrt_one]

/-- C13: `normalized` is total with a zero fallback.  It is the zero vector
when the length of `v` is 0; otherwise it is `v / |v|`, of length exactly 1;
and it is idempotent. -/
theorem normalized_total (M : MathFns K) (hM : SqrtSpec M) (v : Vec3 K) :
    (v.length M = 0 → v.normalized M = ⟨0, 0, 0⟩) ∧
    (v.length M ≠ 0 →
      v.normalized M = v / v.length M ∧ (v.normalized M).length M = 1) ∧
    (v.normalized M).normalized M = v.normalized M := by
  refine ⟨Vec3.normalized_of_length_zero M v, fun h => ?_, Vec3.normalized_idem M hM v⟩
  rw [Vec3.normalized_of_length_ne_zero M v h]
  exact ⟨rfl, Vec3.length_div_length M hM v h⟩

end Normalized

/-- C13 on the vector `(3, 4, 0)` over the reals, whose length is not 0. -/
theorem normalized_total_witness :
    (Vec3.length real_fns (⟨3, 4, 0⟩ : Vec3 ℝ) ≠ 0 →
      Vec3.normalized real_fns (⟨3, 4, 0⟩ : Vec3 ℝ) =
          (⟨3, 4, 0⟩ : Vec3 ℝ) / Vec3.length real_fns (⟨3, 4, 0⟩ : Vec3 ℝ) ∧
        (Vec3.normalized real_fns (⟨3, 4, 0⟩ : Vec3 ℝ)).length real_fns = 1) ∧
    Vec3.length real_fns (⟨3, 4, 0⟩ : Vec3 ℝ) ≠ 0 := by
  refine ⟨(normalized_total real_fns real_fns_spec ⟨3, 4, 0⟩).2.1, ?_⟩
  show Real.sqrt (3 * 3 + 4 * 4 + 0 * 0) ≠ 0
  have : (0 : ℝ) < 3 * 3 + 4 * 4 + 0 * 0 := by norm_num
  exact (Real.sqrt_pos.mpr this).ne'

end Lensing

namespace Lensing

/-! ## The two views -/

section Loops

/-- A loop whose bodies leave the address `a` alone leaves it alone. -/
theorem foldl_range_frame {α : Type} (body : (Nat → α) → Nat → (Nat → α)) (a : Nat) :
    ∀ (n : Nat) (px : Nat → α), (∀ i, i < n → ∀ q, body q i a = q a) →
      (List.range n).foldl body px a = px a := by
  intro n
  induction n with
  | zero => intro px _; rfl
  | succ n ih =>
    intro px h
    rw [List.range_succ, List.foldl_append, List.foldl_cons, List.foldl_nil,
      h n (Nat.lt_succ_self n)]
    exact ih px (fun i hi q => h i (Nat.lt_succ_of_lt hi) q)

/-- A loop in which only iteration `i0` writes the address `a` leaves there
what iteration `i0` writes. -/
theorem foldl_range_last {α : Type} (body : (Nat → α) → Nat → (Nat → α)) (a : Nat) (v : α)
    (i0 : Nat) (hown : ∀ q, body q i0 a = v) :
    ∀ (n : Nat) (px : Nat → α), i0 < n → (∀ i, i < n → i ≠ i0 → ∀ q, body q i a = q a) →
      (List.range n).foldl body px a = v := by
  intro n
  induction n with
  | zero => intro px h; exact absurd h (Nat.not_lt_zero _)
  | succ n ih =>
    intro px h0 h
    rw [List.range_succ, List.foldl_append, List.foldl_cons, List.foldl_nil]
    by_cases hn : n = i0
    · rw [hn]
      exact hown _
    · rw [h n (Nat.lt_succ_self n) hn]
      exact ih px (by omega) (fun i hi hne q => h i (Nat.lt_succ_of_lt hi) hne q)

/-- Two different cells of a row-major grid of width `W`. -/
theorem cell_index_ne (W i j i0 j0 : Nat) (hi : i < W) (hi0 : i0 < W)
    (h : ¬ (i = i0 ∧ j = j0)) : j * W + i ≠ j0 * W + i0 := by
  intro e
  have hj : j = j0 := by
    apply (row_index_iff W j0 j i hi).mp
    omega
  subst hj
  exact h ⟨by omega, rfl⟩

end Loops

section Views

variable {K : Type} [LinearOrderedField K] [FloorRing K]

theorem put_color_frame (px : Nat → Option Nat) (p : Nat) (c : Option (Vec3 K)) (a : Nat)
    (h : a < p ∨ p + 4 ≤ a) : put_color px p c a = px a := by
  simp only [put_color]
  rw [Function.update_noteq (by omega), Function.update_noteq (by omega),
    Function.update_noteq (by omega), Function.update_noteq (by omega)]

theorem put_color_channels (px : Nat → Option Nat) (p : Nat) (c : Option (Vec3 K)) :
    put_color px p c p = c.map (fun c => to_byte (255.99 * min c.x 1.0)) ∧
    put_color px p c (p + 1) = c.map (fun c => to_byte (255.99 * min c.y 1.0)) ∧
    put_color px p c (p + 2) = c.map (fun c => to_byte (255.99 * min c.z 1.0)) := by
  simp only [put_color]
  refine ⟨?_, ?_, ?_⟩
  · rw [Function.update_noteq (by omega), Function.update_noteq (by omega),
      Function.update_noteq (by omega)]
    exact Function.update_same _ _ _
  · rw [Function.update_noteq (by omega), Function.update_noteq (by omega)]
    exact Function.update_same _ _ _
  · rw [Function.update_noteq (by omega)]
    exact Function.update_same _ _ _

/-- The main drawing loop leaves at pixel `(i, j)` what its own iteration
writes there. -/
theorem draw_main_pixel (M : MathFns K) (W H : Nat) (g : Globals K) (i j : Nat) (hi : i < W)
    (hj : j < H) (d : Vec3 K) (hhit : (g.distortion_map (j * W + i)).hit = some false)
    (hdir : (g.distortion_map (j * W + i)).local_dir = some d) (c : Nat) (hc : c < 3) :
    draw_main M W H g ((j * W + i) * 4 + c) =
      put_color (fun _ => none) ((j * W + i) * 4)
        (some (get_background_color M g (rotate_vector M d g.camera_yaw g.camera_pitch)))
        ((j * W + i) * 4 + c) := by
  simp only [draw_main]
  refine foldl_range_last _ _ _ j ?_ H _ hj ?_
  · intro q
    refine foldl_range_last _ _ _ i ?_ W _ hi ?_
    · intro q2
      simp only [hhit, hdir, Option.map_some']
      simp only [put_color]
      rcases (by omega : c = 0 ∨ c = 1 ∨ c = 2) with h | h | h <;> subst h <;>
        simp [Function.update_apply]
    · intro i2 hi2 hne q2
      apply put_color_frame
      have := cell_index_ne W i2 j i j hi2 hi (fun h => hne h.1)
      omega
  · intro j2 hj2 hne q
    refine foldl_range_frame _ _ W _ ?_
    intro i2 hi2 q2
    apply put_color_frame
    have := cell_index_ne W i2 j2 i j hi2 hi (fun h => hne h.2)
    omega

theorem pip_write_frame (px : Nat → Option Nat) (p a : Nat) (b : Prop) [Decidable b]
    (v0 v1 v2 : Option Nat) (h : a < p ∨ p + 4 ≤ a) :
    Function.update
      (if b then
        Function.update (Function.update (Function.update px p (some 255))
          (p + 1) (some 255)) (p + 2) (some 255)
      else
        Function.update (Function.update (Function.update px p v0) (p + 1) v1) (p + 2) v2)
      (p + 3) (some 255) a = px a := by
  rw [Function.update_noteq (by omega)]
  split_ifs <;>
    rw [Function.update_noteq (by omega), Function.update_noteq (by omega),
      Function.update_noteq (by omega)]

theorem pip_write_own (px : Nat → Option Nat) (p : Nat) (b : Prop) [Decidable b]
    (v0 v1 v2 : Option Nat) (hb : ¬ b) (c : Nat) (hc : c < 3) :
    Function.update
      (if b then
        Function.update (Function.update (Function.update px p (some 255))
          (p + 1) (some 255)) (p + 2) (some 255)
      else
        Function.update (Function.update (Function.update px p v0) (p + 1) v1) (p + 2) v2)
      (p + 3) (some 255) (p + c) =
    if c = 0 then v0 else if c = 1 then v1 else v2 := by
  rw [if_neg hb, Function.update_noteq (by omega)]
  rcases (by omega : c = 0 ∨ c = 1 ∨ c = 2) with h | h | h <;> subst h <;>
    simp [Function.update_apply]

/-- The byte index of pixel `(x, y)` of the reference view, when the view fits
in the width of the image. -/
theorem pip_index (W x y : Nat) (hW : W / 4 + 20 ≤ W) :
    ((((20 : Int) + (y : Int)) * (W : Int) +
      ((W : Int) - ((W / 4 : Nat) : Int) - 20 + (x : Int))) * 4).toNat =
      ((20 + y) * W + (W - W / 4 - 20 + x)) * 4 := by
  have e : (((20 : Int) + (y : Int)) * (W : Int) +
      ((W : Int) - ((W / 4 : Nat) : Int) - 20 + (x : Int))) * 4 =
      ((((20 + y) * W + (W - W / 4 - 20 + x)) * 4 : Nat) : Int) := by
    have h1 : W / 4 ≤ W := by omega
    have h2 : 20 ≤ W - W / 4 := by omega
    push_cast [Nat.cast_sub h1, Nat.cast_sub h2]
    ring
  rw [e]
  rfl

/-- The loop of the reference view leaves at its pixel `(x, y)`, off the
border, what its own iteration writes there. -/
theorem draw_pip_pixel (M : MathFns K) (W H : Nat) (g : Globals K) (px : Nat → Option Nat)
    (x y : Nat) (hW : W / 4 + 20 ≤ W) (hx : x < W / 4) (hy : y < H / 4)
    (hb : ¬ (x = 0 ∨ x = W / 4 - 1 ∨ y = 0 ∨ y = H / 4 - 1)) (c : Nat) (hc : c < 3) :
    draw_pip M W H g px (((20 + y) * W + (W - W / 4 - 20 + x)) * 4 + c) =
      if c = 0 then
        some (to_byte (255.99 * min (get_background_color M g (rotate_vector M
          (pip_ray_dir M g.camera_dist W H x y) g.camera_yaw g.camera_pitch)).x 1.0))
      else if c = 1 then
        some (to_byte (255.99 * min (get_background_color M g (rotate_vector M
          (pip_ray_dir M g.camera_dist W H x y) g.camera_yaw g.camera_pitch)).y 1.0))
      else
        some (to_byte (255.99 * min (get_background_color M g (rotate_vector M
          (pip_ray_dir M g.camera_dist W H x y) g.camera_yaw g.camera_pitch)).z 1.0)) := by
  simp only [draw_pip]
  refine foldl_range_last _ _ _ y ?_ (H / 4) _ hy ?_
  · intro q
    refine foldl_range_last _ _ _ x ?_ (W / 4) _ hx ?_
    · intro q2
      rw [pip_index W x y hW]
      exact pip_write_own q2 _ _ _ _ _ hb c hc
    · intro x2 hx2 hne q2
      rw [pip_index W x2 y hW]
      apply pip_write_frame
      have := cell_index_ne W (W - W / 4 - 20 + x2) (20 + y) (W - W / 4 - 20 + x) (20 + y)
        (by omega) (by omega) (fun h => hne (by omega))
      omega
  · intro y2 hy2 hne q
    refine foldl_range_frame _ _ (W / 4) _ ?_
    intro x2 hx2 q2
    rw [pip_index W x2 y2 hW]
    apply pip_write_frame
    have := cell_index_ne W (W - W / 4 - 20 + x2) (20 + y2) (W - W / 4 - 20 + x) (20 + y)
      (by omega) (by omega) (fun h => hne (by omega))
    omega

/-- C12: `rotate_vector(v, yaw, pitch)` is the pitch rotation about the X axis
followed by the yaw rotation about the Y axis,
`rotate_vector(rotate_vector(v, 0, pitch), yaw, 0)`, and
`rotate_vector(v, 0, 0) = v`; the main view colours its escaped pixel `(i, j)`
by the background in the direction `rotate_vector(local_dir, camera_yaw,
camera_pitch)` of the map entry, and the reference view colours its pixel
`(x, y)` off the border by the background in the direction
`rotate_vector(·, camera_yaw, camera_pitch)` of its own ray. -/
theorem rotation_order (M : MathFns K) (hcos : M.cos 0 = 1) (hsin : M.sin 0 = 0)
    (v : Vec3 K) (yaw pitch : K) (W H : Nat) (g : Globals K) :
    rotate_vector M v yaw pitch = rotate_vector M (rotate_vector M v 0 pitch) yaw 0 ∧
    rotate_vector M v 0 0 = v ∧
    rotate_vector M v 0 pitch =
      ⟨v.x, v.y * M.cos pitch - v.z * M.sin pitch, v.y * M.sin pitch + v.z * M.cos pitch⟩ ∧
    rotate_vector M v yaw 0 =
      ⟨v.x * M.cos yaw + v.z * M.sin yaw, v.y, -v.x * M.sin yaw + v.z * M.cos yaw⟩ ∧
    (∀ (i j : Nat) (d : Vec3 K), i < W → j < H →
      (g.distortion_map (j * W + i)).hit = some false →
      (g.distortion_map (j * W + i)).local_dir = some d →
      draw_main M W H g ((j * W + i) * 4) =
        some (to_byte (255.99 * min (get_background_color M g
          (rotate_vector M d g.camera_yaw g.camera_pitch)).x 1.0)) ∧
      draw_main M W H g ((j * W + i) * 4 + 1) =
        some (to_byte (255.99 * min (get_background_color M g
          (rotate_vector M d g.camera_yaw g.camera_pitch)).y 1.0)) ∧
      draw_main M W H g ((j * W + i) * 4 + 2) =
        some (to_byte (255.99 * min (get_background_color M g
          (rotate_vector M d g.camera_yaw g.camera_pitch)).z 1.0))) ∧
    (∀ (px : Nat → Option Nat) (x y : Nat), W / 4 + 20 ≤ W → x < W / 4 → y < H / 4 →
      ¬ (x = 0 ∨ x = W / 4 - 1 ∨ y = 0 ∨ y = H / 4 - 1) →
      draw_pip M W H g px (((20 + y) * W + (W - W / 4 - 20 + x)) * 4) =
        some (to_byte (255.99 * min (get_background_color M g (rotate_vector M
          (pip_ray_dir M g.camera_dist W H x y) g.camera_yaw g.camera_pitch)).x 1.0)) ∧
      draw_pip M W H g px (((20 + y) * W + (W - W / 4 - 20 + x)) * 4 + 1) =
        some (to_byte (255.99 * min (get_background_color M g (rotate_vector M
          (pip_ray_dir M g.camera_dist W H x y) g.camera_yaw g.camera_pitch)).y 1.0)) ∧
      draw_pip M W H g px (((20 + y) * W + (W - W / 4 - 20 + x)) * 4 + 2) =
        some (to_byte (255.99 * min (get_background_color M g (rotate_vector M
          (pip_ray_dir M g.camera_dist W H x y) g.camera_yaw g.camera_pitch)).z 1.0))) := by
  refine ⟨?_, ?_, ?_, ?_, ?_, ?_⟩
  · simp only [rotate_vector, hcos, hsin]
    apply Vec3.vec_ext <;> simp
  · simp only [rotate_vector, hcos, hsin]
    apply Vec3.vec_ext <;> simp
  · simp only [rotate_vector, hcos, hsin]
    apply Vec3.vec_ext <;> simp
  · simp only [rotate_vector, hcos, hsin]
    apply Vec3.vec_ext <;> simp
  · intro i j d hi hj hhit hdir
    have h0 := draw_main_pixel M W H g i j hi hj d hhit hdir 0 (by decide)
    have h1 := draw_main_pixel M W H g i j hi hj d hhit hdir 1 (by decide)
    have h2 := draw_main_pixel M W H g i j hi hj d hhit hdir 2 (by decide)
    obtain ⟨c0, c1, c2⟩ := put_color_channels (fun _ => (none : Option Nat)) ((j * W + i) * 4)
      (some (get_background_color M g (rotate_vector M d g.camera_yaw g.camera_pitch)))
    rw [Nat.add_zero] at h0
    rw [h0, h1, h2, c0, c1, c2]
    exact ⟨rfl, rfl, rfl⟩
  · intro px x y hW hx hy hb
    have h0 := draw_pip_pixel M W H g px x y hW hx hy hb 0 (by decide)
    have h1 := draw_pip_pixel M W H g px x y hW hx hy hb 1 (by decide)
    have h2 := draw_pip_pixel M W H g px x y hW hx hy hb 2 (by decide)
    rw [Nat.add_zero] at h0
    rw [h0, h1, h2]
    exact ⟨rfl, rfl, rfl⟩

end Views

/-- C12 over the reals, where `cos 0 = 1` and `sin 0 = 0`: the rotation of
`(1, 2, 3)` by no yaw and no pitch. -/
theorem rotation_order_witness :
    real_fns.cos 0 = 1 ∧ real_fns.sin 0 = 0 ∧
    rotate_vector real_fns (⟨1, 2, 3⟩ : Vec3 ℝ) 0 0 = ⟨1, 2, 3⟩ :=
  ⟨Real.cos_zero, Real.sin_zero,
    (rotation_order real_fns Real.cos_zero Real.sin_zero ⟨1, 2, 3⟩ 0 0 0 0 initial).2.1⟩

end Lensing

namespace Lensing

/-! ## The colour of a loaded background image -/

section Background

variable {K : Type} [LinearOrderedField K] [FloorRing K]

theorem trunc_of_nonneg (x : K) (hx : 0 ≤ x) : trunc x = ⌊x⌋ := by
  simp [trunc, hx]

/-- The texel coordinate of a projected coordinate `u ∈ [0, 1]` on an axis of
`w > 0` texels: the floor of `u * (w - 1)`, which the clamp leaves alone. -/
theorem texel_coord (u : K) (w : Int) (hw : 0 < w) (h0 : 0 ≤ u) (h1 : u ≤ 1) :
    max 0 (min (trunc (u * ((w - 1 : Int) : K))) (w - 1)) = ⌊u * ((w - 1 : Int) : K)⌋ ∧
    0 ≤ ⌊u * ((w - 1 : Int) : K)⌋ ∧ ⌊u * ((w - 1 : Int) : K)⌋ ≤ w - 1 := by
  have hw1 : (0 : K) ≤ ((w - 1 : Int) : K) := by
    have : (0 : Int) ≤ w - 1 := by omega
    exact_mod_cast this
  have hx0 : 0 ≤ u * ((w - 1 : Int) : K) := mul_nonneg h0 hw1
  have hx1 : u * ((w - 1 : Int) : K) ≤ ((w - 1 : Int) : K) := by
    have := mul_le_mul_of_nonneg_right h1 hw1
    rwa [one_mul] at this
  have f0 : 0 ≤ ⌊u * ((w - 1 : Int) : K)⌋ := Int.floor_nonneg.mpr hx0
  have f1 : ⌊u * ((w - 1 : Int) : K)⌋ ≤ w - 1 := by
    have := Int.floor_le_floor hx1
    rwa [Int.floor_intCast] at this
  rw [trunc_of_nonneg _ hx0, min_eq_left f1, max_eq_right f0]
  exact ⟨rfl, f0, f1⟩

/-- C14: with an image of width `w > 0` and height `h > 0` of exactly
`w * h * 4` bytes loaded, `get_background_color(dir)` is black when
`dir.z ≤ 0` or when the projected `(u, v)`, `u = 0.5 + (x/z) * 0.15 * (h/w)`,
`v = 0.5 - (y/z) * 0.15`, lies outside `[0,1]²`; otherwise it is the three
colour bytes, divided by 255, of the texel `(tx, ty) = (⌊u (w-1)⌋, ⌊v (h-1)⌋)`,
read at the indices `(ty * w + tx) * 4 + {0, 1, 2}`, all inside the buffer. -/
theorem background_image_lookup (M : MathFns K) (g : Globals K) (dir : Vec3 K)
    (hw : 0 < g.bg_width) (hh : 0 < g.bg_height)
    (hlen : (g.bg_image_data.length : Int) = g.bg_width * g.bg_height * 4) :
    (dir.z ≤ 0 → get_background_color M g dir = ⟨0, 0, 0⟩) ∧
    (0 < dir.z →
      ¬ (0 ≤ 0.5 + dir.x / dir.z * 0.15 * ((g.bg_height : K) / (g.bg_width : K)) ∧
          0.5 + dir.x / dir.z * 0.15 * ((g.bg_height : K) / (g.bg_width : K)) ≤ 1 ∧
          0 ≤ 0.5 - dir.y / dir.z * 0.15 ∧ 0.5 - dir.y / dir.z * 0.15 ≤ 1) →
      get_background_color M g dir = ⟨0, 0, 0⟩) ∧
    (0 < dir.z →
      0 ≤ 0.5 + dir.x / dir.z * 0.15 * ((g.bg_height : K) / (g.bg_width : K)) ∧
        0.5 + dir.x / dir.z * 0.15 * ((g.bg_height : K) / (g.bg_width : K)) ≤ 1 ∧
        0 ≤ 0.5 - dir.y / dir.z * 0.15 ∧ 0.5 - dir.y / dir.z * 0.15 ≤ 1 →
      ∃ tx ty : Nat,
        (tx : Int) = ⌊(0.5 + dir.x / dir.z * 0.15 * ((g.bg_height : K) / (g.bg_width : K))) *
          ((g.bg_width - 1 : Int) : K)⌋ ∧
        (ty : Int) = ⌊(0.5 - dir.y / dir.z * 0.15) * ((g.bg_height - 1 : Int) : K)⌋ ∧
        (tx : Int) < g.bg_width ∧ (ty : Int) < g.bg_height ∧
        (ty * g.bg_width.toNat + tx) * 4 + 2 < g.bg_image_data.length ∧
        ∃ r gr b : Nat,
          g.bg_image_data[(ty * g.bg_width.toNat + tx) * 4]? = some r ∧
          g.bg_image_data[(ty * g.bg_width.toNat + tx) * 4 + 1]? = some gr ∧
          g.bg_image_data[(ty * g.bg_width.toNat + tx) * 4 + 2]? = some b ∧
          get_background_color M g dir = ⟨(r : K) / 255, (gr : K) / 255, (b : K) / 255⟩) := by
  have hne : ¬ g.bg_image_data.isEmpty = true := by
    rw [List.isEmpty_iff]
    intro he
    rw [he] at hlen
    have : 0 < g.bg_width * g.bg_height * 4 := by positivity
    simp at hlen
    omega
  have hcond : ¬ g.bg_image_data.isEmpty = true ∧ g.bg_width > 0 ∧ g.bg_height > 0 :=
    ⟨hne, hw, hh⟩
  refine ⟨fun hz => ?_, fun hz hout => ?_, fun hz hin => ?_⟩
  · simp only [get_background_color]
    rw [if_pos hcond, if_pos (by norm_num; exact hz)]
  · simp only [get_background_color]
    rw [if_pos hcond, if_neg (by norm_num; exact hz), if_neg]
    intro hc
    apply hout
    norm_num at hc ⊢
    exact hc
  · obtain ⟨u0, u1, v0, v1⟩ := hin
    obtain ⟨ex, ex0, ex1⟩ := texel_coord _ g.bg_width hw u0 u1
    obtain ⟨ey, ey0, ey1⟩ := texel_coord _ g.bg_height hh v0 v1
    generalize hu : 0.5 + dir.x / dir.z * 0.15 * ((g.bg_height : K) / (g.bg_width : K)) = u
      at *
    generalize hv : 0.5 - dir.y / dir.z * 0.15 = v at *
    obtain ⟨tx, htx⟩ := Int.eq_ofNat_of_zero_le ex0
    obtain ⟨ty, hty⟩ := Int.eq_ofNat_of_zero_le ey0
    obtain ⟨w, hw'⟩ := Int.eq_ofNat_of_zero_le hw.le
    obtain ⟨h, hh'⟩ := Int.eq_ofNat_of_zero_le hh.le
    have hwn : g.bg_width.toNat = w := by rw [hw']; rfl
    have htxw : tx < w := by
      have : (tx : Int) ≤ (w : Int) - 1 := by rw [← htx, ← hw']; exact ex1
      omega
    have htyh : ty < h := by
      have : (ty : Int) ≤ (h : Int) - 1 := by rw [← hty, ← hh']; exact ey1
      omega
    have hlen' : g.bg_image_data.length = w * h * 4 := by
      have : (g.bg_image_data.length : Int) = ((w * h * 4 : Nat) : Int) := by
        rw [hlen, hw', hh']
        push_cast
        ring
      exact_mod_cast this
    have hidx : (ty * w + tx) * 4 + 2 < g.bg_image_data.length := by
      rw [hlen']
      have : ty * w + tx < h * w := by
        calc ty * w + tx < ty * w + w := by omega
          _ = (ty + 1) * w := by ring
          _ ≤ h * w := Nat.mul_le_mul_right w htyh
      have e : w * h = h * w := Nat.mul_comm w h
      omega
    refine ⟨tx, ty, htx.symm, hty.symm, by rw [hw']; exact_mod_cast htxw,
      by rw [hh']; exact_mod_cast htyh, by rw [hwn]; exact hidx, ?_⟩
    rw [hwn]
    have i0 : (ty * w + tx) * 4 < g.bg_image_data.length := by omega
    have i1 : (ty * w + tx) * 4 + 1 < g.bg_image_data.length := by omega
    refine ⟨_, _, _, List.getElem?_eq_getElem i0, List.getElem?_eq_getElem i1,
      List.getElem?_eq_getElem hidx, ?_⟩
    have hc : (u ≥ 0.0 ∧ u ≤ 1.0 ∧ v ≥ 0.0 ∧ v ≤ 1.0) := by
      norm_num
      exact ⟨u0, u1, v0, v1⟩
    have hz' : ¬ dir.z ≤ 0.0 := by
      norm_num
      exact hz
    have e0 : ((⌊v * ((g.bg_height - 1 : Int) : K)⌋ * g.bg_width +
        ⌊u * ((g.bg_width - 1 : Int) : K)⌋) * 4).toNat = (ty * w + tx) * 4 := by
      rw [htx, hty, hw']
      have : ((ty : Int) * (w : Int) + (tx : Int)) * 4 = (((ty * w + tx) * 4 : Nat) : Int) := by
        push_cast
        ring
      rw [this]
      rfl
    have e1 : ((⌊v * ((g.bg_height - 1 : Int) : K)⌋ * g.bg_width +
        ⌊u * ((g.bg_width - 1 : Int) : K)⌋) * 4 + 1).toNat = (ty * w + tx) * 4 + 1 := by
      rw [htx, hty, hw']
      have : ((ty : Int) * (w : Int) + (tx : Int)) * 4 + 1 =
          (((ty * w + tx) * 4 + 1 : Nat) : Int) := by
        push_cast
        ring
      rw [this]
      rfl
    have e2 : ((⌊v * ((g.bg_height - 1 : Int) : K)⌋ * g.bg_width +
        ⌊u * ((g.bg_width - 1 : Int) : K)⌋) * 4 + 2).toNat = (ty * w + tx) * 4 + 2 := by
      rw [htx, hty, hw']
      have : ((ty : Int) * (w : Int) + (tx : Int)) * 4 + 2 =
          (((ty * w + tx) * 4 + 2 : Nat) : Int) := by
        push_cast
        ring
      rw [this]
      rfl
    simp only [get_background_color]
    rw [if_pos hcond, if_neg hz']
    simp only [hu, hv]
    rw [if_pos hc, ex, ey, e0, e1, e2, List.getD_eq_getElem _ _ i0, List.getD_eq_getElem _ _ i1,
      List.getD_eq_getElem _ _ hidx]
    norm_num

end Background

/-- C14 over the reals on a loaded 1×1 white image, looking along `+z`: the
colour is the texel `(0, 0)`, read at the indices 0, 1 and 2. -/
theorem background_image_lookup_witness :
    ∃ r gr b : Nat,
      (set_background_image 1 1 (fun _ => 255) (initial : Globals ℝ)).bg_image_data[0]? =
        some r ∧
      get_background_color real_fns
          (set_background_image 1 1 (fun _ => 255) (initial : Globals ℝ)) ⟨0, 0, 1⟩ =
        ⟨(r : ℝ) / 255, (gr : ℝ) / 255, (b : ℝ) / 255⟩ := by
  have h := (background_image_lookup real_fns
    (set_background_image 1 1 (fun _ => 255) (initial : Globals ℝ)) ⟨0, 0, 1⟩
    (by show (0 : Int) < 1; decide) (by show (0 : Int) < 1; decide) (by rfl)).2.2
    (by norm_num) (by
      show (0 : ℝ) ≤ 0.5 + 0 / 1 * 0.15 * (((1 : Int) : ℝ) / ((1 : Int) : ℝ)) ∧
        0.5 + 0 / 1 * 0.15 * (((1 : Int) : ℝ) / ((1 : Int) : ℝ)) ≤ 1 ∧
        (0 : ℝ) ≤ 0.5 - 0 / 1 * 0.15 ∧ (0.5 : ℝ) - 0 / 1 * 0.15 ≤ 1
      norm_num)
  obtain ⟨tx, ty, htx, hty, -, -, -, r, gr, b, h0, -, -, hc⟩ := h
  have etx : tx = 0 := by
    have : (tx : Int) = 0 := by
      rw [htx]
      show ⌊((0.5 : ℝ) + 0 / 1 * 0.15 * (((1 : Int) : ℝ) / ((1 : Int) : ℝ))) *
        (((1 : Int) - 1 : Int) : ℝ)⌋ = 0
      norm_num
    exact_mod_cast this
  have ety : ty = 0 := by
    have : (ty : Int) = 0 := by
      rw [hty]
      show ⌊((0.5 : ℝ) - 0 / 1 * 0.15) * (((1 : Int) - 1 : Int) : ℝ)⌋ = 0
      norm_num
    exact_mod_cast this
  subst etx ety
  exact ⟨r, gr, b, by simpa using h0, hc⟩

end Lensing

namespace Lensing

/-! ## One tick of `main_loop` -/

section Tick

variable {K : Type} [LinearOrderedField K]

theorem handle_events_pixels (es : List Event) (g : Globals K) :
    (es.foldl handle_event g).pixels = g.pixels := by
  induction es generalizing g with
  | nil => rfl
  | cons e es ih =>
    rw [List.foldl_cons, ih]
    rcases e with ⟨b, x, y⟩ | _
    · cases b <;> rfl
    · rfl

theorem step_calculation_view (M : MathFns K) (W H : Nat) (g : Globals K) :
    (step_calculation M W H g).pixels = g.pixels ∧
    (step_calculation M W H g).camera_yaw = g.camera_yaw ∧
    (step_calculation M W H g).camera_pitch = g.camera_pitch := by
  simp only [step_calculation]
  split_ifs <;> exact ⟨rfl, rfl, rfl⟩

end Tick

section TickClaim

variable {K : Type} [LinearOrderedField K] [FloorRing K]

/-- C15: a tick is a scheduler step or a compositor pass, never both.  With
`g1` the state after the first-call reset: if `g1.is_calculating` holds, the
tick is exactly one `step_calculation` and leaves the pixel buffer and the
camera orientation as they were, also when the step completes the pass; if it
does not hold, the tick leaves `calc_row`, both flags and the map unchanged,
leaves the pixel buffer unchanged unless `distortion_map_ready` is true, and
then draws both views from the state after the events. -/
theorem tick_step_or_draw (M : MathFns K) (W H : Nat) (events : List Event) (g : Globals K) :
    ((if g.first then { reset_calculation g with first := false } else g).is_calculating = true →
      main_loop M W H events g =
        step_calculation M W H
          (if g.first then { reset_calculation g with first := false } else g) ∧
      (main_loop M W H events g).pixels = g.pixels ∧
      (main_loop M W H events g).camera_yaw = g.camera_yaw ∧
      (main_loop M W H events g).camera_pitch = g.camera_pitch) ∧
    ((if g.first then { reset_calculation g with first := false } else g).is_calculating = false →
      (main_loop M W H events g).calc_row = g.calc_row ∧
      (main_loop M W H events g).is_calculating = g.is_calculating ∧
      (main_loop M W H events g).distortion_map_ready = g.distortion_map_ready ∧
      (main_loop M W H events g).distortion_map = g.distortion_map ∧
      (g.distortion_map_ready = false → (main_loop M W H events g).pixels = g.pixels) ∧
      (g.distortion_map_ready = true →
        (main_loop M W H events g).pixels =
          draw_pip M W H (events.foldl handle_event g)
            (draw_main M W H (events.foldl handle_event g)))) := by
  constructor
  · intro hc
    have e : main_loop M W H events g = step_calculation M W H
        (if g.first then { reset_calculation g with first := false } else g) := by
      simp only [main_loop]
      rw [if_pos hc]
    rw [e]
    obtain ⟨v1, v2, v3⟩ := step_calculation_view M W H
      (if g.first then { reset_calculation g with first := false } else g)
    refine ⟨rfl, ?_, ?_, ?_⟩
    · rw [v1]; split_ifs <;> rfl
    · rw [v2]; split_ifs <;> rfl
    · rw [v3]; split_ifs <;> rfl
  · intro hc
    have hf : g.first = false := by
      cases hfirst : g.first
      · rfl
      · rw [hfirst] at hc
        exact absurd hc (by simp [reset_calculation])
    have hg1 : (if g.first then { reset_calculation g with first := false } else g) = g := by
      rw [hf]; rfl
    rw [hg1] at hc
    obtain ⟨a1, a2, a3, a4, -, -, -⟩ := handle_events_frame events g
    have a7 := handle_events_pixels events g
    have e : main_loop M W H events g =
        if ¬ (events.foldl handle_event g).distortion_map_ready = true then
          events.foldl handle_event g
        else { events.foldl handle_event g with
          pixels := draw_pip M W H (events.foldl handle_event g)
            (draw_main M W H (events.foldl handle_event g)) } := by
      simp only [main_loop, hg1, hc]
      rfl
    rw [e]
    by_cases hr : g.distortion_map_ready = true
    · have hr2 : (events.foldl handle_event g).distortion_map_ready = true := by
        rw [← hr]; exact a4
      rw [if_neg (not_not.mpr hr2)]
      exact ⟨a2, a3, a4, a1, fun h => absurd hr (by rw [h]; decide), fun _ => rfl⟩
    · have hr2 : ¬ (events.foldl handle_event g).distortion_map_ready = true := by
        rw [a4]; exact hr
      rw [if_pos hr2]
      exact ⟨a2, a3, a4, a1, fun _ => a7, fun h => absurd h hr⟩

end TickClaim

end Lensing

namespace Lensing

/-! ## The hash of the star field -/

section Hash

variable {K : Type} [LinearOrderedField K] [FloorRing K]

/-- The size of `std::fmod(s, 1.0)` is the fractional part of `|s|`. -/
theorem abs_fmod_one (s : K) : |fmod_one s| = Int.fract |s| := by
  unfold fmod_one trunc
  by_cases h : 0 ≤ s
  · rw [if_pos h, abs_of_nonneg h]
    exact abs_of_nonneg (Int.fract_nonneg s)
  · rw [if_neg h]
    push_neg at h
    rw [abs_of_neg h]
    have hc : s - ((⌈s⌉ : Int) : K) ≤ 0 := sub_nonpos.mpr (Int.le_ceil s)
    rw [abs_of_nonpos hc]
    unfold Int.fract
    rw [Int.floor_neg]
    push_cast
    ring

/-- C16, amended: the value `h = |hash13(x, y, z)|` that a star layer compares
with its threshold is the fractional part of `|s|`, where
`s = sin(x * 12.9898 + y * 78.233 + z * 37.719) * 43758.5453`, and lies in
`[0, 1)`; it is `frac(s)` when `s ≥ 0`, and `1 - frac(s)` when `s` is negative
and not an integer. -/
theorem starfield_hash (M : MathFns K) (x y z : K) :
    |hash13 M x y z| =
      Int.fract |M.sin (x * 12.9898 + y * 78.233 + z * 37.719) * 43758.5453| ∧
    0 ≤ |hash13 M x y z| ∧ |hash13 M x y z| < 1 ∧
    (0 ≤ M.sin (x * 12.9898 + y * 78.233 + z * 37.719) * 43758.5453 →
      |hash13 M x y z| =
        Int.fract (M.sin (x * 12.9898 + y * 78.233 + z * 37.719) * 43758.5453)) ∧
    (M.sin (x * 12.9898 + y * 78.233 + z * 37.719) * 43758.5453 < 0 →
      Int.fract (M.sin (x * 12.9898 + y * 78.233 + z * 37.719) * 43758.5453) ≠ 0 →
      |hash13 M x y z| =
        1 - Int.fract (M.sin (x * 12.9898 + y * 78.233 + z * 37.719) * 43758.5453)) := by
  have e : |hash13 M x y z| =
      Int.fract |M.sin (x * 12.9898 + y * 78.233 + z * 37.719) * 43758.5453| :=
    abs_fmod_one _
  refine ⟨e, abs_nonneg _, ?_, fun h => ?_, fun h hf => ?_⟩
  · rw [e]
    exact Int.fract_lt_one _
  · rw [e, abs_of_nonneg h]
  · rw [e, abs_of_neg h, Int.fract_neg hf]

end Hash

/-- The hash argument of the cell `(-5, -42, 90)` is `43.975`, just below
`14 π`, and the scaled sine lies between `-319.4` and `-319.2`. -/
theorem hash_cell_bounds :
    -319.4 ≤ Real.sin ((-5) * 12.9898 + (-42) * 78.233 + 90 * 37.719) * 43758.5453 ∧
    Real.sin ((-5) * 12.9898 + (-42) * 78.233 + 90 * 37.719) * 43758.5453 ≤ -319.2 := by
  have hp : ((-5) * 12.9898 + (-42) * 78.233 + 90 * 37.719 : ℝ) =
      (43.975 - 14 * Real.pi) + (7 : ℕ) * (2 * Real.pi) := by
    push_cast
    ring
  rw [hp, Real.sin_add_nat_mul_two_pi]
  have h1 := Real.pi_gt_d20
  have h2 := Real.pi_lt_d20
  have hlo : -0.0072972 ≤ 43.975 - 14 * Real.pi := by linarith
  have hhi : 43.975 - 14 * Real.pi ≤ -0.0072971 := by linarith
  generalize 43.975 - 14 * Real.pi = δ at hlo hhi
  have habs : |δ| ≤ 1 := by
    rw [abs_le]
    constructor <;> linarith
  have hb := Real.sin_bound habs
  rw [abs_le] at hb
  have ha0 : 0 ≤ -δ := by linarith
  have ha1 : -δ ≤ 0.0073 := by linarith
  have h3 : (-δ) ^ 3 ≤ 0.0073 ^ 3 := pow_le_pow_left₀ ha0 ha1 3
  have h3' : 0 ≤ (-δ) ^ 3 := pow_nonneg ha0 3
  have h4 : (-δ) ^ 4 ≤ 0.0073 ^ 4 := pow_le_pow_left₀ ha0 ha1 4
  have e3 : (-δ) ^ 3 = -δ ^ 3 := by ring
  have e4 : |δ| ^ 4 = (-δ) ^ 4 := by
    rw [abs_of_nonpos (by linarith : δ ≤ 0)]
  rw [e4] at hb
  rw [e3] at h3 h3'
  norm_num at h3 h4
  constructor <;> nlinarith [hb.1, hb.2]

/-- C16 as stated fails for a negative sine: the cell `(-5, -42, 90)` of the
unit direction `(-2/43, -18/43, 39/43)` in the first star layer has
`s ≈ -319.31`, so `h = |fmod(s, 1)| ≈ 0.31` while `frac(s) ≈ 0.69`. -/
theorem starfield_hash_counterexample :
    (⟨-2 / 43, -18 / 43, 39 / 43⟩ : Vec3 ℝ).length_squared = 1 ∧
    ⌊(-2 / 43 : ℝ) * 100⌋ = -5 ∧ ⌊(-18 / 43 : ℝ) * 100⌋ = -42 ∧ ⌊(39 / 43 : ℝ) * 100⌋ = 90 ∧
    |hash13 real_fns (-5) (-42) 90| ≠
      Int.fract (Real.sin ((-5) * 12.9898 + (-42) * 78.233 + 90 * 37.719) * 43758.5453) := by
  refine ⟨?_, ?_, ?_, ?_, ?_⟩
  · simp only [Vec3.length_squared]
    norm_num
  · rw [Int.floor_eq_iff]
    constructor <;> norm_num
  · rw [Int.floor_eq_iff]
    constructor <;> norm_num
  · rw [Int.floor_eq_iff]
    constructor <;> norm_num
  · obtain ⟨hlo, hhi⟩ := hash_cell_bounds
    show |fmod_one (Real.sin ((-5) * 12.9898 + (-42) * 78.233 + 90 * 37.719) * 43758.5453)| ≠ _
    generalize Real.sin ((-5) * 12.9898 + (-42) * 78.233 + 90 * 37.719) * 43758.5453 = s
      at hlo hhi
    have hneg : ¬ (0 : ℝ) ≤ s := by
      push_neg
      linarith
    have hceil : ⌈s⌉ = -319 := by
      rw [Int.ceil_eq_iff]
      constructor <;> push_cast <;> linarith
    have hfloor : ⌊s⌋ = -320 := by
      rw [Int.floor_eq_iff]
      constructor <;> push_cast <;> linarith
    have e1 : fmod_one s = s + 319 := by
      unfold fmod_one trunc
      rw [if_neg hneg, hceil]
      push_cast
      ring
    have e2 : Int.fract s = s + 320 := by
      unfold Int.fract
      rw [hfloor]
      push_cast
      ring
    rw [e1, e2, abs_of_nonpos (by linarith)]
    intro h
    linarith

end Lensing

namespace Lensing

/-! ## Reflection, the division guard and planar motion -/

section Equivariance

variable {K : Type} [LinearOrderedField K]

/-- C18: with the mirror map `(x, y, z) ↦ (-x, y, z)` applied to position and
momentum, the derivative of the mirrored state is the mirrored derivative
(undefined exactly when the derivative is), one RK4 step from the mirrored
state gives the mirrored state, and so the integration loop from the mirrored
initial state ends with the same hit flag and the mirrored state; the map
entry written from it has the same flag and, when escaped, the mirrored
direction. -/
theorem reflection_equivariance (M : MathFns K) (s : PhotonState K) (rs t dt : K) :
    schwarzschild_equations M s.mirror_x t rs =
      (schwarzschild_equations M s t rs).map PhotonState.mirror_x ∧
    rk4_step (some s.mirror_x : PState K) t dt (equations M rs) =
      (rk4_step (some s : PState K) t dt (equations M rs)).map PhotonState.mirror_x ∧
    ∀ (n : Nat) (old : PrecomputedPixel K),
      integrate M rs n s.mirror_x = (integrate M rs n s).map (fun r => (r.1, r.2.mirror_x)) ∧
      (write_pixel M old (integrate M rs n s.mirror_x)).hit =
        (write_pixel M old (integrate M rs n s)).hit ∧
      ((write_pixel M old (integrate M rs n s)).hit = some false →
        ∃ d : Vec3 K, (write_pixel M old (integrate M rs n s)).local_dir = some d ∧
          (write_pixel M old (integrate M rs n s.mirror_x)).local_dir = some d.mirror_x) := by
  refine ⟨schwarzschild_mirror_x M s t rs, rk4_step_mirror_x M rs (some s) t dt,
    fun n old => ?_⟩
  have hi := integrate_mirror_x M rs n s
  refine ⟨hi, ?_, ?_⟩
  · rw [(write_pixel_spec M old _).1, (write_pixel_spec M old _).1, hi, Option.map_map]
    rfl
  · intro hf
    rw [(write_pixel_spec M old _).1] at hf
    cases ht : integrate M rs n s with
    | none => rw [ht] at hf; exact Option.noConfusion hf
    | some r =>
      obtain ⟨b, st⟩ := r
      rw [ht] at hf
      have hb : b = false := by simpa using hf
      subst hb
      refine ⟨st.mom.normalized M, ?_, ?_⟩
      · exact (write_pixel_spec M old _).2 st rfl
      · rw [hi, ht, ← Vec3.normalized_mirror_x]
        exact (write_pixel_spec M old _).2 st.mirror_x rfl

end Equivariance

section Guard

variable {K : Type} [LinearOrderedField K]

/-- For `rs > 0` the divisor of a state outside the guard is positive. -/
theorem divisor_pos (M : MathFns K) (hM : SqrtSpec M) (s : PhotonState K) (rs : K)
    (hrs : 0 < rs) (hg : ¬ M.sqrt s.pos.length_squared < 0.1 * rs) :
    0 < s.pos.length_squared * s.pos.length_squared * M.sqrt s.pos.length_squared := by
  have hr : 0 < M.sqrt s.pos.length_squared := by
    have : (0 : K) < 0.1 * rs := mul_pos (by norm_num) hrs
    exact lt_of_lt_of_le this (not_lt.mp hg)
  have hsq := hM.sq _ (Vec3.length_squared_nonneg s.pos)
  have h2 : 0 < s.pos.length_squared := by
    rw [← hsq]
    exact mul_pos hr hr
  exact mul_pos (mul_pos h2 h2) hr

/-- For `rs > 0` the derivative is defined at every state. -/
theorem schwarzschild_defined (M : MathFns K) (hM : SqrtSpec M) (s : PhotonState K) (t rs : K)
    (hrs : 0 < rs) : ∃ k, schwarzschild_equations M s t rs = some k := by
  by_cases hg : M.sqrt s.pos.length_squared < 0.1 * rs
  · exact ⟨_, schwarzschild_guard M s t rs hg⟩
  · exact ⟨_, schwarzschild_regular M s t rs hg (divisor_pos M hM s rs hrs hg).ne'⟩

/-- For `rs ≤ 0` the guard does not fire at the origin, where the divisor is 0
and the derivative undefined. -/
theorem schwarzschild_origin (M : MathFns K) (hM : SqrtSpec M) (s : PhotonState K) (t rs : K)
    (hrs : rs ≤ 0) (hp : s.pos = ⟨0, 0, 0⟩) :
    ¬ M.sqrt s.pos.length_squared < 0.1 * rs ∧
    s.pos.length_squared * s.pos.length_squared * M.sqrt s.pos.length_squared = 0 ∧
    schwarzschild_equations M s t rs = none := by
  have hz : s.pos.length_squared = 0 := by
    rw [hp]
    simp [Vec3.length_squared]
  have hg : ¬ M.sqrt s.pos.length_squared < 0.1 * rs := by
    rw [hz, hM.sqrt_zero, not_lt]
    exact mul_nonpos_of_nonneg_of_nonpos (by norm_num) hrs
  have hd : s.pos.length_squared * s.pos.length_squared * M.sqrt s.pos.length_squared = 0 := by
    rw [hz]
    simp
  exact ⟨hg, hd, schwarzschild_undefined M s t rs hg hd⟩

/-- C19: for `rs > 0` every call of `schwarzschild_equations` either takes the
guard branch, or divides by `r2 * r2 * r` with `r ≥ 0.1 * rs > 0`, a positive
divisor, so the derivative is always defined; for `rs ≤ 0` the guard does not
fire at `pos = 0`, the divisor is 0 there and the derivative is undefined. -/
theorem division_guard (M : MathFns K) (hM : SqrtSpec M) (s : PhotonState K) (t rs : K) :
    (0 < rs →
      (M.sqrt s.pos.length_squared < 0.1 * rs ∧
        schwarzschild_equations M s t rs = some ⟨⟨0, 0, 0⟩, ⟨0, 0, 0⟩⟩) ∨
      (0 < 0.1 * rs ∧ 0.1 * rs ≤ M.sqrt s.pos.length_squared ∧
        0 < s.pos.length_squared * s.pos.length_squared * M.sqrt s.pos.length_squared ∧
        schwarzschild_equations M s t rs =
          some ⟨s.mom, s.pos * (-1.5 * rs * (Vec3.cross s.pos s.mom).length_squared /
            (s.pos.length_squared * s.pos.length_squared * M.sqrt s.pos.length_squared))⟩)) ∧
    (rs ≤ 0 → s.pos = ⟨0, 0, 0⟩ →
      ¬ M.sqrt s.pos.length_squared < 0.1 * rs ∧
      s.pos.length_squared * s.pos.length_squared * M.sqrt s.pos.length_squared = 0 ∧
      schwarzschild_equations M s t rs = none) := by
  constructor
  · intro hrs
    by_cases hg : M.sqrt s.pos.length_squared < 0.1 * rs
    · exact Or.inl ⟨hg, schwarzschild_guard M s t rs hg⟩
    · have hd := divisor_pos M hM s rs hrs hg
      exact Or.inr ⟨mul_pos (by norm_num) hrs, not_lt.mp hg, hd,
        schwarzschild_regular M s t rs hg hd.ne'⟩
  · exact schwarzschild_origin M hM s t rs

end Guard

/-- C19 over the reals at the state `pos = (0, 0, -150)`, `mom = (0, 0, 1)`
with `rs = 4`: the derivative is defined. -/
theorem division_guard_witness :
    (0 : ℝ) < 4 ∧
    ∃ k, schwarzschild_equations real_fns (⟨⟨0, 0, -150⟩, ⟨0, 0, 1⟩⟩ : PhotonState ℝ) 0 4 =
      some k := by
  refine ⟨by norm_num, ?_⟩
  rcases (division_guard real_fns real_fns_spec (⟨⟨0, 0, -150⟩, ⟨0, 0, 1⟩⟩ : PhotonState ℝ)
    0 4).1 (by norm_num) with h | h
  · exact ⟨_, h.2⟩
  · exact ⟨_, h.2.2.2⟩

section Planar

variable {K : Type} [LinearOrderedField K]

/-- A property of states kept by sums, multiples and the derivative is kept by
an RK4 step. -/
theorem rk4_step_preserves (M : MathFns K) (rs t dt : K) (P : PhotonState K → Prop)
    (hadd : ∀ a b, P a → P b → P (a + b)) (hmul : ∀ a (c : K), P a → P (a * c))
    (hf : ∀ a u k, P a → schwarzschild_equations M a u rs = some k → P k)
    (s s2 : PhotonState K) (hs : P s)
    (h : rk4_step (some s : PState K) t dt (equations M rs) = some s2) : P s2 := by
  simp only [rk4_step, equations_some] at h
  cases h1 : schwarzschild_equations M s t rs with
  | none => rw [h1] at h; simp at h
  | some k1 =>
    rw [h1] at h
    simp only [PState.some_mul, PState.some_add, equations_some] at h
    have p1 := hf s t k1 hs h1
    cases h2 : schwarzschild_equations M (s + k1 * (dt * 0.5)) (t + dt * 0.5) rs with
    | none => rw [h2] at h; simp at h
    | some k2 =>
      rw [h2] at h
      simp only [PState.some_mul, PState.some_add, equations_some] at h
      have p2 := hf _ _ k2 (hadd _ _ hs (hmul _ _ p1)) h2
      cases h3 : schwarzschild_equations M (s + k2 * (dt * 0.5)) (t + dt * 0.5) rs with
      | none => rw [h3] at h; simp at h
      | some k3 =>
        rw [h3] at h
        simp only [PState.some_mul, PState.some_add, equations_some] at h
        have p3 := hf _ _ k3 (hadd _ _ hs (hmul _ _ p2)) h3
        cases h4 : schwarzschild_equations M (s + k3 * dt) (t + dt) rs with
        | none => rw [h4] at h; simp at h
        | some k4 =>
          rw [h4] at h
          simp only [PState.some_mul, PState.some_add, Option.some.injEq] at h
          have p4 := hf _ _ k4 (hadd _ _ hs (hmul _ _ p3)) h4
          rw [← h]
          exact hadd _ _ hs (hmul _ _
            (hadd _ _ (hadd _ _ (hadd _ _ p1 (hmul _ _ p2)) (hmul _ _ p3)) p4))

/-- The derivative of a state whose position and momentum are orthogonal to
`n` is orthogonal to `n`. -/
theorem schwarzschild_orthogonal (M : MathFns K) (rs : K) (n : Vec3 K) (a : PhotonState K)
    (u : K) (k : PhotonState K) (ha : Vec3.dot n a.pos = 0 ∧ Vec3.dot n a.mom = 0)
    (hk : schwarzschild_equations M a u rs = some k) :
    Vec3.dot n k.pos = 0 ∧ Vec3.dot n k.mom = 0 := by
  by_cases hg : M.sqrt a.pos.length_squared < 0.1 * rs
  · rw [schwarzschild_guard M a u rs hg] at hk
    cases hk
    simp [Vec3.dot]
  · by_cases hz : a.pos.length_squared * a.pos.length_squared *
        M.sqrt a.pos.length_squared = 0
    · rw [schwarzschild_undefined M a u rs hg hz] at hk
      exact Option.noConfusion hk
    · rw [schwarzschild_regular M a u rs hg hz] at hk
      cases hk
      refine ⟨ha.2, ?_⟩
      have h1 := ha.1
      simp only [Vec3.dot, Vec3.mul_x, Vec3.mul_y, Vec3.mul_z] at h1 ⊢
      linear_combination (-1.5 * rs * (Vec3.cross a.pos a.mom).length_squared /
        (a.pos.length_squared * a.pos.length_squared * M.sqrt a.pos.length_squared)) * h1

/-- One RK4 step keeps position and momentum orthogonal to `n`. -/
theorem rk4_step_orthogonal (M : MathFns K) (rs t dt : K) (n : Vec3 K) (s s2 : PhotonState K)
    (hs : Vec3.dot n s.pos = 0 ∧ Vec3.dot n s.mom = 0)
    (h : rk4_step (some s : PState K) t dt (equations M rs) = some s2) :
    Vec3.dot n s2.pos = 0 ∧ Vec3.dot n s2.mom = 0 := by
  refine rk4_step_preserves M rs t dt
    (fun a => Vec3.dot n a.pos = 0 ∧ Vec3.dot n a.mom = 0) ?_ ?_
    (fun a u k => schwarzschild_orthogonal M rs n a u k) s s2 hs h
  · intro a b ha hb
    obtain ⟨a1, a2⟩ := ha
    obtain ⟨b1, b2⟩ := hb
    simp only [Vec3.dot, PhotonState.add_pos, PhotonState.add_mom, Vec3.add_x, Vec3.add_y,
      Vec3.add_z] at a1 a2 b1 b2 ⊢
    constructor
    · linear_combination a1 + b1
    · linear_combination a2 + b2
  · intro a c ha
    obtain ⟨a1, a2⟩ := ha
    simp only [Vec3.dot, PhotonState.mul_pos, PhotonState.mul_mom, Vec3.mul_x, Vec3.mul_y,
      Vec3.mul_z] at a1 a2 ⊢
    constructor
    · linear_combination c * a1
    · linear_combination c * a2

/-- For `rs > 0` an RK4 step is defined at every state. -/
theorem rk4_step_defined (M : MathFns K) (hM : SqrtSpec M) (s : PhotonState K) (rs t dt : K)
    (hrs : 0 < rs) : ∃ s2, rk4_step (some s : PState K) t dt (equations M rs) = some s2 := by
  obtain ⟨k1, h1⟩ := schwarzschild_defined M hM s t rs hrs
  obtain ⟨k2, h2⟩ := schwarzschild_defined M hM (s + k1 * (dt * 0.5)) (t + dt * 0.5) rs hrs
  obtain ⟨k3, h3⟩ := schwarzschild_defined M hM (s + k2 * (dt * 0.5)) (t + dt * 0.5) rs hrs
  obtain ⟨k4, h4⟩ := schwarzschild_defined M hM (s + k3 * dt) (t + dt) rs hrs
  exact ⟨_, rk4_step_stages M rs t dt s k1 k2 k3 k4 h1 h2 h3 h4⟩

/-- For `rs > 0` the integration loop ends with a state. -/
theorem integrate_defined (M : MathFns K) (hM : SqrtSpec M) (rs : K) (hrs : 0 < rs) (n : Nat) :
    ∀ s : PhotonState K, ∃ r, integrate M rs n s = some r := by
  induction n with
  | zero => exact fun s => ⟨_, rfl⟩
  | succ n ih =>
    intro s
    obtain ⟨s2, h2⟩ := rk4_step_defined M hM s rs 0
      (step_size rs (M.sqrt s.pos.length_squared)) hrs
    rw [integrate_succ_some M rs n s s2 h2]
    split_ifs
    · exact ⟨_, rfl⟩
    · exact ⟨_, rfl⟩
    · exact ih s2

/-- The integration loop keeps position and momentum orthogonal to `n`. -/
theorem integrate_orthogonal (M : MathFns K) (rs : K) (n : Vec3 K) (k : Nat) :
    ∀ (s : PhotonState K) (b : Bool) (s2 : PhotonState K),
      Vec3.dot n s.pos = 0 ∧ Vec3.dot n s.mom = 0 → integrate M rs k s = some (b, s2) →
      Vec3.dot n s2.pos = 0 ∧ Vec3.dot n s2.mom = 0 := by
  induction k with
  | zero =>
    intro s b s2 hs h
    rw [integrate_zero] at h
    cases h
    exact hs
  | succ k ih =>
    intro s b s2 hs h
    cases hr : rk4_step (some s : PState K) 0 (step_size rs (M.sqrt s.pos.length_squared))
      (equations M rs) with
    | none =>
      rw [integrate_succ_none M rs k s hr] at h
      exact Option.noConfusion h
    | some s1 =>
      have h1 := rk4_step_orthogonal M rs 0 _ n s s1 hs hr
      rw [integrate_succ_some M rs k s s1 hr] at h
      split_ifs at h
      · cases h; exact h1
      · cases h; exact h1
      · exact ih s1 b s2 h1 h

theorem Vec3.dot_cross_self_left (p m : Vec3 K) : Vec3.dot (Vec3.cross p m) p = 0 := by
  simp only [Vec3.dot, Vec3.cross_x, Vec3.cross_y, Vec3.cross_z]
  ring

theorem Vec3.dot_cross_self_right (p m : Vec3 K) : Vec3.dot (Vec3.cross p m) m = 0 := by
  simp only [Vec3.dot, Vec3.cross_x, Vec3.cross_y, Vec3.cross_z]
  ring

theorem Vec3.dot_unit_x (v : Vec3 K) : Vec3.dot (⟨1, 0, 0⟩ : Vec3 K) v = v.x := by
  simp [Vec3.dot]

/-- C17, amended: wherever the RK4 step from `s` is defined, and it is defined
at every state when `rs > 0`, the new position and momentum are orthogonal to
`cross(s.pos, s.mom)`, so they stay in the plane of `s.pos` and `s.mom`; and a
photon that starts with `pos.x = 0` and `mom.x = 0` keeps both after one step
of any size and at the end of the integration loop of any length, which for
`rs > 0` always ends with a state. -/
theorem planar_motion (M : MathFns K) (hM : SqrtSpec M) (s : PhotonState K) (rs t dt : K) :
    (0 < rs → ∃ s2, rk4_step (some s : PState K) t dt (equations M rs) = some s2) ∧
    (∀ s2, rk4_step (some s : PState K) t dt (equations M rs) = some s2 →
      Vec3.dot (Vec3.cross s.pos s.mom) s2.pos = 0 ∧
      Vec3.dot (Vec3.cross s.pos s.mom) s2.mom = 0) ∧
    (s.pos.x = 0 → s.mom.x = 0 →
      (∀ s2, rk4_step (some s : PState K) t dt (equations M rs) = some s2 →
        s2.pos.x = 0 ∧ s2.mom.x = 0) ∧
      (∀ (n : Nat) (b : Bool) (s2 : PhotonState K), integrate M rs n s = some (b, s2) →
        s2.pos.x = 0 ∧ s2.mom.x = 0) ∧
      (0 < rs → ∀ n : Nat, ∃ r, integrate M rs n s = some r)) := by
  refine ⟨rk4_step_defined M hM s rs t dt, fun s2 h => ?_, fun hp hm => ⟨fun s2 h => ?_,
    fun n b s2 h => ?_, fun hrs n => integrate_defined M hM rs hrs n s⟩⟩
  · exact rk4_step_orthogonal M rs t dt _ s s2
      ⟨Vec3.dot_cross_self_left s.pos s.mom, Vec3.dot_cross_self_right s.pos s.mom⟩ h
  · have := rk4_step_orthogonal M rs t dt ⟨1, 0, 0⟩ s s2
      (by rw [Vec3.dot_unit_x, Vec3.dot_unit_x]; exact ⟨hp, hm⟩) h
    rwa [Vec3.dot_unit_x, Vec3.dot_unit_x] at this
  · have := integrate_orthogonal M rs ⟨1, 0, 0⟩ n s b s2
      (by rw [Vec3.dot_unit_x, Vec3.dot_unit_x]; exact ⟨hp, hm⟩) h
    rwa [Vec3.dot_unit_x, Vec3.dot_unit_x] at this

end Planar

/-- C17 as stated fails where the step is undefined: for `rs = 0` the photon
at the origin makes `schwarzschild_equations` divide 0 by 0, and the RK4 step
yields no state whose position and momentum could lie in the plane. -/
theorem planar_motion_counterexample :
    ¬ ∀ (s : PhotonState ℝ) (rs t dt : ℝ), ∃ s2 : PhotonState ℝ,
      rk4_step (some s : PState ℝ) t dt (equations real_fns rs) = some s2 ∧
      Vec3.dot (Vec3.cross s.pos s.mom) s2.pos = 0 ∧
      Vec3.dot (Vec3.cross s.pos s.mom) s2.mom = 0 := by
  intro h
  obtain ⟨s2, h2, -⟩ := h ⟨⟨0, 0, 0⟩, ⟨0, 0, 1⟩⟩ 0 0 0.5
  have hu : schwarzschild_equations real_fns (⟨⟨0, 0, 0⟩, ⟨0, 0, 1⟩⟩ : PhotonState ℝ) 0 0 =
      none :=
    (schwarzschild_origin real_fns real_fns_spec ⟨⟨0, 0, 0⟩, ⟨0, 0, 1⟩⟩ 0 0 le_rfl rfl).2.2
  rw [rk4_step_undefined real_fns _ 0 0.5 0 hu] at h2
  exact Option.noConfusion h2

/-- C17, amended, over the reals with `rs = 4` from the camera state
`pos = (0, 0, -150)`, `mom = (0, 0.6, 0.8)`: the step is defined and stays in
the plane `x = 0`. -/
theorem planar_motion_witness :
    ∃ s2 : PhotonState ℝ,
      rk4_step (some ⟨⟨0, 0, -150⟩, ⟨0, 0.6, 0.8⟩⟩ : PState ℝ) 0 0.5 (equations real_fns 4) =
        some s2 ∧ s2.pos.x = 0 ∧ s2.mom.x = 0 := by
  have h := planar_motion real_fns real_fns_spec ⟨⟨0, 0, -150⟩, ⟨0, 0.6, 0.8⟩⟩ 4 0 0.5
  obtain ⟨s2, h2⟩ := h.1 (by norm_num)
  exact ⟨s2, h2, (h.2.2 rfl rfl).1 s2 h2⟩

end Lensing

namespace Lensing

/-! ## Orientation and the cache -/

section Orientation

variable {K : Type} [LinearOrderedField K] [FloorRing K]

/-- An idle tick after the first keeps the scheduler state, the map and the
parameters, and leaves the orientation that the events give. -/
theorem main_loop_idle (M : MathFns K) (W H : Nat) (events : List Event) (g : Globals K)
    (hf : g.first = false) (hc : g.is_calculating = false) :
    (main_loop M W H events g).distortion_map = g.distortion_map ∧
    (main_loop M W H events g).calc_row = g.calc_row ∧
    (main_loop M W H events g).is_calculating = g.is_calculating ∧
    (main_loop M W H events g).g_rs = g.g_rs ∧
    (main_loop M W H events g).camera_dist = g.camera_dist ∧
    (main_loop M W H events g).camera_yaw = (events.foldl handle_event g).camera_yaw := by
  obtain ⟨a1, a2, a3, -, a5, a6, -⟩ := handle_events_frame events g
  have e : main_loop M W H events g =
      if ¬ (events.foldl handle_event g).distortion_map_ready = true then
        events.foldl handle_event g
      else { events.foldl handle_event g with
        pixels := draw_pip M W H (events.foldl handle_event g)
          (draw_main M W H (events.foldl handle_event g)) } := by
    have hg1 : (if g.first then { reset_calculation g with first := false } else g) = g := by
      rw [hf]; rfl
    simp only [main_loop, hg1, hc]
    rfl
  rw [e]
  split_ifs
  · exact ⟨a1, a2, a3, a5, a6, rfl⟩
  · exact ⟨a1, a2, a3, a5, a6, rfl⟩

/-- The first tick clears the flag `first` and keeps the orientation. -/
theorem main_loop_first (M : MathFns K) (W H : Nat) (events : List Event) (g : Globals K)
    (hf : g.first = true) :
    (main_loop M W H events g).first = false ∧
    (main_loop M W H events g).camera_yaw = g.camera_yaw := by
  have e : main_loop M W H events g =
      step_calculation M W H { reset_calculation g with first := false } := by
    have hg1 : (if g.first then { reset_calculation g with first := false } else g) =
        { reset_calculation g with first := false } := by
      rw [hf]; rfl
    have hc : ({ reset_calculation g with first := false } : Globals K).is_calculating = true :=
      rfl
    simp only [main_loop, hg1]
    rw [if_pos hc]
  rw [e]
  simp only [step_calculation]
  split_ifs <;> exact ⟨rfl, rfl⟩

/-- C10: two program states, reached from the initial state by any calls of
the setters and of `main_loop` (image height positive), that agree on `g_rs`,
`camera_dist`, `calc_row`, `is_calculating` and `distortion_map`, have the
same map, cursor and flags after `step_calculation`, whatever their yaw and
pitch; and a pointer drag changes none of the map, the cursor and the
flags. -/
theorem orientation_independence (M : MathFns K) (W H : Nat) (hH : 0 < H)
    (acts1 acts2 : List (Action K))
    (h_rs : (run M W H acts1).g_rs = (run M W H acts2).g_rs)
    (h_dist : (run M W H acts1).camera_dist = (run M W H acts2).camera_dist)
    (h_row : (run M W H acts1).calc_row = (run M W H acts2).calc_row)
    (h_calc : (run M W H acts1).is_calculating = (run M W H acts2).is_calculating)
    (h_map : (run M W H acts1).distortion_map = (run M W H acts2).distortion_map) :
    ((step_calculation M W H (run M W H acts1)).distortion_map =
        (step_calculation M W H (run M W H acts2)).distortion_map ∧
      (step_calculation M W H (run M W H acts1)).calc_row =
        (step_calculation M W H (run M W H acts2)).calc_row ∧
      (step_calculation M W H (run M W H acts1)).is_calculating =
        (step_calculation M W H (run M W H acts2)).is_calculating ∧
      (step_calculation M W H (run M W H acts1)).distortion_map_ready =
        (step_calculation M W H (run M W H acts2)).distortion_map_ready) ∧
    ∀ (g : Globals K) (left_button : Bool) (xrel yrel : Int),
      (handle_event g (Event.mouse_motion left_button xrel yrel)).distortion_map =
        g.distortion_map ∧
      (handle_event g (Event.mouse_motion left_button xrel yrel)).calc_row = g.calc_row ∧
      (handle_event g (Event.mouse_motion left_button xrel yrel)).is_calculating =
        g.is_calculating ∧
      (handle_event g (Event.mouse_motion left_button xrel yrel)).distortion_map_ready =
        g.distortion_map_ready := by
  have hr : (run M W H acts1).distortion_map_ready = (run M W H acts2).distortion_map_ready := by
    have q1 := ready_iff_of_run M W H hH acts1
    have q2 := ready_iff_of_run M W H hH acts2
    rw [← h_row, ← h_calc] at q2
    exact Bool.eq_iff_iff.mpr (q1.trans q2.symm)
  refine ⟨step_calculation_congr M W H _ _ h_rs h_dist h_row h_calc h_map hr, ?_⟩
  intro g b x y
  obtain ⟨a1, a2, a3, a4, -⟩ := handle_event_frame g (Event.mouse_motion b x y)
  exact ⟨a1, a2, a3, a4⟩

end Orientation

/-- The 4×4 grid after the first tick, followed by an idle tick with the
events `es`: the scheduler state, the map and the parameters are those after
the first tick, and the yaw is the one the events give from yaw 0. -/
theorem run_idle_tick_4x4 (es : List Event) :
    (run real_fns 4 4 [Action.main_loop [], Action.main_loop es]).distortion_map =
      (run real_fns 4 4 [Action.main_loop []]).distortion_map ∧
    (run real_fns 4 4 [Action.main_loop [], Action.main_loop es]).calc_row =
      (run real_fns 4 4 [Action.main_loop []]).calc_row ∧
    (run real_fns 4 4 [Action.main_loop [], Action.main_loop es]).is_calculating =
      (run real_fns 4 4 [Action.main_loop []]).is_calculating ∧
    (run real_fns 4 4 [Action.main_loop [], Action.main_loop es]).g_rs =
      (run real_fns 4 4 [Action.main_loop []]).g_rs ∧
    (run real_fns 4 4 [Action.main_loop [], Action.main_loop es]).camera_dist =
      (run real_fns 4 4 [Action.main_loop []]).camera_dist ∧
    (run real_fns 4 4 [Action.main_loop [], Action.main_loop es]).camera_yaw =
      (es.foldl handle_event (run real_fns 4 4 [Action.main_loop []])).camera_yaw ∧
    (run real_fns 4 4 [Action.main_loop []]).camera_yaw = 0 := by
  have e1 : run real_fns 4 4 [Action.main_loop []] =
      main_loop real_fns 4 4 [] (initial : Globals ℝ) := rfl
  have e2 : run real_fns 4 4 [Action.main_loop [], Action.main_loop es] =
      main_loop real_fns 4 4 es (run real_fns 4 4 [Action.main_loop []]) := rfl
  obtain ⟨f1, f2⟩ := main_loop_first real_fns 4 4 [] (initial : Globals ℝ) rfl
  rw [← e1] at f1 f2
  have hready := run_default_4x4.1
  obtain ⟨i1, -, -, -⟩ := scheduler_inv_run real_fns 4 4 [Action.main_loop ([] : List Event)]
  have hc : (run real_fns 4 4 [Action.main_loop []]).is_calculating = false := by
    cases h : (run real_fns 4 4 [Action.main_loop []]).is_calculating with
    | false => rfl
    | true => rw [i1 h] at hready; exact Bool.noConfusion hready
  obtain ⟨a1, a2, a3, a4, a5, a6⟩ := main_loop_idle real_fns 4 4 es _ f1 hc
  rw [← e2] at a1 a2 a3 a4 a5 a6
  refine ⟨a1, a2, a3, a4, a5, a6, ?_⟩
  rw [f2]
  norm_num [initial]

/-- C10 on the 4×4 grid: after the first tick has completed the pass, an idle
tick without events and an idle tick with a drag by `(10, 10)` give two
program states of different yaw that agree on the five fields, and
`step_calculation` gives the same map and the same readiness flag on both. -/
theorem orientation_independence_witness :
    (run real_fns 4 4 [Action.main_loop [], Action.main_loop []]).camera_yaw ≠
      (run real_fns 4 4 [Action.main_loop [],
        Action.main_loop [Event.mouse_motion true 10 10]]).camera_yaw ∧
    (step_calculation real_fns 4 4
        (run real_fns 4 4 [Action.main_loop [], Action.main_loop []])).distortion_map =
      (step_calculation real_fns 4 4 (run real_fns 4 4 [Action.main_loop [],
        Action.main_loop [Event.mouse_motion true 10 10]])).distortion_map ∧
    (step_calculation real_fns 4 4
        (run real_fns 4 4 [Action.main_loop [], Action.main_loop []])).distortion_map_ready =
      (step_calculation real_fns 4 4 (run real_fns 4 4 [Action.main_loop [],
        Action.main_loop [Event.mouse_motion true 10 10]])).distortion_map_ready := by
  obtain ⟨a1, a2, a3, a4, a5, a6, a7⟩ := run_idle_tick_4x4 []
  obtain ⟨b1, b2, b3, b4, b5, b6, -⟩ := run_idle_tick_4x4 [Event.mouse_motion true 10 10]
  have h := (orientation_independence real_fns 4 4 (by decide)
    [Action.main_loop [], Action.main_loop []]
    [Action.main_loop [], Action.main_loop [Event.mouse_motion true 10 10]]
    (a4.trans b4.symm) (a5.trans b5.symm) (a2.trans b2.symm) (a3.trans b3.symm)
    (a1.trans b1.symm)).1
  refine ⟨?_, h.1, h.2.2.2⟩
  rw [a6, b6]
  simp only [List.foldl_cons, List.foldl_nil, handle_event, a7]
  norm_num

end Lensing
